import Mathlib

/-!
Verification of the SVG post-processing core of the music-md repository.

The embedding models the JavaScript string-surgery functions
`fixSvgViewBox` and `fixMultipleSvgViewBoxes` (remark-svguitar plugin),
`compactSvg` and `escapeHtml` (remark-lilypond plugin) and
`normaliseChordData` (remark-svguitar plugin) as total functions over
`List Char`.

Modelling decisions, stated once here:
* JavaScript numbers are modelled as IEEE-754 binary64 doubles:
  `JSVal.num sg m e` denotes `±(m · 2^e)` (sign, significand,
  exponent), with separate `NaN`, signed zeros, signed infinities and
  `undefined`.  Every arithmetic operation of the source (`* 1.2`,
  `+`, `-`, `Math.min`, `Math.max`) computes the exact rational result
  and rounds it with roundTiesToEven, including subnormals, underflow
  to zero and overflow to infinity, so that e.g. `9 * 1.2` is the
  double printed `10.799999999999999` exactly as in JavaScript.
* `Number` to string conversion follows ECMAScript `Number::toString`:
  the shortest decimal that rounds back to the double (closest, ties to
  even), formatted with the integer / fixed / exponent forms and the
  `1e21` / `1e-7` thresholds; `toFixed(2)` follows
  `Number.prototype.toFixed` (nearest, ties away from zero on the
  non-negative magnitude, `ToString` fallback at `1e21`).
* `parseFloat` is modelled faithfully: leading whitespace skip,
  optional sign, `Infinity`, longest valid decimal-literal prefix
  (including exponent part), `NaN` when no digits are found, and the
  exact decimal value correctly rounded to the nearest double
  (with overflow to `Infinity` and underflow to zero).
* Each regular-expression operation of the source is hand-translated to
  a scanning function with the exact leftmost-match / greedy /
  lazy / global semantics of the original pattern; each scanner carries
  a comment naming the regex it embeds.
-/

namespace MusicMd

set_option maxRecDepth 16000

/-- Value space of the JavaScript numbers (and `undefined`) flowing
through the SVG fixing code, as IEEE-754 binary64 doubles:
`num sg m e` denotes `±(m · 2^e)` with `sg = true` for `+`;
`zero sg` is the signed zero. -/
inductive JSVal where
  | undefined : JSVal
  | nan : JSVal
  | inf : Bool → JSVal
  | zero : Bool → JSVal
  | num : Bool → ℕ → ℤ → JSVal
deriving DecidableEq, Repr

/-- Well-formed binary64 representation: a normal significand in
`[2^52, 2^53)` with exponent in `[-1074, 971]`, or a subnormal
significand in `(0, 2^52)` at the minimum exponent. -/
def WFnum (m : ℕ) (e : ℤ) : Prop :=
  (2 ^ 52 ≤ m ∧ m < 2 ^ 53 ∧ -1074 ≤ e ∧ e ≤ 971) ∨
  (0 < m ∧ m < 2 ^ 52 ∧ e = -1074)

def WF : JSVal → Prop
  | .num _ m e => WFnum m e
  | _ => True

/-- Fuel-based floor logarithm (kernel-reducible, unlike the
well-founded `Nat.log`). -/
def logbAux (b : ℕ) : ℕ → ℕ → ℕ
  | 0, _ => 0
  | fuel + 1, n => if b ≤ n then logbAux b fuel (n / b) + 1 else 0

/-- `nlog b n = ⌊log_b n⌋` for `1 ≤ n`, `2 ≤ b`. -/
def nlog (b n : ℕ) : ℕ := logbAux b n n

/-- `q · 2^B ≤ p` with an integer exponent, stated by shifting the
smaller side. -/
def powLe (q : ℕ) (B : ℤ) (p : ℕ) : Bool :=
  decide (q * 2 ^ B.toNat ≤ p * 2 ^ (-B).toNat)

/-- The unique `B` with `2^B ≤ p/q < 2^(B+1)` (for `1 ≤ p`, `1 ≤ q`). -/
def findB (p q : ℕ) : ℤ :=
  let B0 : ℤ := (nlog 2 p : ℤ) - (nlog 2 q : ℤ)
  if powLe q B0 p then B0 else B0 - 1

/-- Round `P / Q` to the nearest integer, ties to even. -/
def rnd (P Q : ℕ) : ℕ :=
  let d := P / Q
  let r := P % Q
  if 2 * r < Q then d
  else if Q < 2 * r then d + 1
  else if d % 2 = 0 then d else d + 1

/-- IEEE-754 binary64 rounding (roundTiesToEven) of the positive
rational `p / q`, with sign tag `sg`: normal result `n · 2^(B-52)`
with `n = rnd(p·2^(52-B)/q)`, subnormal result at exponent `-1074`
when `B ≤ -1023`, underflow to zero, overflow to `Infinity` past
`(2^53 - 1/2) · 2^971`. -/
def roundPos (sg : Bool) (p q : ℕ) : JSVal :=
  if p = 0 ∨ q = 0 then .zero sg
  else
    let B := findB p q
    if B ≤ -1023 then
      let n := rnd (p * 2 ^ 1074) q
      if n = 0 then .zero sg else .num sg n (-1074)
    else
      let s : ℤ := 52 - B
      let n := rnd (p * 2 ^ s.toNat) (q * 2 ^ (-s).toNat)
      if n = 2 ^ 53 then
        if 1023 < B + 1 then .inf sg else .num sg (2 ^ 52) (B - 51)
      else if 1023 < B then .inf sg
      else .num sg n (B - 52)

/-- Correctly rounded double of the signed decimal `a · 10^t`
(ECMAScript `RoundMVResult` with exact rounding). -/
def roundDec (sg : Bool) (a : ℕ) (t : ℤ) : JSVal :=
  roundPos sg (a * 10 ^ t.toNat) (10 ^ (-t).toNat)

/-- Does the decimal `a · 10^t` round to the double `m · 2^e`? -/
def roundsTo (a : ℕ) (t : ℤ) (m : ℕ) (e : ℤ) : Bool :=
  roundDec true a t = JSVal.num true m e

/-- Decimal digit count of a positive natural number. -/
def ndigits (n : ℕ) : ℕ := nlog 10 n + 1

/-- Digit-count selection of ECMAScript `Number::toString` (step 5 of
6.1.6.1.20) on the positive double `x = m·2^e` with exact decimal
value `A / 10^E` (`d` digits in `A`): the smallest number `k` of
significant digits for which an integer `s` of `k` digits has
`s · 10^(n-k)` rounding back to `x` (with `n = d - E` the decimal
exponent of `x`); among the two integer candidates nearest
`x · 10^(k-n)` the closer one is chosen, ties to the even one.  At
`k = d` the exact value `A / 10^E` itself is returned.  The result is
a pair `(a, e10)` denoting the chosen decimal `a / 10^e10`. -/
def mkShift (s : ℕ) (tk : ℤ) : ℕ × ℕ :=
  if 0 ≤ tk then (s * 10 ^ tk.toNat, 0) else (s, (-tk).toNat)

def shortAux (m : ℕ) (e : ℤ) (A : ℕ) (E d : ℕ) : ℕ → ℕ → ℕ × ℕ
  | _, 0 => (A, E)
  | k, fuel + 1 =>
    if d ≤ k then (A, E)
    else
      let Q := 10 ^ (d - k)
      let sf := A / Q
      let r := A % Q
      let tk : ℤ := (d : ℤ) - E - k
      let okf := roundsTo sf tk m e
      let okc := roundsTo (sf + 1) tk m e
      if okf && okc then
        if 2 * r < Q then mkShift sf tk
        else if Q < 2 * r then mkShift (sf + 1) tk
        else if sf % 2 = 0 then mkShift sf tk else mkShift (sf + 1) tk
      else if okf then mkShift sf tk
      else if okc then mkShift (sf + 1) tk
      else shortAux m e A E d (k + 1) fuel

/-- Shortest round-tripping decimal `(a, e10)` (value `a / 10^e10`) of
the positive double `m · 2^e`: the exact value is `m·2^e = A` when
`0 ≤ e` and `m·5^(-e) / 10^(-e)` otherwise. -/
def shortRep (m : ℕ) (e : ℤ) : ℕ × ℕ :=
  if 0 ≤ e then
    let A := m * 2 ^ e.toNat
    shortAux m e A 0 (ndigits A) 1 (ndigits A)
  else
    let A := m * 5 ^ (-e).toNat
    shortAux m e A (-e).toNat (ndigits A) 1 (ndigits A)

/-- Numeric value of a digit character. -/
def digitVal (c : Char) : ℕ := c.toNat - 48

def digitsToNat (l : List Char) : ℕ := l.foldl (fun a c => a * 10 + digitVal c) 0

def natDigitsAux : ℕ → ℕ → List Char
  | 0, _ => []
  | fuel + 1, n =>
    if n < 10 then [Nat.digitChar n]
    else natDigitsAux fuel (n / 10) ++ [Nat.digitChar (n % 10)]

def natDigits (n : ℕ) : List Char := natDigitsAux (n + 1) n

def stripZerosAux : ℕ → ℕ → ℕ × ℕ
  | 0, a => (a, 0)
  | fuel + 1, a =>
    if a % 10 = 0 ∧ a ≠ 0 then
      let p := stripZerosAux fuel (a / 10)
      (p.1, p.2 + 1)
    else (a, 0)

def stripZeros (a : ℕ) : ℕ × ℕ := stripZerosAux a a

/-- ECMAScript `Number::toString` formatting of the positive decimal
`a / 10 ^ e` (`a > 0`): integer form, fixed-point form, or exponent
form depending on the position `n` of the decimal point. -/
def renderPos (a : ℕ) (e : ℕ) : List Char :=
  let p := stripZeros a
  let ds := natDigits p.1
  let k : ℤ := ds.length
  let n : ℤ := k + p.2 - e
  if k ≤ n ∧ n ≤ 21 then
    ds ++ List.replicate (n - k).toNat '0'
  else if 0 < n ∧ n ≤ 21 then
    ds.take n.toNat ++ '.' :: ds.drop n.toNat
  else if -6 < n ∧ n ≤ 0 then
    '0' :: '.' :: List.replicate (-n).toNat '0' ++ ds
  else
    match ds with
    | [] => []
    | d :: rest =>
      d :: (if rest = [] then [] else '.' :: rest) ++
        'e' :: (if 0 ≤ n - 1 then '+' else '-') :: natDigits (n - 1).natAbs

/-- JavaScript `String(x)`: shortest round-tripping decimal, formatted
by the `Number::toString` rules. -/
def jsToString : JSVal → List Char
  | .undefined => "undefined".data
  | .nan => "NaN".data
  | .inf true => "Infinity".data
  | .inf false => "-Infinity".data
  | .zero _ => ['0']
  | .num sg m e =>
    (if sg then [] else ['-']) ++ renderPos (shortRep m e).1 (shortRep m e).2

def isWSChar (c : Char) : Bool :=
  c = ' ' || c = '\t' || c = '\n' || c = '\r' || c = '\x0b' || c = '\x0c'

def takeDigits : List Char → List Char × List Char
  | [] => ([], [])
  | c :: cs =>
    if c.isDigit then
      let p := takeDigits cs
      (c :: p.1, p.2)
    else ([], c :: cs)

def parseSign : List Char → ℤ × List Char
  | [] => (1, [])
  | c :: r => if c = '+' then (1, r) else if c = '-' then (-1, r) else (1, c :: r)

def parseMantissa (l : List Char) : Option (ℕ × ℕ × List Char) :=
  let ipr := takeDigits l
  let fpr : List Char × List Char :=
    match ipr.2 with
    | [] => ([], [])
    | c :: r => if c = '.' then takeDigits r else ([], c :: r)
  if ipr.1 = [] ∧ fpr.1 = [] then none
  else some (digitsToNat (ipr.1 ++ fpr.1), fpr.1.length, fpr.2)

def parseExp : List Char → ℤ
  | [] => 0
  | c :: r3 =>
    if c = 'e' ∨ c = 'E' then
      let esp := parseSign r3
      let ed := (takeDigits esp.2).1
      if ed = [] then 0 else esp.1 * (digitsToNat ed : ℤ)
    else 0

/-- JavaScript `parseFloat`: skip white space, optional sign,
`Infinity`, else longest decimal-literal prefix; the decimal value
`mv · 10^(exp - fraction digits)` is rounded to the nearest double. -/
def jsParseFloat (l : List Char) : JSVal :=
  let sp := parseSign (l.dropWhile isWSChar)
  if "Infinity".data.isPrefixOf sp.2 then .inf (sp.1 = 1)
  else
    match parseMantissa sp.2 with
    | none => .nan
    | some (mv, fe, r2) => roundDec (sp.1 = 1) mv (parseExp r2 - fe)

/-- JavaScript `h > 0`. -/
def jsGt0 : JSVal → Bool
  | .num sg m _ => sg && decide (0 < m)
  | .inf b => b
  | _ => false

/-- JavaScript `*` (exact product of the operands, rounded). -/
def jsMul : JSVal → JSVal → JSVal
  | .nan, _ => .nan
  | _, .nan => .nan
  | .undefined, _ => .nan
  | _, .undefined => .nan
  | .inf b1, .inf b2 => .inf (b1 = b2)
  | .inf _, .zero _ => .nan
  | .zero _, .inf _ => .nan
  | .inf b, .num sg _ _ => .inf (b = sg)
  | .num sg _ _, .inf b => .inf (b = sg)
  | .zero s1, .zero s2 => .zero (s1 = s2)
  | .zero s1, .num sg _ _ => .zero (s1 = sg)
  | .num sg _ _, .zero s2 => .zero (sg = s2)
  | .num sg1 m1 e1, .num sg2 m2 e2 =>
    roundPos (sg1 = sg2) (m1 * m2 * 2 ^ (e1 + e2).toNat) (2 ^ (-(e1 + e2)).toNat)

/-- The double nearest the literal `1.2` (`0x3FF3333333333333`). -/
def onePointTwo : JSVal := roundDec true 12 (-1)

/-- JavaScript `width * 1.2`. -/
def jsMul12 (x : JSVal) : JSVal := jsMul x onePointTwo

def isNanLike : JSVal → Bool
  | .nan => true
  | .undefined => true
  | _ => false

/-- Magnitude comparison `m1·2^e1 < m2·2^e2`. -/
def magLt (m1 : ℕ) (e1 : ℤ) (m2 : ℕ) (e2 : ℤ) : Bool :=
  decide (m1 * 2 ^ (e1 - e2).toNat < m2 * 2 ^ (e2 - e1).toNat)

/-- JavaScript `<` (`false` whenever `NaN` is involved). -/
def jsLt : JSVal → JSVal → Bool
  | .nan, _ => false
  | _, .nan => false
  | .undefined, _ => false
  | _, .undefined => false
  | .inf b1, .inf b2 => !b1 && b2
  | .inf b, _ => !b
  | _, .inf b => b
  | .zero _, .zero _ => false
  | .zero _, .num sg _ _ => sg
  | .num sg _ _, .zero _ => !sg
  | .num sg1 m1 e1, .num sg2 m2 e2 =>
    match sg1, sg2 with
    | false, true => true
    | true, false => false
    | true, true => magLt m1 e1 m2 e2
    | false, false => magLt m2 e2 m1 e1

/-- JavaScript `Math.min` (`-0` below `+0`). -/
def jsMin (a b : JSVal) : JSVal :=
  if isNanLike a || isNanLike b then .nan
  else if jsLt b a then b
  else if jsLt a b then a
  else match a, b with
    | .zero false, _ => .zero false
    | _, .zero false => .zero false
    | _, _ => a

/-- JavaScript `Math.max` (`+0` above `-0`). -/
def jsMax (a b : JSVal) : JSVal :=
  if isNanLike a || isNanLike b then .nan
  else if jsLt a b then b
  else if jsLt b a then a
  else match a, b with
    | .zero true, _ => .zero true
    | _, .zero true => .zero true
    | _, _ => a

def jsNeg : JSVal → JSVal
  | .num sg m e => .num (!sg) m e
  | .zero sg => .zero (!sg)
  | .inf b => .inf (!b)
  | _ => .nan

/-- JavaScript `+` (exact sum of the operands, rounded; the sum of two
opposite finite numbers is `+0`). -/
def jsAdd : JSVal → JSVal → JSVal
  | .nan, _ => .nan
  | _, .nan => .nan
  | .undefined, _ => .nan
  | _, .undefined => .nan
  | .inf b1, .inf b2 => if b1 = b2 then .inf b1 else .nan
  | .inf b, _ => .inf b
  | _, .inf b => .inf b
  | .zero s1, .zero s2 => .zero (s1 || s2)
  | .zero _, .num sg m e => .num sg m e
  | .num sg m e, .zero _ => .num sg m e
  | .num sg1 m1 e1, .num sg2 m2 e2 =>
    let ea := min e1 e2
    let z : ℤ := (if sg1 then (m1 : ℤ) else -(m1 : ℤ)) * 2 ^ (e1 - ea).toNat +
      (if sg2 then (m2 : ℤ) else -(m2 : ℤ)) * 2 ^ (e2 - ea).toNat
    if z = 0 then .zero true
    else roundPos (0 ≤ z) (z.natAbs * 2 ^ ea.toNat) (2 ^ (-ea).toNat)

def jsSub (a b : JSVal) : JSVal := jsAdd a (jsNeg b)

/-- The double of a small integer literal. -/
def ofN (n : ℕ) : JSVal := roundPos true n 1

/-- JavaScript `x || 0` on a `parseFloat` result. -/
def or0 : JSVal → JSVal
  | .num sg m e => .num sg m e
  | .inf b => .inf b
  | _ => .zero true

/-- ECMAScript `Number.prototype.toFixed(2)`: magnitude at least
`10^21` falls back to `ToString`; otherwise the integer `n` closest to
`100·|x|` (ties to the larger) formatted with two decimals, a `-` in
front exactly when `x < 0`. -/
def toFixed2 : JSVal → List Char
  | .undefined => "NaN".data
  | .nan => "NaN".data
  | .inf true => "Infinity".data
  | .inf false => "-Infinity".data
  | .zero _ => "0.00".data
  | .num sg m e =>
    let p := m * 2 ^ e.toNat
    let q := 2 ^ (-e).toNat
    if 10 ^ 21 * q ≤ p then jsToString (.num sg m e)
    else
      let n := (200 * p + q) / (2 * q)
      (if sg then [] else ['-']) ++ natDigits (n / 100) ++ '.' ::
        (if n % 100 < 10 then '0' :: natDigits (n % 100) else natDigits (n % 100))

/-- Finite JavaScript number (a double or a signed zero). -/
def jsNum : JSVal → Bool
  | .num _ _ _ => true
  | .zero _ => true
  | _ => false

/-- JavaScript `h ≤ 0` on a finite number. -/
def jsLe0 : JSVal → Bool
  | .zero _ => true
  | .num sg _ _ => !sg
  | _ => false

/-- JavaScript `String.prototype.split` with a single-character
separator: splits at every occurrence, keeping empty pieces. -/
def splitOnChar (sep : Char) : List Char → List (List Char)
  | [] => [[]]
  | c :: cs =>
    if c = sep then [] :: splitOnChar sep cs
    else
      match splitOnChar sep cs with
      | [] => [[c]]
      | t :: ts => (c :: t) :: ts

/-- Literal `viewBox="` searched for by the regex `/viewBox="([^"]+)"/`. -/
def vbLit : List Char := "viewBox=\"".data

/-- Split a character list at its first double quote. -/
def splitAtQuote : List Char → Option (List Char × List Char)
  | [] => none
  | c :: cs =>
    if c = '"' then some ([], cs)
    else (splitAtQuote cs).map (fun p => (c :: p.1, p.2))

/-- Match attempt of `/viewBox="([^"]+)"/` anchored at the head of the
list: the literal `viewBox="`, then a non-empty run of non-quote
characters, then `"`; returns the captured value and the remainder. -/
def tryVBHere (l : List Char) : Option (List Char × List Char) :=
  if vbLit.isPrefixOf l then
    match splitAtQuote (l.drop 9) with
    | some (v, rest) => if v = [] then none else some (v, rest)
    | none => none
  else none

/-- Leftmost match of `/viewBox="([^"]+)"/` (the `svgContent.match` call
of `fixSvgViewBox`): returns the text before the literal, the captured
value, and the text after the closing quote.  The `.replace` call of the
source uses the identical pattern without the capture group, so it
replaces exactly this span. -/
def findVB : List Char → Option (List Char × List Char × List Char)
  | [] => none
  | c :: cs =>
    match tryVBHere (c :: cs) with
    | some (v, rest) => some ([], v, rest)
    | none => (findVB cs).map (fun t => (c :: t.1, t.2.1, t.2.2))

/-- Component `i` of the split viewBox value, with JavaScript array
destructuring semantics: out-of-range components are `undefined`. -/
def vbField (v : List Char) (i : ℕ) : JSVal :=
  ((splitOnChar ' ' v).map jsParseFloat).getD i .undefined

/-- Body shared verbatim by `fixSvgViewBox` (remark-svguitar, first
file) and the replacement callback of `fixMultipleSvgViewBoxes`
(remark-svguitar, second file): locate the first `viewBox="…"`, parse
`x y w h` by splitting the captured value at single spaces and mapping
`parseFloat`, pass the input through when `h > 0`, otherwise replace
the first `viewBox="…"` by the template
`viewBox="${x} ${y} ${width} ${width * 1.2}"`. -/
def fixViewBoxCore (s : List Char) : List Char :=
  match findVB s with
  | none => s
  | some (pre, v, suf) =>
    let x := vbField v 0
    let y := vbField v 1
    let w := vbField v 2
    let h := vbField v 3
    if jsGt0 h then s
    else
      pre ++ vbLit ++ jsToString x ++ ' ' :: jsToString y ++ ' ' :: jsToString w ++
        ' ' :: jsToString (jsMul12 w) ++ '"' :: suf

/-- The single-fragment viewBox repair `fixSvgViewBox` of the
remark-svguitar plugin. -/
def fixSvgViewBox (s : List Char) : List Char := fixViewBoxCore s

/-- Literal `<svg` searched for by `/<svg[^>]*>/g`. -/
def svgLit : List Char := "<svg".data

/-- Split a character list at its first `>`. -/
def splitAtGt : List Char → Option (List Char × List Char)
  | [] => none
  | c :: cs =>
    if c = '>' then some ([], cs)
    else (splitAtGt cs).map (fun p => (c :: p.1, p.2))

/-- Leftmost match of `/<svg[^>]*>/`: returns the text before the
match, the matched opening tag (from `<svg` through the next `>`), and
the remainder after the tag. -/
def splitFirstTag : List Char → Option (List Char × List Char × List Char)
  | [] => none
  | c :: cs =>
    if svgLit.isPrefixOf (c :: cs) then
      match splitAtGt ((c :: cs).drop 4) with
      | some (body, rest) => some ([], svgLit ++ body ++ ['>'], rest)
      | none => (splitFirstTag cs).map (fun t => (c :: t.1, t.2.1, t.2.2))
    else (splitFirstTag cs).map (fun t => (c :: t.1, t.2.1, t.2.2))

/-- Global replacement loop of
`htmlContent.replace(/<svg[^>]*>/g, cb)`: each non-overlapping leftmost
`<svg…>` tag is rewritten by the callback (whose body is
`fixViewBoxCore`), scanning resumes after the rewritten tag.
Fuel-based recursion; every step consumes at least the five characters
of a matched tag or one unmatched character. -/
def fixTagsAux : ℕ → List Char → List Char
  | 0, s => s
  | fuel + 1, s =>
    match splitFirstTag s with
    | none => s
    | some (g, t, r) => g ++ fixViewBoxCore t ++ fixTagsAux fuel r

/-- The batch viewBox repair `fixMultipleSvgViewBoxes` of the
remark-svguitar plugin (second file). -/
def fixMultipleSvgViewBoxes (s : List Char) : List Char := fixTagsAux s.length s

/-- The tag decomposition that the global replacement of
`fixMultipleSvgViewBoxes` walks: the list of (gap, tag) pairs of the
successive leftmost `/<svg[^>]*>/` matches, and the tag-free rest. -/
def scanTagsAux : ℕ → List Char → List (List Char × List Char) × List Char
  | 0, s => ([], s)
  | fuel + 1, s =>
    match splitFirstTag s with
    | none => ([], s)
    | some (g, t, r) =>
      let p := scanTagsAux fuel r
      ((g, t) :: p.1, p.2)

/-- Reassembly of a tag decomposition with the repair callback applied
to every tag. -/
def rebuildTags : List (List Char × List Char) → List Char → List Char
  | [], rest => rest
  | (g, t) :: ps, rest => g ++ fixViewBoxCore t ++ rebuildTags ps rest

/-- JavaScript `text.replace(/c/g, t)` for a single-character pattern:
every occurrence of the character is replaced by the string `t`. -/
def replAll (p : Char) (t : List Char) : List Char → List Char
  | [] => []
  | c :: cs => (if c = p then t else [c]) ++ replAll p t cs

/-- The `escapeHtml` helper (identical in the remark-lilypond and the
remark-svguitar plugin): five chained global single-character
replacements, the ampersand first. -/
def escapeHtml (s : List Char) : List Char :=
  replAll '\'' "&#039;".data
    (replAll '"' "&quot;".data
      (replAll '>' "&gt;".data
        (replAll '<' "&lt;".data
          (replAll '&' "&amp;".data s))))

/-- What the `escapeHtml` pipeline does to one input character (derived
form used to state its properties). -/
def escChar (c : Char) : List Char :=
  if c = '&' then "&amp;".data
  else if c = '<' then "&lt;".data
  else if c = '>' then "&gt;".data
  else if c = '"' then "&quot;".data
  else if c = '\'' then "&#039;".data
  else [c]

/-- The five entity strings that `escapeHtml` may emit. -/
def entList : List (List Char) :=
  ["&amp;".data, "&lt;".data, "&gt;".data, "&quot;".data, "&#039;".data]

/-- JavaScript values stored in a chord-description object (the subset
relevant to `normaliseChordData`): primitives, arrays and nothing
more is needed to express truthiness and field preservation. -/
inductive JSv where
  | vUndefined : JSv
  | vNull : JSv
  | vBool : Bool → JSv
  | vNum : ℤ → ℕ → JSv
  | vNaN : JSv
  | vStr : List Char → JSv
  | vArr : List JSv → JSv

/-- JavaScript truthiness: `undefined`, `null`, `false`, `0`, `NaN` and
the empty string are falsy, everything else (including `[]`) truthy. -/
def truthy : JSv → Bool
  | .vUndefined => false
  | .vNull => false
  | .vBool b => b
  | .vNum m _ => decide (m ≠ 0)
  | .vNaN => false
  | .vStr s => decide (s ≠ [])
  | .vArr _ => true

/-- JavaScript object modelled as an ordered list of key/value pairs. -/
abbrev Obj : Type := List (List Char × JSv)

/-- Property access `o.k`: value at the first matching key, or
`undefined` when the key is absent. -/
def objGet (o : Obj) (k : List Char) : JSv :=
  match o.find? (fun p => p.1 = k) with
  | some p => p.2
  | none => .vUndefined

/-- Key-presence test (`k in o`). -/
def objHas (o : Obj) (k : List Char) : Bool :=
  (o.find? (fun p => p.1 = k)).isSome

/-- Object-literal property assignment: overwrite in place when the key
is already present (keeping its position), otherwise append. -/
def objSet (o : Obj) (k : List Char) (v : JSv) : Obj :=
  if objHas o k then o.map (fun p => if p.1 = k then (k, v) else p)
  else o ++ [(k, v)]

/-- JavaScript `a || b`. -/
def jsOr (a b : JSv) : JSv := if truthy a then a else b

/-- The arrow body `{ barres: chord.barres || [], ...chord }` of
`normaliseChordData`: the literal first installs the defaulted
`barres`, then the spread copies every own property of `chord` over
it in order. -/
def normChord (chord : Obj) : Obj :=
  chord.foldl (fun acc p => objSet acc p.1 p.2)
    [("barres".data, jsOr (objGet chord "barres".data) (.vArr []))]

/-- The `normaliseChordData` helper of the remark-svguitar plugin
(second file): maps the object rebuild over the chord list. -/
def normaliseChordData (chordData : List Obj) : List Obj :=
  chordData.map normChord

/-- ASCII lower casing, for the case-insensitive (`/i`) regexes. -/
def lc (c : Char) : Char :=
  if 'A' ≤ c ∧ c ≤ 'Z' then Char.ofNat (c.toNat + 32) else c

/-- Case-insensitive prefix test (pattern given in lower case). -/
def ciPref (pat l : List Char) : Bool :=
  (l.take pat.length).map lc = pat

/-- Index of the first case-insensitive occurrence of `pat`. -/
def ciFind (pat : List Char) : List Char → Option ℕ
  | [] => none
  | c :: cs =>
    if ciPref pat (c :: cs) then some 0
    else (ciFind pat cs).map (fun n => n + 1)

/-- First case-insensitive occurrence of either pattern, trying the
first pattern first at each position (regex alternation order);
returns the index and the length of the matched pattern. -/
def ciFindEither (p q : List Char) : List Char → Option (ℕ × ℕ)
  | [] => none
  | c :: cs =>
    if ciPref p (c :: cs) then some (0, p.length)
    else if ciPref q (c :: cs) then some (0, q.length)
    else (ciFindEither p q cs).map (fun t => (t.1 + 1, t.2))

/-- All start indices (ascending) of case-sensitive occurrences of
`p` inside `l`. -/
def occIdxs (p l : List Char) : List ℕ :=
  (List.range (l.length + 1)).filter (fun i => p.isPrefixOf (l.drop i))

/-- First defined value of `f` along a list (backtracking order). -/
def firstSome (f : α → Option β) : List α → Option β
  | [] => none
  | x :: xs =>
    match f x with
    | some b => some b
    | none => firstSome f xs

/-- Match attempt of `/<a[^>]*lilypond\.org[^>]*>[\s\S]*?<\/a>/i`
anchored at the head: `<a`, a run of non-`>` characters containing
`lilypond.org`, the closing `>` of the run, then lazily up to the
first `</a>`.  Returns the remainder after the match. -/
def tryA (l : List Char) : Option (List Char) :=
  if ciPref "<a".data l then
    let r1 := l.drop 2
    let run := r1.takeWhile (fun c => c ≠ '>')
    if (ciFind "lilypond.org".data run).isSome then
      match r1.dropWhile (fun c => c ≠ '>') with
      | '>' :: r2 =>
        match ciFind "</a>".data r2 with
        | some i => some (r2.drop (i + 4))
        | none => none
      | _ => none
    else none
  else none

/-- Match attempt of
`/<text[^>]*>[\s\S]*?(?:Music engraving|LilyPond)[\s\S]*?<\/text>/i`
anchored at the head: `<text`, its tag run and `>`, then lazily to the
earliest marker occurrence (which may cross element boundaries), then
lazily to the first `</text>` after the marker.  Returns the
remainder after the match. -/
def tryB (l : List Char) : Option (List Char) :=
  if ciPref "<text".data l then
    let r1 := l.drop 5
    match r1.dropWhile (fun c => c ≠ '>') with
    | '>' :: r2 =>
      match ciFindEither "music engraving".data "lilypond".data r2 with
      | some (i, len) =>
        match ciFind "</text>".data (r2.drop (i + len)) with
        | some j => some ((r2.drop (i + len)).drop (j + 7))
        | none => none
      | none => none
    | _ => none
  else none

/-- Match attempt of
`/<g[^>]*>\s*<(?:a|text)[^>]*(?:lilypond|Music engraving)[\s\S]*?<\/g>/i`
anchored at the head.  The greedy `[^>]*` makes the engine try marker
occurrences inside the tag run from the last one backwards; each
candidate needs a `</g>` after it.  Returns the remainder after the
match. -/
def tryC (l : List Char) : Option (List Char) :=
  if ciPref "<g".data l then
    let r1 := l.drop 2
    match r1.dropWhile (fun c => c ≠ '>') with
    | '>' :: r2 =>
      match r2.dropWhile isWSChar with
      | '<' :: r4 =>
        let r5o : Option (List Char) :=
          if ciPref "a".data r4 then some (r4.drop 1)
          else if ciPref "text".data r4 then some (r4.drop 4)
          else none
        match r5o with
        | some r5 =>
          let run := r5.takeWhile (fun c => c ≠ '>')
          let occs := (List.range (run.length + 1)).filterMap (fun i =>
            if ciPref "lilypond".data (run.drop i) then some (i, 8)
            else if ciPref "music engraving".data (run.drop i) then some (i, 15)
            else none)
          firstSome (fun t =>
            (ciFind "</g>".data (r5.drop (t.1 + t.2))).map
              (fun j => (r5.drop (t.1 + t.2)).drop (j + 4))) occs.reverse
        | none => none
      | _ => none
    | _ => none
  else none

/-- Global replace-by-empty loop for one of the three decoration
regexes: leftmost matches removed, scanning resumes after each
removed span. -/
def stripAux (try1 : List Char → Option (List Char)) : ℕ → List Char → List Char
  | 0, s => s
  | _, [] => []
  | fuel + 1, c :: cs =>
    match try1 (c :: cs) with
    | some rest => stripAux try1 fuel rest
    | none => c :: stripAux try1 fuel cs

/-- First decoration pass of `compactSvg` (anchor tags linking to
lilypond.org). -/
def stripA (s : List Char) : List Char := stripAux tryA s.length s

/-- Second decoration pass of `compactSvg` (text elements with the
`Music engraving` / `LilyPond` markers). -/
def stripB (s : List Char) : List Char := stripAux tryB s.length s

/-- Third decoration pass of `compactSvg` (groups opening onto a
marker-bearing `a`/`text` element). -/
def stripC (s : List Char) : List Char := stripAux tryC s.length s

/-- The three decoration passes in source order. -/
def stripAll (s : List Char) : List Char := stripC (stripB (stripA s))

/-- Literal `transform="translate(` of the transform scan. -/
def trLit : List Char := "transform=\"translate(".data

/-- Split a character list at its first closing parenthesis. -/
def splitAtParen : List Char → Option (List Char × List Char)
  | [] => none
  | c :: cs =>
    if c = ')' then some ([], cs)
    else (splitAtParen cs).map (fun p => (c :: p.1, p.2))

/-- `matchAll(/transform="translate\(([^)]+)\)"/g)`: collects every
captured coordinate list; the closing parenthesis must be followed
directly by a double quote. -/
def scanTransformsAux : ℕ → List Char → List (List Char)
  | 0, _ => []
  | _, [] => []
  | fuel + 1, c :: cs =>
    if trLit.isPrefixOf (c :: cs) then
      match splitAtParen ((c :: cs).drop trLit.length) with
      | some (v, rest) =>
        if v = [] then scanTransformsAux fuel cs
        else
          match rest with
          | '"' :: r2 => v :: scanTransformsAux fuel r2
          | _ => scanTransformsAux fuel cs
      | none => scanTransformsAux fuel cs
    else scanTransformsAux fuel cs

/-- Captured groups of the transform scan. -/
def scanTransforms (s : List Char) : List (List Char) := scanTransformsAux s.length s

/-- Match attempt of `/<TAG[^>]*ATTR([^"]*)"[^>]*>/` anchored at the
head, where `ATTR` ends in `="` and the greedy `[^>]*` selects the
last `ATTR` occurrence inside the tag run that lets the rest match.
Returns the captured value and the remainder after the closing `>`. -/
def tagAttrHere (tagLit attrLit l : List Char) : Option (List Char × List Char) :=
  if tagLit.isPrefixOf l then
    let r1 := l.drop tagLit.length
    let run := r1.takeWhile (fun c => c ≠ '>')
    firstSome (fun i =>
      match splitAtQuote (r1.drop (i + attrLit.length)) with
      | some (v, r2) =>
        match r2.dropWhile (fun c => c ≠ '>') with
        | '>' :: r3 => some (v, r3)
        | _ => none
      | none => none) (occIdxs attrLit run).reverse
  else none

/-- `matchAll(/<line[^>]*x2="([^"]*)"[^>]*>/g)`: captured `x2`
values. -/
def scanLinesAux : ℕ → List Char → List (List Char)
  | 0, _ => []
  | _, [] => []
  | fuel + 1, c :: cs =>
    match tagAttrHere "<line".data "x2=\"".data (c :: cs) with
    | some (v, rest) => v :: scanLinesAux fuel rest
    | none => scanLinesAux fuel cs

/-- Captured groups of the line scan. -/
def scanLines (s : List Char) : List (List Char) := scanLinesAux s.length s

/-- Match attempt of `/<rect[^>]*x="([^"]*)"[^>]*width="([^"]*)"[^>]*>/`
anchored at the head, with the two greedy `[^>]*` backtracking from
the last occurrence of each attribute literal. -/
def rectHere (l : List Char) : Option (List Char × List Char × List Char) :=
  if "<rect".data.isPrefixOf l then
    let r1 := l.drop 5
    let run := r1.takeWhile (fun c => c ≠ '>')
    firstSome (fun i =>
      match splitAtQuote (r1.drop (i + 3)) with
      | some (v1, r2) =>
        let run2 := r2.takeWhile (fun c => c ≠ '>')
        firstSome (fun j =>
          match splitAtQuote (r2.drop (j + 7)) with
          | some (v2, r3) =>
            match r3.dropWhile (fun c => c ≠ '>') with
            | '>' :: r4 => some (v1, v2, r4)
            | _ => none
          | none => none) (occIdxs "width=\"".data run2).reverse
      | none => none) (occIdxs "x=\"".data run).reverse
  else none

/-- `matchAll(/<rect[^>]*x="([^"]*)"[^>]*width="([^"]*)"[^>]*>/g)`:
captured `x`/`width` pairs. -/
def scanRectsAux : ℕ → List Char → List (List Char × List Char)
  | 0, _ => []
  | _, [] => []
  | fuel + 1, c :: cs =>
    match rectHere (c :: cs) with
    | some (v1, v2, rest) => (v1, v2) :: scanRectsAux fuel rest
    | none => scanRectsAux fuel cs

/-- Captured groups of the rect scan. -/
def scanRects (s : List Char) : List (List Char × List Char) := scanRectsAux s.length s

/-- Literal `<g transform="translate(` of the path-group scan. -/
def pgLit : List Char := "<g transform=\"translate(".data

/-- Lazy search for `<path[^>]*>`: first `<path` occurrence that is
followed by a `>`; returns the remainder after that `>`. -/
def findPathTag (l : List Char) : Option (List Char) :=
  firstSome (fun i =>
    if "<path".data.isPrefixOf (l.drop i) then
      match (l.drop (i + 5)).dropWhile (fun c => c ≠ '>') with
      | '>' :: r => some r
      | _ => none
    else none) (List.range (l.length + 1))

/-- Match attempt of
`/<g transform="translate\(([^)]+)\)"[^>]*>[\s\S]*?<path[^>]*>/`
anchored at the head. -/
def pgHere (l : List Char) : Option (List Char × List Char) :=
  if pgLit.isPrefixOf l then
    match splitAtParen (l.drop pgLit.length) with
    | some (v, r1) =>
      if v = [] then none
      else
        match r1 with
        | '"' :: r2 =>
          match r2.dropWhile (fun c => c ≠ '>') with
          | '>' :: r3 => (findPathTag r3).map (fun rest => (v, rest))
          | _ => none
        | _ => none
    | none => none
  else none

/-- `matchAll(/<g transform="translate\(([^)]+)\)"[^>]*>[\s\S]*?<path[^>]*>/g)`:
captured coordinate lists of path-bearing transformed groups. -/
def scanPathGroupsAux : ℕ → List Char → List (List Char)
  | 0, _ => []
  | _, [] => []
  | fuel + 1, c :: cs =>
    match pgHere (c :: cs) with
    | some (v, rest) => v :: scanPathGroupsAux fuel rest
    | none => scanPathGroupsAux fuel cs

/-- Captured groups of the path-group scan. -/
def scanPathGroups (s : List Char) : List (List Char) := scanPathGroupsAux s.length s

/-- JavaScript `String.prototype.trim` (same white-space set). -/
def jsTrim (l : List Char) : List Char :=
  ((l.dropWhile isWSChar).reverse.dropWhile isWSChar).reverse

/-- JavaScript `String.prototype.split(/\s+/)`: split at maximal
white-space runs, keeping a leading or trailing empty piece. -/
def splitWS : List Char → List (List Char)
  | [] => [[]]
  | c :: cs =>
    if isWSChar c then
      match cs with
      | d :: _ => if isWSChar d then splitWS cs else [] :: splitWS cs
      | [] => [] :: splitWS cs
    else
      match splitWS cs with
      | [] => [[c]]
      | t :: ts => (c :: t) :: ts

/-- Running bounds of the content scan of `compactSvg`. -/
structure Bounds where
  minX : JSVal
  maxX : JSVal
  minY : JSVal
  maxY : JSVal
deriving DecidableEq, Repr

/-- Initial bounds (`Infinity`, `-Infinity`, `Infinity`, `-Infinity`). -/
def initBounds : Bounds := ⟨.inf true, .inf false, .inf true, .inf false⟩

/-- Loop body of the transform scan: both coordinates feed the minima
and maxima when at least two comma-separated components are present. -/
def trStep (b : Bounds) (v : List Char) : Bounds :=
  let coords := (splitOnChar ',' v).map (fun t => jsParseFloat (jsTrim t))
  if 2 ≤ coords.length then
    let c0 := coords.getD 0 .undefined
    let c1 := coords.getD 1 .undefined
    ⟨jsMin b.minX c0, jsMax b.maxX c0, jsMin b.minY c1, jsMax b.maxY c1⟩
  else b

/-- Loop body of the line scan: a non-`NaN` `x2` feeds the maximum x. -/
def lnStep (b : Bounds) (v : List Char) : Bounds :=
  let x2 := jsParseFloat v
  if x2 = .nan then b else ⟨b.minX, jsMax b.maxX x2, b.minY, b.maxY⟩

/-- Loop body of the rect scan: `x + width` (each defaulted through
`|| 0`) feeds the maximum x. -/
def rcStep (b : Bounds) (p : List Char × List Char) : Bounds :=
  let x := or0 (jsParseFloat p.1)
  let w := or0 (jsParseFloat p.2)
  ⟨b.minX, jsMax b.maxX (jsAdd x w), b.minY, b.maxY⟩

/-- Loop body of the path-group scan: the translate origin plus the
fixed per-element width `2` feeds the maximum x. -/
def pgStep (b : Bounds) (v : List Char) : Bounds :=
  let coords := (splitOnChar ',' v).map (fun t => jsParseFloat (jsTrim t))
  if 2 ≤ coords.length then
    ⟨b.minX, jsMax b.maxX (jsAdd (coords.getD 0 .undefined) (ofN 2)), b.minY, b.maxY⟩
  else b

/-- The four content scans of `compactSvg` in source order. -/
def computeBounds (s : List Char) : Bounds :=
  let b1 := (scanTransforms s).foldl trStep initBounds
  let b2 := (scanLines s).foldl lnStep b1
  let b3 := (scanRects s).foldl rcStep b2
  (scanPathGroups s).foldl pgStep b3

/-- Rewrite condition `minX < Infinity && minY < Infinity &&
maxX > -Infinity` of `compactSvg` (note that `maxY` is not tested). -/
def boundsCond (b : Bounds) : Bool :=
  jsLt b.minX (.inf true) && jsLt b.minY (.inf true) && jsLt (.inf false) b.maxX

/-- Match attempt of `/<svg[^>]*viewBox="([^"]*)"[^>]*>/` anchored at
the head (the `svgContent.match` call): the greedy `[^>]*` selects the
last `viewBox="` occurrence inside the tag run whose value (which may
itself contain `>`) is closed by a quote and followed by a `>`.
Returns the captured value. -/
def trySvgVBFull (l : List Char) : Option (List Char) :=
  if svgLit.isPrefixOf l then
    let r1 := l.drop 4
    let run := r1.takeWhile (fun c => c ≠ '>')
    firstSome (fun i =>
      match splitAtQuote (r1.drop (i + 9)) with
      | some (v, r2) =>
        match r2.dropWhile (fun c => c ≠ '>') with
        | '>' :: _ => some v
        | _ => none
      | none => none) (occIdxs vbLit run).reverse
  else none

/-- Leftmost match of `/<svg[^>]*viewBox="([^"]*)"[^>]*>/`. -/
def findSvgVBAux : ℕ → List Char → Option (List Char)
  | 0, _ => none
  | _, [] => none
  | fuel + 1, c :: cs =>
    match trySvgVBFull (c :: cs) with
    | some v => some v
    | none => findSvgVBAux fuel cs

/-- Captured value of the first `/<svg[^>]*viewBox="([^"]*)"[^>]*>/`
match. -/
def findSvgVBValue (s : List Char) : Option (List Char) := findSvgVBAux s.length s

/-- Match attempt of `/(<svg[^>]*viewBox=")[^"]*(")/` anchored at the
head (the viewBox replacement, which does not require a closing `>`):
returns the matched head through `viewBox="`, the old value, and the
remainder starting at the closing quote. -/
def trySvgVB (l : List Char) : Option (List Char × List Char × List Char) :=
  if svgLit.isPrefixOf l then
    let r1 := l.drop 4
    let run := r1.takeWhile (fun c => c ≠ '>')
    firstSome (fun i =>
      match splitAtQuote (r1.drop (i + 9)) with
      | some (v, r2) => some (svgLit ++ r1.take (i + 9), v, '"' :: r2)
      | none => none) (occIdxs vbLit run).reverse
  else none

/-- `replace(/(<svg[^>]*viewBox=")[^"]*(")/, '$1' + nvb + '$2')`:
first match only, value region swapped for `nvb`. -/
def replaceSvgVBAux (nvb : List Char) : ℕ → List Char → List Char
  | 0, s => s
  | _, [] => []
  | fuel + 1, c :: cs =>
    match trySvgVB (c :: cs) with
    | some (h, _, t) => h ++ nvb ++ t
    | none => c :: replaceSvgVBAux nvb fuel cs

/-- First-match viewBox value replacement of `compactSvg`. -/
def replaceSvgVB (s nvb : List Char) : List Char := replaceSvgVBAux nvb s.length s

/-- Match attempt of `/(<svg[^>]*)ATTR"[^"]*"/` anchored at the head
(`ATTR` is `width="` or `height="`); the replacement template re-emits
the attribute with a new value, so the result keeps everything through
`ATTR"` and swaps the quoted value. -/
def trySvgAttr (attrLit l : List Char) : Option (List Char × List Char) :=
  if svgLit.isPrefixOf l then
    let r1 := l.drop 4
    let run := r1.takeWhile (fun c => c ≠ '>')
    firstSome (fun i =>
      match splitAtQuote (r1.drop (i + attrLit.length)) with
      | some (_, r2) => some (svgLit ++ r1.take (i + attrLit.length), r2)
      | none => none) (occIdxs attrLit run).reverse
  else none

/-- `replace(/(<svg[^>]*)ATTR"[^"]*"/, '$1' + ATTR + val + '"')`:
first match only. -/
def replaceSvgAttrAux (attrLit val : List Char) : ℕ → List Char → List Char
  | 0, s => s
  | _, [] => []
  | fuel + 1, c :: cs =>
    match trySvgAttr attrLit (c :: cs) with
    | some (h, t) => h ++ val ++ '"' :: t
    | none => c :: replaceSvgAttrAux attrLit val fuel cs

/-- First-match `<svg … attr="…"` value replacement. -/
def replaceSvgAttr (attrLit val s : List Char) : List Char :=
  replaceSvgAttrAux attrLit val s.length s

/-- ViewBox/width/height rewrite of `compactSvg` once finite content
bounds were found: padded content rectangle, `width="100%"`, height
set to the fixed-form content height. -/
def rewriteBounds (s : List Char) (b : Bounds) : List Char :=
  let contentX := jsMax (.zero true) (jsSub b.minX (ofN 5))
  let contentY := jsMax (.zero true) (jsSub b.minY (ofN 5))
  let contentW := jsAdd (jsSub b.maxX b.minX) (ofN 10)
  let contentH := jsAdd (jsSub b.maxY b.minY) (ofN 10)
  let nvb := jsToString contentX ++ ' ' :: jsToString contentY ++ ' ' ::
    jsToString contentW ++ ' ' :: jsToString contentH
  let s1 := replaceSvgVB s nvb
  let s2 := replaceSvgAttr "width=\"".data "100%".data s1
  replaceSvgAttr "height=\"".data (toFixed2 contentH) s2

/-- The `compactSvg` post-processing of the remark-lilypond plugin:
three decoration strips, then the heuristic whitespace crop guarded by
a four-component viewBox and finite scan bounds. -/
def compactSvg (s : List Char) : List Char :=
  let s3 := stripAll s
  match findSvgVBValue s3 with
  | none => s3
  | some vb =>
    if ((splitWS vb).map jsParseFloat).length = 4 then
      let b := computeBounds s3
      if boundsCond b then rewriteBounds s3 b else s3
    else s3

/-! ### Helper lemmas about the scanning primitives -/

theorem isPrefixOf_ex {p l : List Char} (h : p.isPrefixOf l = true) :
    ∃ t, l = p ++ t := by
  induction p generalizing l with
  | nil => exact ⟨l, rfl⟩
  | cons a p ih =>
    cases l with
    | nil => simp [List.isPrefixOf] at h
    | cons b l =>
      simp only [List.isPrefixOf, Bool.and_eq_true, beq_iff_eq] at h
      obtain ⟨t, ht⟩ := ih h.2
      exact ⟨t, by simp [h.1, ht]⟩

theorem isPrefixOf_append (p t : List Char) : p.isPrefixOf (p ++ t) = true := by
  induction p with
  | nil => simp [List.isPrefixOf]
  | cons a p ih => simp [List.isPrefixOf, ih]

theorem splitAtQuote_eq {l a b : List Char} (h : splitAtQuote l = some (a, b)) :
    l = a ++ '"' :: b ∧ '"' ∉ a := by
  induction l generalizing a with
  | nil => simp [splitAtQuote] at h
  | cons c cs ih =>
    by_cases hc : c = '"'
    · simp [splitAtQuote, hc] at h
      simp [hc, h.1, h.2]
    · simp only [splitAtQuote, if_neg hc, Option.map_eq_some'] at h
      obtain ⟨⟨a', b'⟩, h1, h2⟩ := h
      simp only [Prod.mk.injEq] at h2
      obtain ⟨h2a, h2b⟩ := h2
      subst h2a; subst h2b
      obtain ⟨h3, h4⟩ := ih h1
      exact ⟨by simp [h3], by simp [h4, Ne.symm hc]⟩

theorem splitAtQuote_append {v : List Char} (u : List Char) (hv : '"' ∉ v) :
    splitAtQuote (v ++ '"' :: u) = some (v, u) := by
  induction v with
  | nil => simp [splitAtQuote]
  | cons c cs ih =>
    have hc : c ≠ '"' := fun h => hv (h ▸ List.mem_cons_self c cs)
    have hcs : '"' ∉ cs := fun h => hv (List.mem_cons_of_mem c h)
    simp [splitAtQuote, hc, ih hcs]

theorem tryVBHere_eq {l v u : List Char} (h : tryVBHere l = some (v, u)) :
    l = vbLit ++ v ++ '"' :: u ∧ '"' ∉ v ∧ v ≠ [] := by
  unfold tryVBHere at h
  by_cases hp : vbLit.isPrefixOf l = true
  · rw [if_pos hp] at h
    obtain ⟨t, rfl⟩ := isPrefixOf_ex hp
    rw [show (vbLit ++ t).drop 9 = t from List.drop_left' rfl] at h
    cases hq : splitAtQuote t with
    | none => rw [hq] at h; exact Option.noConfusion h
    | some p =>
      obtain ⟨a, b⟩ := p
      rw [hq] at h
      by_cases ha : a = []
      · simp [ha] at h
      · simp only [if_neg ha, Option.some_inj, Prod.mk.injEq] at h
        obtain ⟨h1, h2⟩ := h
        subst h1; subst h2
        obtain ⟨rfl, hnq⟩ := splitAtQuote_eq hq
        exact ⟨by simp, hnq, ha⟩
  · rw [if_neg hp] at h; exact Option.noConfusion h

theorem tryVBHere_append {v : List Char} (u : List Char)
    (hv : '"' ∉ v) (hne : v ≠ []) :
    tryVBHere (vbLit ++ v ++ '"' :: u) = some (v, u) := by
  unfold tryVBHere
  rw [if_pos (by rw [List.append_assoc]; exact isPrefixOf_append _ _)]
  rw [show (vbLit ++ v ++ '"' :: u).drop 9 = v ++ '"' :: u by
    rw [List.append_assoc]; exact List.drop_left' rfl]
  rw [splitAtQuote_append u hv]
  simp [hne]

theorem findVB_structure {s pre v u : List Char}
    (h : findVB s = some (pre, v, u)) :
    s = pre ++ vbLit ++ v ++ '"' :: u ∧ '"' ∉ v ∧ v ≠ [] := by
  induction s generalizing pre with
  | nil => simp [findVB] at h
  | cons c cs ih =>
    unfold findVB at h
    cases ht : tryVBHere (c :: cs) with
    | some p =>
      obtain ⟨v', u'⟩ := p
      rw [ht] at h
      simp only [Option.some_inj, Prod.mk.injEq] at h
      obtain ⟨h1, h2, h3⟩ := h
      subst h1; subst h2; subst h3
      obtain ⟨he, hq, hne⟩ := tryVBHere_eq ht
      exact ⟨by simpa using he, hq, hne⟩
    | none =>
      rw [ht] at h
      simp only [Option.map_eq_some'] at h
      obtain ⟨⟨p', v', u'⟩, h1, h2⟩ := h
      simp only [Prod.mk.injEq] at h2
      obtain ⟨h2a, h2b, h2c⟩ := h2
      subst h2a; subst h2b; subst h2c
      obtain ⟨he, hq, hne⟩ := ih h1
      exact ⟨by simp [he], hq, hne⟩

theorem findVB_occurs {s pre v u : List Char} (h : findVB s = some (pre, v, u)) :
    vbLit <:+: s := by
  obtain ⟨he, -, -⟩ := findVB_structure h
  exact ⟨pre, v ++ '"' :: u, by simp [he]⟩

theorem findVB_none_of_no_occurrence {s : List Char} (h : ¬ vbLit <:+: s) :
    findVB s = none := by
  cases hf : findVB s with
  | none => rfl
  | some p =>
    exact absurd (findVB_occurs (show findVB s = some (p.1, p.2.1, p.2.2) by simpa using hf)) h

/-! ### Core behaviour of the shared viewBox-repair body -/

theorem jsGt0_of_le0 {h : JSVal} (hn : jsNum h = true) (hl : jsLe0 h = true) :
    jsGt0 h = false := by
  cases h <;> simp_all [jsNum, jsLe0, jsGt0]

theorem core_rewrites_degenerate
    (s pre v suf : List Char)
    (hfind : findVB s = some (pre, v, suf))
    (hgt : jsGt0 (vbField v 3) = false) :
    fixViewBoxCore s =
      pre ++ vbLit ++ jsToString (vbField v 0) ++ ' ' :: jsToString (vbField v 1) ++
        ' ' :: jsToString (vbField v 2) ++ ' ' :: jsToString (jsMul12 (vbField v 2)) ++
        '"' :: suf := by
  unfold fixViewBoxCore
  rw [hfind]
  simp only [hgt, Bool.false_eq_true, if_false]

theorem core_pass_positive
    (s pre v suf : List Char) (mh : ℕ) (eh : ℤ)
    (hfind : findVB s = some (pre, v, suf))
    (hh : vbField v 3 = .num true mh eh) (hpos : 0 < mh) :
    fixViewBoxCore s = s := by
  unfold fixViewBoxCore
  rw [hfind]
  simp only [hh]
  have hg : jsGt0 (.num true mh eh) = true := by simp [jsGt0, hpos]
  simp [hg]

theorem core_pass_no_viewbox (s : List Char) (h : ¬ vbLit <:+: s) :
    fixViewBoxCore s = s := by
  unfold fixViewBoxCore
  rw [findVB_none_of_no_occurrence h]

/-! ### Claim C1: degenerate-height single-fragment repair -/

/-- Claim C1.  For every fragment whose first `viewBox` attribute
parses to four numbers `(x, y, w, h)` with `h ≤ 0` (a negative double
or a signed zero), `fixSvgViewBox` rewrites exactly that attribute to
the template `${x} ${y} ${w} ${w * 1.2}` — the prefix and suffix of
the fragment are returned unchanged, and `w * 1.2` is the IEEE-754
double product printed by `Number::toString` — and in particular
`viewBox="0 0 300 0"` becomes `viewBox="0 0 300 360"` while
`viewBox="0 0 9 0"` becomes `viewBox="0 0 9 10.799999999999999"`
(witness). -/
theorem c1_fix_rewrites_degenerate
    (s pre v suf : List Char)
    (hfind : findVB s = some (pre, v, suf))
    (_hx : jsNum (vbField v 0) = true) (_hy : jsNum (vbField v 1) = true)
    (_hw : jsNum (vbField v 2) = true)
    (hh : jsNum (vbField v 3) = true) (hle : jsLe0 (vbField v 3) = true) :
    fixSvgViewBox s =
      pre ++ vbLit ++ jsToString (vbField v 0) ++ ' ' :: jsToString (vbField v 1) ++
        ' ' :: jsToString (vbField v 2) ++ ' ' :: jsToString (jsMul12 (vbField v 2)) ++
        '"' :: suf := by
  unfold fixSvgViewBox
  exact core_rewrites_degenerate s pre v suf hfind (jsGt0_of_le0 hh hle)

theorem c1_witness :
    fixSvgViewBox "<svg viewBox=\"0 0 300 0\"></svg>".data =
      "<svg viewBox=\"0 0 300 360\"></svg>".data ∧
    fixSvgViewBox "<svg viewBox=\"0 0 9 0\"></svg>".data =
      "<svg viewBox=\"0 0 9 10.799999999999999\"></svg>".data :=
  ⟨(c1_fix_rewrites_degenerate _ "<svg ".data "0 0 300 0".data "></svg>".data
      (by decide) (by decide) (by decide) (by decide) (by decide) (by decide)).trans
      (by decide),
   (c1_fix_rewrites_degenerate _ "<svg ".data "0 0 9 0".data "></svg>".data
      (by decide) (by decide) (by decide) (by decide) (by decide) (by decide)).trans
      (by decide)⟩

/-! ### Claim C4: positive-height pass-through -/

/-- Claim C4.  For every fragment whose first `viewBox` attribute
parses to four numbers with strictly positive height, `fixSvgViewBox`
returns the fragment unchanged; in particular
`viewBox="0 0 300 150"` is never rewritten (witness). -/
theorem c4_fix_positive_height_pass
    (s pre v suf : List Char) (mh : ℕ) (eh : ℤ)
    (hfind : findVB s = some (pre, v, suf))
    (_hx : jsNum (vbField v 0) = true) (_hy : jsNum (vbField v 1) = true)
    (_hw : jsNum (vbField v 2) = true)
    (hh : vbField v 3 = .num true mh eh) (hpos : 0 < mh) :
    fixSvgViewBox s = s := by
  unfold fixSvgViewBox
  exact core_pass_positive s pre v suf mh eh hfind hh hpos

theorem c4_witness :
    fixSvgViewBox "<svg viewBox=\"0 0 300 150\"></svg>".data =
      "<svg viewBox=\"0 0 300 150\"></svg>".data :=
  c4_fix_positive_height_pass _ "<svg ".data "0 0 300 150".data "></svg>".data
    5277655813324800 (-45) (by decide) (by decide) (by decide) (by decide) (by decide)
    (by decide)

/-! ### Claim C5: no-viewBox pass-through -/

/-- Claim C5.  A fragment that does not contain the substring
`viewBox="` anywhere is returned byte-identical by `fixSvgViewBox`
(the function returns normally; this is a pass-through, not an
error). -/
theorem c5_fix_no_viewbox_pass (s : List Char) (h : ¬ vbLit <:+: s) :
    fixSvgViewBox s = s := by
  unfold fixSvgViewBox
  exact core_pass_no_viewbox s h

theorem c5_witness :
    (¬ vbLit <:+: "<svg width=\"10\"></svg>".data) ∧
    fixSvgViewBox "<svg width=\"10\"></svg>".data = "<svg width=\"10\"></svg>".data :=
  ⟨by decide, c5_fix_no_viewbox_pass _ (by decide)⟩

/-! ### Claim C2: batch repair handles every tag independently -/

theorem splitAtGt_eq {l a b : List Char} (h : splitAtGt l = some (a, b)) :
    l = a ++ '>' :: b ∧ '>' ∉ a := by
  induction l generalizing a with
  | nil => simp [splitAtGt] at h
  | cons c cs ih =>
    by_cases hc : c = '>'
    · simp [splitAtGt, hc] at h
      simp [hc, h.1, h.2]
    · simp only [splitAtGt, if_neg hc, Option.map_eq_some'] at h
      obtain ⟨⟨a', b'⟩, h1, h2⟩ := h
      simp only [Prod.mk.injEq] at h2
      obtain ⟨h2a, h2b⟩ := h2
      subst h2a; subst h2b
      obtain ⟨h3, h4⟩ := ih h1
      exact ⟨by simp [h3], by simp [h4, Ne.symm hc]⟩

theorem splitFirstTag_structure {s g t r : List Char}
    (h : splitFirstTag s = some (g, t, r)) :
    s = g ++ t ++ r ∧ 5 ≤ t.length := by
  induction s generalizing g with
  | nil => simp [splitFirstTag] at h
  | cons c cs ih =>
    unfold splitFirstTag at h
    by_cases hp : svgLit.isPrefixOf (c :: cs) = true
    · rw [if_pos hp] at h
      cases hg : splitAtGt ((c :: cs).drop 4) with
      | some p =>
        obtain ⟨body, rest⟩ := p
        rw [hg] at h
        simp only [Option.some_inj, Prod.mk.injEq] at h
        obtain ⟨h1, h2, h3⟩ := h
        subst h1; subst h2; subst h3
        obtain ⟨tail, htail⟩ := isPrefixOf_ex hp
        have hdrop : (c :: cs).drop 4 = tail := by rw [htail]; exact List.drop_left' rfl
        rw [hdrop] at hg
        constructor
        · rw [htail, (splitAtGt_eq hg).1]
          simp
        · simp [svgLit]
      | none =>
        rw [hg] at h
        simp only [Option.map_eq_some'] at h
        obtain ⟨⟨g', t', r'⟩, h1, h2⟩ := h
        simp only [Prod.mk.injEq] at h2
        obtain ⟨h2a, h2b, h2c⟩ := h2
        subst h2a; subst h2b; subst h2c
        obtain ⟨he, hlen⟩ := ih h1
        exact ⟨by simp [he], hlen⟩
    · rw [if_neg hp] at h
      simp only [Option.map_eq_some'] at h
      obtain ⟨⟨g', t', r'⟩, h1, h2⟩ := h
      simp only [Prod.mk.injEq] at h2
      obtain ⟨h2a, h2b, h2c⟩ := h2
      subst h2a; subst h2b; subst h2c
      obtain ⟨he, hlen⟩ := ih h1
      exact ⟨by simp [he], hlen⟩

theorem fixTagsAux_succ (fuel : ℕ) (s : List Char) :
    fixTagsAux (fuel + 1) s =
      match splitFirstTag s with
      | none => s
      | some (g, t, r) => g ++ fixViewBoxCore t ++ fixTagsAux fuel r := rfl

theorem fixTagsAux_congr :
    ∀ f1 f2 s, s.length ≤ f1 → s.length ≤ f2 → fixTagsAux f1 s = fixTagsAux f2 s := by
  intro f1
  induction f1 with
  | zero =>
    intro f2 s h1 _
    have : s = [] := List.length_eq_zero.mp (Nat.le_zero.mp h1)
    subst this
    cases f2 with
    | zero => rfl
    | succ f2 => rfl
  | succ f1 ih =>
    intro f2 s h1 h2
    cases f2 with
    | zero =>
      have : s = [] := List.length_eq_zero.mp (Nat.le_zero.mp h2)
      subst this
      rfl
    | succ f2 =>
      rw [fixTagsAux_succ f1 s, fixTagsAux_succ f2 s]
      cases hs : splitFirstTag s with
      | none => rfl
      | some p =>
        obtain ⟨g, t, r⟩ := p
        obtain ⟨he, hlen⟩ := splitFirstTag_structure hs
        have hr1 : r.length ≤ f1 := by
          have := congrArg List.length he
          simp [List.length_append] at this
          omega
        have hr2 : r.length ≤ f2 := by
          have := congrArg List.length he
          simp [List.length_append] at this
          omega
        show g ++ fixViewBoxCore t ++ fixTagsAux f1 r = g ++ fixViewBoxCore t ++ fixTagsAux f2 r
        exact congrArg (fun z => g ++ fixViewBoxCore t ++ z) (ih f2 r hr1 hr2)

theorem fixMultiple_eq_none {s : List Char} (h : splitFirstTag s = none) :
    fixMultipleSvgViewBoxes s = s := by
  cases s with
  | nil => rfl
  | cons c cs =>
    show fixTagsAux (cs.length + 1) (c :: cs) = c :: cs
    rw [fixTagsAux_succ, h]

theorem fixMultiple_eq_some {s g t r : List Char}
    (h : splitFirstTag s = some (g, t, r)) :
    fixMultipleSvgViewBoxes s = g ++ fixViewBoxCore t ++ fixMultipleSvgViewBoxes r := by
  cases s with
  | nil => simp [splitFirstTag] at h
  | cons c cs =>
    show fixTagsAux (cs.length + 1) (c :: cs) = _
    rw [fixTagsAux_succ, h]
    obtain ⟨he, hlen⟩ := splitFirstTag_structure h
    have hr : r.length ≤ cs.length := by
      have := congrArg List.length he
      simp [List.length_append] at this
      omega
    show g ++ fixViewBoxCore t ++ fixTagsAux cs.length r = _
    exact congrArg (fun z => g ++ fixViewBoxCore t ++ z)
      (fixTagsAux_congr cs.length r.length r hr le_rfl)

/-- Decomposition of a container into its `/<svg[^>]*>/g` matches. -/
def scanTags (s : List Char) : List (List Char × List Char) × List Char :=
  scanTagsAux s.length s

theorem scanTagsAux_succ (fuel : ℕ) (s : List Char) :
    scanTagsAux (fuel + 1) s =
      match splitFirstTag s with
      | none => ([], s)
      | some (g, t, r) =>
        ((g, t) :: (scanTagsAux fuel r).1, (scanTagsAux fuel r).2) := rfl

theorem scanTagsAux_congr :
    ∀ f1 f2 s, s.length ≤ f1 → s.length ≤ f2 → scanTagsAux f1 s = scanTagsAux f2 s := by
  intro f1
  induction f1 with
  | zero =>
    intro f2 s h1 _
    have hs : s = [] := List.length_eq_zero.mp (Nat.le_zero.mp h1)
    subst hs
    cases f2 with
    | zero => rfl
    | succ f2 => rfl
  | succ f1 ih =>
    intro f2 s h1 h2
    cases f2 with
    | zero =>
      have hs : s = [] := List.length_eq_zero.mp (Nat.le_zero.mp h2)
      subst hs
      rfl
    | succ f2 =>
      rw [scanTagsAux_succ f1 s, scanTagsAux_succ f2 s]
      cases hs : splitFirstTag s with
      | none => rfl
      | some p =>
        obtain ⟨g, t, r⟩ := p
        obtain ⟨he, hlen⟩ := splitFirstTag_structure hs
        have hr1 : r.length ≤ f1 := by
          have hl := congrArg List.length he
          simp [List.length_append] at hl
          omega
        have hr2 : r.length ≤ f2 := by
          have hl := congrArg List.length he
          simp [List.length_append] at hl
          omega
        dsimp only
        rw [ih f2 r hr1 hr2]

theorem scanTags_eq_none {s : List Char} (h : splitFirstTag s = none) :
    scanTags s = ([], s) := by
  cases s with
  | nil => rfl
  | cons c cs =>
    show scanTagsAux (cs.length + 1) (c :: cs) = ([], c :: cs)
    rw [scanTagsAux_succ, h]

theorem scanTags_eq_some {s g t r : List Char}
    (h : splitFirstTag s = some (g, t, r)) :
    scanTags s = ((g, t) :: (scanTags r).1, (scanTags r).2) := by
  cases s with
  | nil => simp [splitFirstTag] at h
  | cons c cs =>
    show scanTagsAux (cs.length + 1) (c :: cs) = _
    rw [scanTagsAux_succ, h]
    obtain ⟨he, hlen⟩ := splitFirstTag_structure h
    have hr : r.length ≤ cs.length := by
      have hl := congrArg List.length he
      simp [List.length_append] at hl
      omega
    dsimp only
    rw [scanTagsAux_congr cs.length r.length r hr le_rfl]
    rfl

theorem fixTagsAux_eq_rebuild :
    ∀ (fuel : ℕ) (s : List Char),
      fixTagsAux fuel s =
        rebuildTags (scanTagsAux fuel s).1 (scanTagsAux fuel s).2 := by
  intro fuel
  induction fuel with
  | zero => intro s; rfl
  | succ fuel ih =>
    intro s
    rw [fixTagsAux_succ, scanTagsAux_succ]
    cases hs : splitFirstTag s with
    | none => rfl
    | some p =>
      obtain ⟨g, t, r⟩ := p
      show g ++ fixViewBoxCore t ++ fixTagsAux fuel r = _
      rw [ih r]
      rfl

theorem fixMultiple_eq_rebuild (s : List Char) :
    fixMultipleSvgViewBoxes s = rebuildTags (scanTags s).1 (scanTags s).2 :=
  fixTagsAux_eq_rebuild s.length s

/-- Claim C2.  The batch repair handles every `<svg …>` opening tag of
an arbitrary container independently: (1) for every container string,
`fixMultipleSvgViewBoxes` is the reassembly of the container's tag
decomposition — the successive leftmost `/<svg[^>]*>/` matches — with
the repair callback applied to each tag on its own and every gap and
the rest kept byte-identical; (2) a tag whose own viewBox height
parses to a number `≤ 0` is rewritten in place, its own width driving
the synthesized `w * 1.2` height; (3) a tag whose height parses to a
positive number is left byte-identical.  In particular a container
holding `<svg viewBox="0 0 100 40">`, `<svg viewBox="0 0 200 0">` and
`<svg viewBox="0 0 9 0">` in that order keeps the first and rewrites
the heights of the other two to `240` and `10.799999999999999`
(witness). -/
theorem c2_batch_independent :
    (∀ s : List Char, fixMultipleSvgViewBoxes s =
      rebuildTags (scanTags s).1 (scanTags s).2) ∧
    (∀ t pre v suf : List Char,
      findVB t = some (pre, v, suf) →
      jsNum (vbField v 3) = true → jsLe0 (vbField v 3) = true →
      fixViewBoxCore t =
        pre ++ vbLit ++ jsToString (vbField v 0) ++ ' ' :: jsToString (vbField v 1) ++
          ' ' :: jsToString (vbField v 2) ++ ' ' :: jsToString (jsMul12 (vbField v 2)) ++
          '"' :: suf) ∧
    (∀ t pre v suf : List Char, ∀ (mh : ℕ) (eh : ℤ),
      findVB t = some (pre, v, suf) →
      vbField v 3 = .num true mh eh → 0 < mh →
      fixViewBoxCore t = t) := by
  refine ⟨fun s => fixMultiple_eq_rebuild s, ?_, ?_⟩
  · intro t pre v suf hf hn hl
    exact core_rewrites_degenerate t pre v suf hf (jsGt0_of_le0 hn hl)
  · intro t pre v suf mh eh hf hh hpos
    exact core_pass_positive t pre v suf mh eh hf hh hpos

theorem c2_witness :
    fixMultipleSvgViewBoxes
      "<a><svg viewBox=\"0 0 100 40\"> x <svg viewBox=\"0 0 200 0\"> y <svg viewBox=\"0 0 9 0\"> z".data =
      "<a><svg viewBox=\"0 0 100 40\"> x <svg viewBox=\"0 0 200 240\"> y <svg viewBox=\"0 0 9 10.799999999999999\"> z".data ∧
    fixViewBoxCore "<svg viewBox=\"0 0 200 0\">".data =
      "<svg viewBox=\"0 0 200 240\">".data ∧
    fixViewBoxCore "<svg viewBox=\"0 0 100 40\">".data =
      "<svg viewBox=\"0 0 100 40\">".data :=
  ⟨(c2_batch_independent.1 _).trans (by decide),
   (c2_batch_independent.2.1 "<svg viewBox=\"0 0 200 0\">".data
      "<svg ".data "0 0 200 0".data ">".data
      (by decide) (by decide) (by decide)).trans (by decide),
   c2_batch_independent.2.2 "<svg viewBox=\"0 0 100 40\">".data
      "<svg ".data "0 0 100 40".data ">".data 5629499534213120 (-47)
      (by decide) (by decide) (by decide)⟩

/-! ### Claim C8: totality over strings, throwing only on null input -/

/-- Input model distinguishing a string argument from `null`/`undefined`
(the two non-string cases on which the first method call of each
operation throws a `TypeError`). -/
inductive JsInput where
  | jnull : JsInput
  | jstr : List Char → JsInput

/-- The only operation applied to the raw argument before anything else
is a string-method call (`match`/`replace`), which throws exactly when
the receiver is `null`/`undefined`; with a string receiver the body is
the total function `compactSvg`. -/
def compactSvgJS : JsInput → Except (List Char) (List Char)
  | .jnull => .error "TypeError".data
  | .jstr s => .ok (compactSvg s)

/-- Same input model for `fixSvgViewBox` (first receiver call is
`svgContent.match`). -/
def fixSvgViewBoxJS : JsInput → Except (List Char) (List Char)
  | .jnull => .error "TypeError".data
  | .jstr s => .ok (fixSvgViewBox s)

/-- Same input model for `fixMultipleSvgViewBoxes` (first receiver call
is `htmlContent.replace`). -/
def fixMultipleSvgViewBoxesJS : JsInput → Except (List Char) (List Char)
  | .jnull => .error "TypeError".data
  | .jstr s => .ok (fixMultipleSvgViewBoxes s)

/-- Claim C8.  All three exposed operations are total over strings:
on every string input each returns `ok` with a result string (the
bodies `compactSvg`, `fixSvgViewBox` and `fixMultipleSvgViewBoxes` are
total Lean functions, so no string input can throw), and each throws
exactly on the `null`/`undefined` input. -/
theorem c8_total_over_strings :
    (∀ s : List Char,
      compactSvgJS (.jstr s) = .ok (compactSvg s) ∧
      fixSvgViewBoxJS (.jstr s) = .ok (fixSvgViewBox s) ∧
      fixMultipleSvgViewBoxesJS (.jstr s) = .ok (fixMultipleSvgViewBoxes s)) ∧
    compactSvgJS .jnull = .error "TypeError".data ∧
    fixSvgViewBoxJS .jnull = .error "TypeError".data ∧
    fixMultipleSvgViewBoxesJS .jnull = .error "TypeError".data :=
  ⟨fun _ => ⟨rfl, rfl, rfl⟩, rfl, rfl, rfl⟩

/-! ### Claim C10: chord normalisation -/

theorem objSet_replace_head (procd : Obj) (cur v : JSv)
    (hnb : "barres".data ∉ procd.map Prod.fst) :
    objSet (("barres".data, cur) :: procd) "barres".data v =
      ("barres".data, v) :: procd := by
  have hhas : objHas (("barres".data, cur) :: procd) "barres".data = true := by
    simp [objHas, List.find?_cons_of_pos]
  unfold objSet
  rw [if_pos hhas]
  simp only [List.map_cons, if_pos rfl]
  congr 1
  have : ∀ p ∈ procd,
      (if p.1 = "barres".data then (("barres".data : List Char), v) else p) = p := by
    intro p hp
    have hne : p.1 ≠ "barres".data := by
      intro h
      exact hnb (h ▸ List.mem_map_of_mem Prod.fst hp)
    simp [hne]
  calc procd.map _ = procd.map id := List.map_congr_left this
    _ = procd := List.map_id procd

theorem objSet_append_fresh (o : Obj) (k : List Char) (v : JSv)
    (h : ∀ p ∈ o, p.1 ≠ k) :
    objSet o k v = o ++ [(k, v)] := by
  have hfind : o.find? (fun p => p.1 = k) = none := by
    rw [List.find?_eq_none]
    intro p hp
    simpa using h p hp
  have hhas : objHas o k = false := by
    simp [objHas, hfind]
  unfold objSet
  rw [hhas]
  simp

theorem normChord_fold
    (es : List (List Char × JSv)) :
    ∀ (cur : JSv) (procd : Obj),
      "barres".data ∉ procd.map Prod.fst →
      (∀ k ∈ es.map Prod.fst, k ≠ "barres".data → k ∉ procd.map Prod.fst) →
      (es.map Prod.fst).Nodup →
      es.foldl (fun acc p => objSet acc p.1 p.2) (("barres".data, cur) :: procd) =
        ("barres".data,
          match es.find? (fun p => p.1 = "barres".data) with
          | some p => p.2
          | none => cur) ::
        (procd ++ es.filter (fun p => p.1 ≠ "barres".data)) := by
  induction es with
  | nil => intro cur procd _ _ _; simp
  | cons e rest ih =>
    intro cur procd hnb hfresh hnd
    obtain ⟨k, v⟩ := e
    simp only [List.map_cons, List.nodup_cons] at hnd
    obtain ⟨hknotin, hndrest⟩ := hnd
    by_cases hk : k = "barres".data
    · subst hk
      rw [List.foldl_cons]
      rw [show objSet (("barres".data, cur) :: procd) ("barres".data, v).1 ("barres".data, v).2 =
        ("barres".data, v) :: procd from objSet_replace_head procd cur v hnb]
      rw [ih v procd hnb (fun k' hk' => hfresh k' (List.mem_cons_of_mem _ hk')) hndrest]
      have hfind : rest.find? (fun p => p.1 = "barres".data) = none := by
        rw [List.find?_eq_none]
        intro p hp
        simp only [decide_eq_true_eq]
        intro h
        apply hknotin
        have h' : p.1 = "barres".data := h
        rw [← h']
        exact List.mem_map_of_mem Prod.fst hp
      rw [hfind]
      simp [List.find?_cons_of_pos, List.filter_cons]
    · rw [List.foldl_cons]
      have hknp : ∀ p ∈ ("barres".data, cur) :: procd, p.1 ≠ k := by
        intro p hp
        rcases List.mem_cons.mp hp with h | h
        · rw [h]
          exact fun he => hk he.symm
        · intro he
          apply hfresh k (List.mem_cons_self _ _) hk
          rw [← he]
          exact List.mem_map_of_mem Prod.fst h
      rw [show objSet (("barres".data, cur) :: procd) (k, v).1 (k, v).2 =
        (("barres".data, cur) :: procd) ++ [(k, v)] from objSet_append_fresh _ k v hknp]
      have hres := ih cur (procd ++ [(k, v)])
        (by
          simp only [List.map_append, List.mem_append]
          rintro (h | h)
          · exact hnb h
          · simp at h
            exact hk h.symm)
        (by
          intro k' hk' hk'ne
          simp only [List.map_append, List.mem_append]
          rintro (h | h)
          · exact hfresh k' (List.mem_cons_of_mem _ hk') hk'ne h
          · simp at h
            exact hknotin (h ▸ hk'))
        hndrest
      rw [show (("barres".data, cur) :: procd) ++ [(k, v)] =
        ("barres".data, cur) :: (procd ++ [(k, v)]) from rfl]
      rw [hres]
      have hfindc : ((k, v) :: rest).find? (fun p => p.1 = "barres".data) =
          rest.find? (fun p => p.1 = "barres".data) :=
        List.find?_cons_of_neg _ (by simpa using hk)
      rw [hfindc]
      have hfiltc : ((k, v) :: rest).filter (fun p => p.1 ≠ "barres".data) =
          (k, v) :: rest.filter (fun p => p.1 ≠ "barres".data) :=
        List.filter_cons_of_pos (by simpa using hk)
      rw [hfiltc]
      simp

theorem normChord_eq (c : Obj) (hnd : (c.map Prod.fst).Nodup) :
    normChord c =
      ("barres".data,
        if objHas c "barres".data then objGet c "barres".data else .vArr []) ::
      c.filter (fun p => p.1 ≠ "barres".data) := by
  unfold normChord
  rw [normChord_fold c (jsOr (objGet c "barres".data) (.vArr [])) []
    (fun h => (List.not_mem_nil _) h) (fun k _ _ h => (List.not_mem_nil k) h) hnd]
  cases hf : c.find? (fun p => p.1 = "barres".data) with
  | none =>
    have hhas : objHas c "barres".data = false := by
      simp [objHas, hf]
    have hget : objGet c "barres".data = .vUndefined := by
      simp [objGet, hf]
    simp [hf, hhas, hget, jsOr, truthy]
  | some p =>
    have hhas : objHas c "barres".data = true := by
      simp [objHas, hf]
    have hget : objGet c "barres".data = p.2 := by
      simp [objGet, hf]
    simp [hf, hhas, hget]

theorem find?_filter_ne (l : Obj) (k b : List Char) (hkb : k ≠ b) :
    (l.filter (fun p => p.1 ≠ b)).find? (fun p => p.1 = k) =
      l.find? (fun p => p.1 = k) := by
  induction l with
  | nil => rfl
  | cons e rest ih =>
    by_cases he : e.1 = b
    · have h1 : (e :: rest).filter (fun p => p.1 ≠ b) =
          rest.filter (fun p => p.1 ≠ b) :=
        List.filter_cons_of_neg (by simpa using he)
      have h2 : (e :: rest).find? (fun p => p.1 = k) = rest.find? (fun p => p.1 = k) :=
        List.find?_cons_of_neg _
          (by simp only [he, decide_eq_true_eq]; exact fun hh => hkb hh.symm)
      rw [h1, h2, ih]
    · have h1 : (e :: rest).filter (fun p => p.1 ≠ b) =
          e :: rest.filter (fun p => p.1 ≠ b) :=
        List.filter_cons_of_pos (by simpa using he)
      rw [h1]
      by_cases hek : e.1 = k
      · rw [List.find?_cons_of_pos _ (by simpa using hek),
          List.find?_cons_of_pos _ (by simpa using hek)]
      · rw [List.find?_cons_of_neg _ (by simpa using hek),
          List.find?_cons_of_neg _ (by simpa using hek), ih]

/-- Corrected claim C10.  `normaliseChordData` preserves the length and
maps each chord to an object whose `barres` field is the chord's own
`barres` property value whenever the property is present — even when
that value is falsy, because the spread `{ barres: …, ...chord }`
overrides the default — and the empty array only when the property is
absent; every other field is preserved. -/
theorem c10_amended (chords : List Obj)
    (hnd : ∀ c ∈ chords, (c.map Prod.fst).Nodup) :
    (normaliseChordData chords).length = chords.length ∧
    normaliseChordData chords = chords.map normChord ∧
    ∀ c ∈ chords,
      objGet (normChord c) "barres".data =
        (if objHas c "barres".data then objGet c "barres".data else .vArr []) ∧
      ∀ k, k ≠ "barres".data → objGet (normChord c) k = objGet c k := by
  refine ⟨by simp [normaliseChordData], rfl, ?_⟩
  intro c hc
  rw [normChord_eq c (hnd c hc)]
  constructor
  · simp [objGet, List.find?_cons_of_pos]
  · intro k hk
    have hhead : (("barres".data,
        if objHas c "barres".data then objGet c "barres".data else JSv.vArr []) :
        List Char × JSv).1 = k ↔ False := by
      simp [Ne.symm hk]
    unfold objGet
    rw [List.find?_cons_of_neg _ (by simpa using Ne.symm hk)]
    rw [find?_filter_ne c k "barres".data hk]

/-- Counterexample to claim C10 as stated: a chord whose own `barres`
property is `null` (falsy) keeps `null` in the output instead of the
claimed empty array. -/
theorem c10_counterexample :
    objGet ((normaliseChordData [[("barres".data, JSv.vNull)]]).getD 0 []) "barres".data =
      JSv.vNull ∧ JSv.vNull ≠ JSv.vArr [] :=
  ⟨rfl, fun h => JSv.noConfusion h⟩

theorem c10_witness :
    (∀ c ∈ [[(("barres".data : List Char), JSv.vNull),
        (("fingers".data : List Char), JSv.vArr [])]], (c.map Prod.fst).Nodup) ∧
    objGet (normChord [("barres".data, JSv.vNull), ("fingers".data, JSv.vArr [])])
      "barres".data = JSv.vNull :=
  ⟨by decide, by
    have h := (c10_amended [[("barres".data, JSv.vNull), ("fingers".data, JSv.vArr [])]]
      (by decide)).2.2 _ (List.mem_singleton.mpr rfl)
    rw [h.1]
    rfl⟩

/-! ### Claim C6: the text-element strip can cross element boundaries -/

/-- Code-bug evidence for claim C6.  The fragment
`<text>hello</text><text>LilyPond</text>` contains a first text element
with neither marker (last two conjuncts), yet `compactSvg` removes the
whole fragment — the lazy `[\s\S]*?` of the text regex crosses the
`</text>` boundary, contradicting the source comment that only text
elements containing the markers are removed. -/
theorem c6_strips_unmarked_sibling :
    compactSvg "<text>hello</text><text>LilyPond</text>".data = [] ∧
    ciFind "lilypond".data "<text>hello</text>".data = none ∧
    ciFind "music engraving".data "<text>hello</text>".data = none := by
  refine ⟨by decide, by decide, by decide⟩

/-! ### Claim C7: which hints actually produce an estimate -/

/-- Transform-scan hits that update the bounds (at least two
comma-separated components). -/
def transformHits (s : List Char) : List (List Char) :=
  (scanTransforms s).filter (fun v => 2 ≤ (splitOnChar ',' v).length)

theorem trStep_skip {b : Bounds} {v : List Char}
    (h : ¬ 2 ≤ (splitOnChar ',' v).length) : trStep b v = b := by
  unfold trStep
  rw [if_neg]
  intro hc
  exact h (by simpa using hc)

theorem foldl_trStep_no_hits {l : List (List Char)} (b : Bounds)
    (h : ∀ v ∈ l, ¬ 2 ≤ (splitOnChar ',' v).length) :
    l.foldl trStep b = b := by
  induction l generalizing b with
  | nil => rfl
  | cons v rest ih =>
    rw [List.foldl_cons, trStep_skip (h v (List.mem_cons_self _ _))]
    exact ih b (fun v' hv' => h v' (List.mem_cons_of_mem _ hv'))

theorem foldl_lnStep_minX (l : List (List Char)) (b : Bounds) :
    (l.foldl lnStep b).minX = b.minX := by
  induction l generalizing b with
  | nil => rfl
  | cons v rest ih =>
    rw [List.foldl_cons, ih]
    unfold lnStep
    dsimp only
    split <;> rfl

theorem foldl_rcStep_minX (l : List (List Char × List Char)) (b : Bounds) :
    (l.foldl rcStep b).minX = b.minX := by
  induction l generalizing b with
  | nil => rfl
  | cons v rest ih => rw [List.foldl_cons, ih]; rfl

theorem foldl_pgStep_minX (l : List (List Char)) (b : Bounds) :
    (l.foldl pgStep b).minX = b.minX := by
  induction l generalizing b with
  | nil => rfl
  | cons v rest ih =>
    rw [List.foldl_cons, ih]
    unfold pgStep
    dsimp only
    split <;> rfl

theorem computeBounds_minX_no_hits {s : List Char} (h : transformHits s = []) :
    (computeBounds s).minX = .inf true := by
  unfold computeBounds
  rw [foldl_trStep_no_hits initBounds (by
    intro v hv hlen
    have : v ∈ transformHits s := by
      unfold transformHits
      rw [List.mem_filter]
      exact ⟨hv, by simpa using hlen⟩
    rw [h] at this
    exact (List.not_mem_nil v) this)]
  rw [foldl_pgStep_minX, foldl_rcStep_minX, foldl_lnStep_minX]
  rfl

/-- Corrected claim C7.  The content-bounds path of `compactSvg`
produces an estimate only from translate-transform hints: (1) whenever
the rewrite condition holds, the transform scan found a hint with at
least two components — line endpoints, rect extents and path-group
origins alone never produce an estimate because only transforms update
the minima; (2) without such a transform hint the fragment is returned
with its viewBox untouched (only decoration stripping applies) and no
fallback ratio is synthesized; (3) when the condition does hold, the
caller rewrites the viewBox to the padded content rectangle, sets the
width to `100%` and the height to the computed content height
(`rewriteBounds`). -/
theorem c7_amended :
    (∀ s : List Char, boundsCond (computeBounds s) = true → transformHits s ≠ []) ∧
    (∀ s : List Char, transformHits (stripAll s) = [] → compactSvg s = stripAll s) ∧
    (∀ (s vb : List Char), findSvgVBValue (stripAll s) = some vb →
      ((splitWS vb).map jsParseFloat).length = 4 →
      boundsCond (computeBounds (stripAll s)) = true →
      compactSvg s = rewriteBounds (stripAll s) (computeBounds (stripAll s))) := by
  have key : ∀ s : List Char, boundsCond (computeBounds s) = true → transformHits s ≠ [] := by
    intro s hcond hhits
    rw [show boundsCond (computeBounds s) =
        (jsLt (computeBounds s).minX (.inf true) &&
          (jsLt (computeBounds s).minY (.inf true) &&
            jsLt (.inf false) (computeBounds s).maxX)) from by
      unfold boundsCond; rw [Bool.and_assoc]] at hcond
    rw [computeBounds_minX_no_hits hhits] at hcond
    simp [jsLt] at hcond
  refine ⟨key, ?_, ?_⟩
  · intro s hhits
    have hcf : boundsCond (computeBounds (stripAll s)) = false := by
      cases hb : boundsCond (computeBounds (stripAll s)) with
      | false => rfl
      | true => exact absurd hhits (key _ hb)
    simp only [compactSvg]
    cases hf : findSvgVBValue (stripAll s) with
    | none => rfl
    | some vb =>
      by_cases hlen : (splitWS vb).length = 4
      · simp [hlen, hcf]
      · simp [hlen]
  · intro s vb hf hlen hcond
    have hlen' : (splitWS vb).length = 4 := by simpa using hlen
    simp only [compactSvg]
    rw [hf]
    simp [hlen', hcond]

/-- Counterexample to claim C7 as stated: a fragment with a line
endpoint hint (`x2="150"`, which parses to the number 150) and a
four-component viewBox is returned unchanged — the claimed estimate
from a line hint alone never happens. -/
theorem c7_counterexample :
    compactSvg "<svg viewBox=\"0 0 10 10\"><line x2=\"150\"></line></svg>".data =
      "<svg viewBox=\"0 0 10 10\"><line x2=\"150\"></line></svg>".data ∧
    scanLines "<svg viewBox=\"0 0 10 10\"><line x2=\"150\"></line></svg>".data =
      ["150".data] ∧
    jsParseFloat "150".data = .num true 5277655813324800 (-45) := by
  refine ⟨by decide, by decide, by decide⟩

theorem c7_witness :
    (transformHits (stripAll "<svg viewBox=\"0 0 9 9\"></svg>".data) = [] ∧
      compactSvg "<svg viewBox=\"0 0 9 9\"></svg>".data =
        stripAll "<svg viewBox=\"0 0 9 9\"></svg>".data) ∧
    compactSvg
      "<svg viewBox=\"0 0 7 7\"><g transform=\"translate(10,20)\"><path d=\"M0 0\"></path></g></svg>".data =
      "<svg viewBox=\"5 15 12 10\"><g transform=\"translate(10,20)\"><path d=\"M0 0\"></path></g></svg>".data :=
  ⟨⟨by decide, c7_amended.2.1 _ (by decide)⟩,
    (c7_amended.2.2 _ "0 0 7 7".data (by decide) (by decide) (by decide)).trans (by decide)⟩

/-! ### Claim C9: escapeHtml output shape -/

theorem replAll_append (p : Char) (t a b : List Char) :
    replAll p t (a ++ b) = replAll p t a ++ replAll p t b := by
  induction a with
  | nil => rfl
  | cons c cs ih => simp [replAll, ih]

theorem replAll_single_ne {p c : Char} (t : List Char) (h : c ≠ p) :
    replAll p t [c] = [c] := by
  simp [replAll, h]

theorem escapeHtml_cons (c : Char) (cs : List Char) :
    escapeHtml (c :: cs) = escChar c ++ escapeHtml cs := by
  show escapeHtml ([c] ++ cs) = _
  unfold escapeHtml
  rw [replAll_append, replAll_append, replAll_append, replAll_append, replAll_append]
  congr 1
  by_cases h1 : c = '&'
  · subst h1; rfl
  · by_cases h2 : c = '<'
    · subst h2; rfl
    · by_cases h3 : c = '>'
      · subst h3; rfl
      · by_cases h4 : c = '"'
        · subst h4; rfl
        · by_cases h5 : c = '\''
          · subst h5; rfl
          · rw [replAll_single_ne _ h1, replAll_single_ne _ h2, replAll_single_ne _ h3,
              replAll_single_ne _ h4, replAll_single_ne _ h5]
            simp [escChar, h1, h2, h3, h4, h5]

theorem escChar_no_special {c x : Char} (hx : x ∈ escChar c) :
    x ≠ '<' ∧ x ≠ '>' ∧ x ≠ '"' ∧ x ≠ '\'' := by
  unfold escChar at hx
  by_cases h1 : c = '&'
  · rw [if_pos h1] at hx
    have hx' : x ∈ ['&', 'a', 'm', 'p', ';'] := hx
    fin_cases hx' <;> exact ⟨by decide, by decide, by decide, by decide⟩
  · rw [if_neg h1] at hx
    by_cases h2 : c = '<'
    · rw [if_pos h2] at hx
      have hx' : x ∈ ['&', 'l', 't', ';'] := hx
      fin_cases hx' <;> exact ⟨by decide, by decide, by decide, by decide⟩
    · rw [if_neg h2] at hx
      by_cases h3 : c = '>'
      · rw [if_pos h3] at hx
        have hx' : x ∈ ['&', 'g', 't', ';'] := hx
        fin_cases hx' <;> exact ⟨by decide, by decide, by decide, by decide⟩
      · rw [if_neg h3] at hx
        by_cases h4 : c = '"'
        · rw [if_pos h4] at hx
          have hx' : x ∈ ['&', 'q', 'u', 'o', 't', ';'] := hx
          fin_cases hx' <;> exact ⟨by decide, by decide, by decide, by decide⟩
        · rw [if_neg h4] at hx
          by_cases h5 : c = '\''
          · rw [if_pos h5] at hx
            have hx' : x ∈ ['&', '#', '0', '3', '9', ';'] := hx
            fin_cases hx' <;> exact ⟨by decide, by decide, by decide, by decide⟩
          · rw [if_neg h5] at hx
            have hx' : x ∈ [c] := hx
            rw [List.mem_singleton] at hx'
            subst hx'
            exact ⟨h2, h3, h4, h5⟩

/-- Strings in which every ampersand begins one of the five entity
strings emitted by `escapeHtml`. -/
inductive GoodAmp : List Char → Prop where
  | nil : GoodAmp []
  | other {c : Char} {l : List Char} : c ≠ '&' → GoodAmp l → GoodAmp (c :: l)
  | ent {e l : List Char} : e ∈ entList → GoodAmp l → GoodAmp (e ++ l)

theorem goodAmp_escapeHtml (s : List Char) : GoodAmp (escapeHtml s) := by
  induction s with
  | nil => exact GoodAmp.nil
  | cons c cs ih =>
    rw [escapeHtml_cons]
    unfold escChar
    by_cases h1 : c = '&'
    · rw [if_pos h1]; exact GoodAmp.ent (by simp [entList]) ih
    · rw [if_neg h1]
      by_cases h2 : c = '<'
      · rw [if_pos h2]; exact GoodAmp.ent (by simp [entList]) ih
      · rw [if_neg h2]
        by_cases h3 : c = '>'
        · rw [if_pos h3]; exact GoodAmp.ent (by simp [entList]) ih
        · rw [if_neg h3]
          by_cases h4 : c = '"'
          · rw [if_pos h4]; exact GoodAmp.ent (by simp [entList]) ih
          · rw [if_neg h4]
            by_cases h5 : c = '\''
            · rw [if_pos h5]; exact GoodAmp.ent (by simp [entList]) ih
            · rw [if_neg h5]; exact GoodAmp.other h1 ih

theorem peel_no_amp :
    ∀ (d l pre suf : List Char), '&' ∉ d → d ++ l = pre ++ '&' :: suf →
      ∃ pre', pre = d ++ pre' ∧ l = pre' ++ '&' :: suf := by
  intro d
  induction d with
  | nil => intro l pre suf _ h; exact ⟨pre, rfl, h⟩
  | cons c d' ih =>
    intro l pre suf hno h
    cases pre with
    | nil =>
      simp only [List.nil_append, List.cons_append, List.cons.injEq] at h
      exact absurd h.1 (fun hc => hno (hc ▸ List.mem_cons_self c d'))
    | cons p pre₂ =>
      simp only [List.cons_append, List.cons.injEq] at h
      obtain ⟨rfl, h2⟩ := h
      obtain ⟨pre', hpre, hl⟩ := ih l pre₂ suf (fun hm => hno (List.mem_cons_of_mem c hm)) h2
      exact ⟨pre', by simp [hpre], hl⟩

theorem goodAmp_amp_entity {o : List Char} (hg : GoodAmp o) :
    ∀ pre suf, o = pre ++ '&' :: suf →
      ∃ ent ∈ entList, ent.isPrefixOf ('&' :: suf) = true := by
  induction hg with
  | nil =>
    intro pre suf h
    exact absurd h.symm (by simp)
  | other hne _ ih =>
    intro pre suf h
    cases pre with
    | nil =>
      simp only [List.nil_append, List.cons.injEq] at h
      exact absurd h.1 hne
    | cons p pre₂ =>
      simp only [List.cons_append, List.cons.injEq] at h
      exact ih pre₂ suf h.2
  | @ent e l he _ ih =>
    intro pre suf h
    have hshape : ∃ etail, e = '&' :: etail ∧ '&' ∉ etail := by
      simp only [entList, List.mem_cons, List.not_mem_nil, or_false] at he
      rcases he with he' | he' | he' | he' | he'
      · exact ⟨"amp;".data, by rw [he'], by decide⟩
      · exact ⟨"lt;".data, by rw [he'], by decide⟩
      · exact ⟨"gt;".data, by rw [he'], by decide⟩
      · exact ⟨"quot;".data, by rw [he'], by decide⟩
      · exact ⟨"#039;".data, by rw [he'], by decide⟩
    obtain ⟨etail, rfl, hno⟩ := hshape
    cases pre with
    | nil =>
      simp only [List.nil_append] at h
      refine ⟨'&' :: etail, he, ?_⟩
      rw [← h]
      show ('&' :: etail).isPrefixOf (('&' :: etail) ++ l) = true
      exact isPrefixOf_append _ _
    | cons p pre₂ =>
      simp only [List.cons_append, List.cons.injEq] at h
      obtain ⟨-, h2⟩ := h
      obtain ⟨pre', -, hl⟩ := peel_no_amp etail l pre₂ suf hno h2
      exact ih pre' suf hl

/-- Claim C9.  For every input, the output of `escapeHtml` contains no
`<`, `>`, `"` or `'` character, and every ampersand that occurs in the
output is the start of one of the five entities `&amp;`, `&lt;`,
`&gt;`, `&quot;`, `&#039;` (the ampersand substitution runs first, so
later stages never double-escape it). -/
theorem c9_escapeHtml_shape (s : List Char) :
    (∀ x ∈ escapeHtml s, x ≠ '<' ∧ x ≠ '>' ∧ x ≠ '"' ∧ x ≠ '\'') ∧
    (∀ pre suf, escapeHtml s = pre ++ '&' :: suf →
      ∃ ent ∈ entList, ent.isPrefixOf ('&' :: suf) = true) := by
  constructor
  · intro x hx
    induction s with
    | nil => cases hx
    | cons c cs ih =>
      rw [escapeHtml_cons] at hx
      rcases List.mem_append.mp hx with h | h
      · exact escChar_no_special h
      · exact ih h
  · exact goodAmp_amp_entity (goodAmp_escapeHtml s)

theorem c9_witness :
    ∃ ent ∈ entList, ent.isPrefixOf ('&' :: "amp;&lt;b".data) = true :=
  (c9_escapeHtml_shape "a&<b".data).2 "a".data "amp;&lt;b".data (by decide)

/-! ### Binary64 rounding: characterization of the scaling exponent -/

theorem logbAux_spec {b : ℕ} (hb : 2 ≤ b) :
    ∀ fuel n, 1 ≤ n → n ≤ fuel →
      b ^ logbAux b fuel n ≤ n ∧ n < b ^ (logbAux b fuel n + 1) := by
  intro fuel
  induction fuel with
  | zero => intro n h1 h2; omega
  | succ fuel ih =>
    intro n h1 h2
    rw [show logbAux b (fuel + 1) n =
      (if b ≤ n then logbAux b fuel (n / b) + 1 else 0) from rfl]
    by_cases hbn : b ≤ n
    · rw [if_pos hbn]
      have hdiv1 : 1 ≤ n / b := (Nat.one_le_div_iff (by omega)).mpr hbn
      have hdivf : n / b ≤ fuel := by
        have hlt : n / b < n := Nat.div_lt_self (by omega) (by omega)
        omega
      obtain ⟨hl, hr⟩ := ih (n / b) hdiv1 hdivf
      constructor
      · calc b ^ (logbAux b fuel (n / b) + 1)
            = b ^ logbAux b fuel (n / b) * b := by ring
        _ ≤ (n / b) * b := Nat.mul_le_mul_right b hl
        _ ≤ n := Nat.div_mul_le_self n b
      · have hmod : n % b < b := Nat.mod_lt _ (by omega)
        have hdm : b * (n / b) + n % b = n := Nat.div_add_mod n b
        calc n = b * (n / b) + n % b := hdm.symm
        _ < b * (n / b) + b := by omega
        _ = (n / b + 1) * b := by ring
        _ ≤ b ^ (logbAux b fuel (n / b) + 1) * b := Nat.mul_le_mul_right b (by omega)
        _ = b ^ (logbAux b fuel (n / b) + 1 + 1) := by ring
    · rw [if_neg hbn]
      constructor
      · simpa using h1
      · simpa using (by omega : n < b)

theorem nlog_spec {b n : ℕ} (hb : 2 ≤ b) (hn : 1 ≤ n) :
    b ^ nlog b n ≤ n ∧ n < b ^ (nlog b n + 1) :=
  logbAux_spec hb n n hn le_rfl

/-- Cast of a natural power of two to a rational integer power. -/
theorem q2z (k : ℕ) : ((2 : ℚ) ^ (k : ℤ)) = ((2 ^ k : ℕ) : ℚ) := by
  rw [zpow_natCast]
  push_cast
  rfl

theorem two_zpow_pos (B : ℤ) : (0 : ℚ) < 2 ^ B := by positivity

/-- `powLe` is the rational inequality `q · 2^B ≤ p`. -/
theorem powLe_iff_q {q p : ℕ} {B : ℤ} :
    powLe q B p = true ↔ (q : ℚ) * 2 ^ B ≤ (p : ℚ) := by
  simp only [powLe, decide_eq_true_eq]
  rcases le_or_lt 0 B with hB | hB
  · rw [show (-B).toNat = 0 from by omega, pow_zero, mul_one]
    rw [show B = (B.toNat : ℤ) from by omega, q2z]
    constructor
    · intro h
      exact_mod_cast h
    · intro h
      exact_mod_cast h
  · rw [show B.toNat = 0 from by omega, pow_zero, mul_one]
    have hB2 : (2 : ℚ) ^ B = (((2 ^ (-B).toNat : ℕ) : ℚ))⁻¹ := by
      rw [← q2z, ← zpow_neg]
      congr 1
      omega
    rw [hB2, mul_inv_le_iff₀ (by positivity)]
    constructor
    · intro h
      exact_mod_cast h
    · intro h
      exact_mod_cast h

theorem powLe_false_iff_q {q p : ℕ} {B : ℤ} :
    powLe q B p = false ↔ (p : ℚ) < q * 2 ^ B := by
  rw [← not_le, ← powLe_iff_q]
  constructor
  · intro h hc
    rw [h] at hc
    cases hc
  · intro h
    cases hpl : powLe q B p with
    | false => rfl
    | true => exact absurd hpl h

theorem findB_spec {p q : ℕ} (hp : 0 < p) (hq : 0 < q) :
    powLe q (findB p q) p = true ∧ powLe q (findB p q + 1) p = false := by
  obtain ⟨hp1, hp2⟩ := nlog_spec (b := 2) (by norm_num) hp
  obtain ⟨hq1, hq2⟩ := nlog_spec (b := 2) (by norm_num) hq
  have hp1q : ((2 : ℚ)) ^ ((nlog 2 p : ℕ) : ℤ) ≤ p := by rw [q2z]; exact_mod_cast hp1
  have hp2q : (p : ℚ) < 2 ^ (((nlog 2 p : ℕ) : ℤ) + 1) := by
    rw [show ((nlog 2 p : ℕ) : ℤ) + 1 = ((nlog 2 p + 1 : ℕ) : ℤ) from by push_cast; ring, q2z]
    exact_mod_cast hp2
  have hq1q : ((2 : ℚ)) ^ ((nlog 2 q : ℕ) : ℤ) ≤ q := by rw [q2z]; exact_mod_cast hq1
  have hq2q : (q : ℚ) < 2 ^ (((nlog 2 q : ℕ) : ℤ) + 1) := by
    rw [show ((nlog 2 q : ℕ) : ℤ) + 1 = ((nlog 2 q + 1 : ℕ) : ℤ) from by push_cast; ring, q2z]
    exact_mod_cast hq2
  unfold findB
  dsimp only
  set lp : ℤ := ((nlog 2 p : ℕ) : ℤ) with hlp
  set lq : ℤ := ((nlog 2 q : ℕ) : ℤ) with hlq
  by_cases hB0 : powLe q (lp - lq) p = true
  · rw [if_pos hB0]
    refine ⟨hB0, ?_⟩
    rw [powLe_false_iff_q]
    calc (p : ℚ) < 2 ^ (lp + 1) := hp2q
    _ = 2 ^ lq * 2 ^ (lp - lq + 1) := by
        rw [← zpow_add₀ (by norm_num : (2:ℚ) ≠ 0)]
        congr 1
        ring
    _ ≤ q * 2 ^ (lp - lq + 1) := by
        have h2 := two_zpow_pos (lp - lq + 1)
        exact mul_le_mul_of_nonneg_right hq1q (le_of_lt h2)
  · rw [if_neg hB0]
    constructor
    · rw [powLe_iff_q]
      have hlt : (q : ℚ) * 2 ^ (lp - lq - 1) < 2 ^ (lq + 1) * 2 ^ (lp - lq - 1) := by
        have h2 := two_zpow_pos (lp - lq - 1)
        exact mul_lt_mul_of_pos_right hq2q h2
      refine le_of_lt ?_
      calc (q : ℚ) * 2 ^ (lp - lq - 1) < 2 ^ (lq + 1) * 2 ^ (lp - lq - 1) := hlt
      _ = 2 ^ lp := by
          rw [← zpow_add₀ (by norm_num : (2:ℚ) ≠ 0)]
          congr 1
          ring
      _ ≤ p := hp1q
    · rw [show lp - lq - 1 + 1 = lp - lq from by ring]
      cases hpl : powLe q (lp - lq) p with
      | false => rfl
      | true => exact absurd hpl hB0

theorem powLe_mono {q p : ℕ} (hq : 0 < q) {B B' : ℤ} (h : B ≤ B')
    (hle : powLe q B' p = true) : powLe q B p = true := by
  rw [powLe_iff_q] at hle ⊢
  calc (q : ℚ) * 2 ^ B ≤ q * 2 ^ B' := by
        have h2 : (2:ℚ) ^ B ≤ 2 ^ B' := by
          apply zpow_le_zpow_right₀ (by norm_num : (1:ℚ) ≤ 2) h
        exact mul_le_mul_of_nonneg_left h2 (by positivity)
  _ ≤ p := hle

theorem findB_unique {p q : ℕ} (hp : 0 < p) (hq : 0 < q) {B : ℤ}
    (h1 : powLe q B p = true) (h2 : powLe q (B + 1) p = false) :
    findB p q = B := by
  obtain ⟨g1, g2⟩ := findB_spec hp hq
  rcases lt_trichotomy (findB p q) B with h | h | h
  · have hc := powLe_mono hq (show findB p q + 1 ≤ B from by omega) h1
    rw [g2] at hc
    cases hc
  · exact h
  · have hc := powLe_mono hq (show B + 1 ≤ findB p q from by omega) g1
    rw [h2] at hc
    cases hc

theorem findB_unique_q {p q : ℕ} (hp : 0 < p) (hq : 0 < q) {B : ℤ}
    (h1 : (q : ℚ) * 2 ^ B ≤ p) (h2 : (p : ℚ) < q * 2 ^ (B + 1)) :
    findB p q = B :=
  findB_unique hp hq (powLe_iff_q.mpr h1) (powLe_false_iff_q.mpr h2)

/-! ### Rounding to nearest, ties to even -/

theorem rnd_exact (Q m : ℕ) (hQ : 0 < Q) : rnd (Q * m) Q = m := by
  unfold rnd
  dsimp only
  rw [Nat.mul_div_cancel_left m hQ, Nat.mul_mod_right]
  simp [hQ]

theorem rnd_scale (c P Q : ℕ) (hc : 0 < c) : rnd (c * P) (c * Q) = rnd P Q := by
  unfold rnd
  dsimp only
  rw [Nat.mul_div_mul_left P Q hc, Nat.mul_mod_mul_left]
  have h1 : (2 * (c * (P % Q)) < c * Q) ↔ (2 * (P % Q) < Q) := by
    rw [show 2 * (c * (P % Q)) = c * (2 * (P % Q)) from by ring]
    exact mul_lt_mul_left hc
  have h2 : (c * Q < 2 * (c * (P % Q))) ↔ (Q < 2 * (P % Q)) := by
    rw [show 2 * (c * (P % Q)) = c * (2 * (P % Q)) from by ring]
    exact mul_lt_mul_left hc
  by_cases hA : 2 * (P % Q) < Q
  · rw [if_pos hA, if_pos (h1.mpr hA)]
  · rw [if_neg hA, if_neg (fun h => hA (h1.mp h))]
    by_cases hB : Q < 2 * (P % Q)
    · rw [if_pos hB, if_pos (h2.mpr hB)]
    · rw [if_neg hB, if_neg (fun h => hB (h2.mp h))]

theorem rnd_le_of_lt {P Q c : ℕ} (hQ : 0 < Q) (h : P < Q * c) : rnd P Q ≤ c := by
  unfold rnd
  have hd : P / Q < c := by
    rw [Nat.div_lt_iff_lt_mul hQ]
    rw [mul_comm c Q]
    exact h
  dsimp only
  split_ifs <;> omega

theorem rnd_ge {P Q c : ℕ} (hQ : 0 < Q) (h : Q * c ≤ P) : c ≤ rnd P Q := by
  unfold rnd
  have hd : c ≤ P / Q := by
    rw [Nat.le_div_iff_mul_le hQ]
    rw [mul_comm c Q]
    exact h
  dsimp only
  split_ifs <;> omega

/-! ### Scale and value invariance of the binary64 rounding -/

theorem powLe_scale (c : ℕ) (hc : 0 < c) (q : ℕ) (B : ℤ) (p : ℕ) :
    powLe (c * q) B (c * p) = powLe q B p := by
  unfold powLe
  rw [decide_eq_decide]
  rw [show c * q * 2 ^ B.toNat = c * (q * 2 ^ B.toNat) from by ring,
    show c * p * 2 ^ (-B).toNat = c * (p * 2 ^ (-B).toNat) from by ring]
  exact mul_le_mul_left hc

theorem findB_scale (c p q : ℕ) (hc : 0 < c) (hp : 0 < p) (hq : 0 < q) :
    findB (c * p) (c * q) = findB p q := by
  obtain ⟨g1, g2⟩ := findB_spec hp hq
  apply findB_unique (by positivity) (by positivity)
  · rw [powLe_scale c hc]
    exact g1
  · rw [powLe_scale c hc]
    exact g2

theorem roundPos_scale (sg : Bool) (c p q : ℕ) (hc : 0 < c) :
    roundPos sg (c * p) (c * q) = roundPos sg p q := by
  by_cases hpq : p = 0 ∨ q = 0
  · unfold roundPos
    have hc2 : c * p = 0 ∨ c * q = 0 := by
      rcases hpq with h | h <;> simp [h]
    rw [if_pos hc2, if_pos hpq]
  · push_neg at hpq
    have hp : 0 < p := Nat.pos_of_ne_zero hpq.1
    have hq : 0 < q := Nat.pos_of_ne_zero hpq.2
    unfold roundPos
    rw [if_neg (show ¬(c * p = 0 ∨ c * q = 0) from by push_neg; exact ⟨by positivity, by positivity⟩)]
    rw [if_neg (show ¬(p = 0 ∨ q = 0) from by push_neg; exact hpq)]
    dsimp only
    rw [findB_scale c p q hc hp hq]
    by_cases hB : findB p q ≤ -1023
    · rw [if_pos hB, if_pos hB]
      rw [show c * p * 2 ^ 1074 = c * (p * 2 ^ 1074) from by ring, rnd_scale c _ _ hc]
    · rw [if_neg hB, if_neg hB]
      rw [show c * p * 2 ^ (52 - findB p q).toNat = c * (p * 2 ^ (52 - findB p q).toNat) from by
        ring]
      rw [show c * q * 2 ^ (-(52 - findB p q)).toNat =
        c * (q * 2 ^ (-(52 - findB p q)).toNat) from by ring]
      rw [rnd_scale c _ _ hc]

theorem roundPos_val {p1 q1 p2 q2 : ℕ} (h : p1 * q2 = p2 * q1)
    (hq1 : 0 < q1) (hq2 : 0 < q2) (sg : Bool) :
    roundPos sg p1 q1 = roundPos sg p2 q2 := by
  calc roundPos sg p1 q1 = roundPos sg (q2 * p1) (q2 * q1) :=
        (roundPos_scale sg q2 p1 q1 hq2).symm
  _ = roundPos sg (q1 * p2) (q1 * q2) := by
      rw [show q2 * p1 = p1 * q2 from mul_comm _ _, h, show p2 * q1 = q1 * p2 from mul_comm _ _,
        show q2 * q1 = q1 * q2 from mul_comm _ _]
  _ = roundPos sg p2 q2 := roundPos_scale sg q1 p2 q2 hq1

/-! ### Exactly representable rationals round to themselves -/

theorem roundPos_canonical {m : ℕ} {e : ℤ} (hwf : WFnum m e) (sg : Bool) :
    roundPos sg (m * 2 ^ e.toNat) (2 ^ (-e).toNat) = .num sg m e := by
  have hm : 0 < m := by
    rcases hwf with ⟨h1, _⟩ | ⟨h1, _⟩
    · have h52 : (0:ℕ) < 2 ^ 52 := by positivity
      omega
    · exact h1
  have hp : 0 < m * 2 ^ e.toNat := by positivity
  have hq : (0:ℕ) < 2 ^ (-e).toNat := by positivity
  have hne : (2:ℚ) ≠ 0 := by norm_num
  have hval : ((m * 2 ^ e.toNat : ℕ) : ℚ) = ((2 ^ (-e).toNat : ℕ) : ℚ) * ((m : ℚ) * 2 ^ e) := by
    push_cast
    rw [← zpow_natCast (2:ℚ) e.toNat, ← zpow_natCast (2:ℚ) (-e).toNat]
    rw [show ((2:ℚ) ^ (((-e).toNat : ℕ) : ℤ)) * ((m:ℚ) * 2 ^ e) =
      (m:ℚ) * ((2:ℚ) ^ (((-e).toNat : ℕ) : ℤ) * 2 ^ e) from by ring, ← zpow_add₀ hne,
      show (((-e).toNat : ℕ) : ℤ) + e = ((e.toNat : ℕ) : ℤ) from by omega]
  rcases hwf with ⟨hm1, hm2, he1, he2⟩ | ⟨hm1, hm2, he3⟩
  · have hcast1 : ((2 ^ 52 : ℕ) : ℚ) ≤ (m : ℚ) := by exact_mod_cast hm1
    have hcast2 : (m : ℚ) < ((2 ^ 53 : ℕ) : ℚ) := by exact_mod_cast hm2
    have hB : findB (m * 2 ^ e.toNat) (2 ^ (-e).toNat) = e + 52 := by
      apply findB_unique_q hp hq
      · rw [hval]
        have h1 : (2:ℚ) ^ (e + 52) ≤ (m:ℚ) * 2 ^ e := by
          calc (2:ℚ) ^ (e + 52) = (2:ℚ) ^ (52:ℤ) * 2 ^ e := by
                rw [← zpow_add₀ hne]
                congr 1
                ring
          _ ≤ (m:ℚ) * 2 ^ e := by
              apply mul_le_mul_of_nonneg_right ?_ (le_of_lt (two_zpow_pos e))
              calc (2:ℚ) ^ (52:ℤ) = ((2 ^ 52 : ℕ) : ℚ) := by norm_num
              _ ≤ (m:ℚ) := hcast1
        exact mul_le_mul_of_nonneg_left h1 (by positivity)
      · rw [hval]
        have h1 : (m:ℚ) * 2 ^ e < (2:ℚ) ^ (e + 52 + 1) := by
          calc (m:ℚ) * 2 ^ e < ((2 ^ 53 : ℕ) : ℚ) * 2 ^ e :=
                mul_lt_mul_of_pos_right hcast2 (two_zpow_pos e)
          _ = (2:ℚ) ^ (e + 52 + 1) := by
              rw [show ((2 ^ 53 : ℕ) : ℚ) = (2:ℚ) ^ (53:ℤ) from by norm_num, ← zpow_add₀ hne]
              congr 1
              ring
        exact mul_lt_mul_of_pos_left h1 (by positivity)
    unfold roundPos
    rw [if_neg (show ¬(m * 2 ^ e.toNat = 0 ∨ 2 ^ (-e).toNat = 0) from by
      push_neg
      exact ⟨hp.ne', hq.ne'⟩)]
    dsimp only
    rw [hB]
    rw [if_neg (show ¬(e + 52 ≤ -1023) from by omega)]
    rw [show (52 - (e + 52) : ℤ) = -e from by ring]
    rw [neg_neg]
    rw [show m * 2 ^ e.toNat * 2 ^ (-e).toNat = (2 ^ (-e).toNat * 2 ^ e.toNat) * m from by ring]
    rw [rnd_exact _ _ (by positivity)]
    rw [if_neg (show ¬(m = 2 ^ 53) from hm2.ne)]
    rw [if_neg (show ¬((1023:ℤ) < e + 52) from by omega)]
    rw [show (e + 52 - 52 : ℤ) = e from by ring]
  · subst he3
    obtain ⟨hL1, hL2⟩ := nlog_spec (le_refl 2) hm
    have hL52 : nlog 2 m ≤ 51 := by
      by_contra hcon
      push_neg at hcon
      have h1 : (2:ℕ) ^ 52 ≤ 2 ^ nlog 2 m := Nat.pow_le_pow_right (by norm_num) (by omega)
      omega
    have hB : findB (m * 2 ^ ((-1074:ℤ)).toNat) (2 ^ (-(-1074:ℤ)).toNat) =
        ((nlog 2 m : ℕ) : ℤ) - 1074 := by
      apply findB_unique_q hp hq
      · rw [show ((-1074:ℤ)).toNat = 0 from rfl, show (-(-1074:ℤ)).toNat = 1074 from rfl,
          pow_zero, mul_one]
        push_cast
        rw [← zpow_natCast (2:ℚ) 1074, ← zpow_add₀ hne,
          show ((1074:ℕ):ℤ) + (((nlog 2 m : ℕ) : ℤ) - 1074) = ((nlog 2 m : ℕ) : ℤ) from by
            push_cast
            ring,
          zpow_natCast]
        exact_mod_cast hL1
      · rw [show ((-1074:ℤ)).toNat = 0 from rfl, show (-(-1074:ℤ)).toNat = 1074 from rfl,
          pow_zero, mul_one]
        push_cast
        rw [← zpow_natCast (2:ℚ) 1074, ← zpow_add₀ hne,
          show ((1074:ℕ):ℤ) + (((nlog 2 m : ℕ) : ℤ) - 1074 + 1) = ((nlog 2 m + 1 : ℕ) : ℤ) from by
            push_cast
            ring,
          zpow_natCast]
        exact_mod_cast hL2
    unfold roundPos
    rw [if_neg (show ¬(m * 2 ^ ((-1074:ℤ)).toNat = 0 ∨ 2 ^ (-(-1074:ℤ)).toNat = 0) from by
      push_neg
      exact ⟨hp.ne', hq.ne'⟩)]
    dsimp only
    rw [hB]
    rw [if_pos (show ((nlog 2 m : ℕ) : ℤ) - 1074 ≤ -1023 from by omega)]
    rw [show ((-1074:ℤ)).toNat = 0 from rfl, pow_zero, mul_one]
    rw [show (-(-1074:ℤ)).toNat = 1074 from rfl]
    rw [show m * 2 ^ 1074 = 2 ^ 1074 * m from mul_comm _ _]
    rw [rnd_exact _ _ (by positivity)]
    rw [if_neg hm.ne']

theorem roundPos_exact {m : ℕ} {e : ℤ} (hwf : WFnum m e) (sg : Bool) {p q : ℕ}
    (hq : 0 < q) (hv : p * 2 ^ (-e).toNat = q * (m * 2 ^ e.toNat)) :
    roundPos sg p q = .num sg m e := by
  have hm : 0 < m := by
    rcases hwf with ⟨h1, _⟩ | ⟨h1, _⟩
    · have h52 : (0:ℕ) < 2 ^ 52 := by positivity
      omega
    · exact h1
  have hp : 0 < p := by
    rcases Nat.eq_zero_or_pos p with h0 | h
    · rw [h0, zero_mul] at hv
      have hpos : 0 < q * (m * 2 ^ e.toNat) := by positivity
      omega
    · exact h
  exact (roundPos_val (show p * (2 ^ (-e).toNat) = (m * 2 ^ e.toNat) * q from by
    rw [hv]
    ring) hq (by positivity) sg).trans (roundPos_canonical hwf sg)

/-- Two decimals with the same value round identically. -/
theorem roundDec_val (sg : Bool) {a1 a2 : ℕ} {t1 t2 : ℤ}
    (h : a1 * 10 ^ (t1 - t2).toNat = a2 * 10 ^ (t2 - t1).toNat) :
    roundDec sg a1 t1 = roundDec sg a2 t2 := by
  unfold roundDec
  apply roundPos_val ?_ (by positivity) (by positivity) sg
  obtain ⟨D, hD1, hD2⟩ : ∃ D, t1.toNat + (-t2).toNat = (t1 - t2).toNat + D ∧
      t2.toNat + (-t1).toNat = (t2 - t1).toNat + D :=
    ⟨(t1.toNat + (-t2).toNat) - (t1 - t2).toNat, by omega, by omega⟩
  calc (a1 * 10 ^ t1.toNat) * 10 ^ (-t2).toNat = a1 * 10 ^ (t1.toNat + (-t2).toNat) := by
        rw [pow_add]
        ring
  _ = (a1 * 10 ^ (t1 - t2).toNat) * 10 ^ D := by
      rw [hD1, pow_add]
      ring
  _ = (a2 * 10 ^ (t2 - t1).toNat) * 10 ^ D := by
      rw [h]
  _ = a2 * 10 ^ (t2.toNat + (-t1).toNat) := by
      rw [hD2, pow_add]
      ring
  _ = (a2 * 10 ^ t2.toNat) * 10 ^ (-t1).toNat := by
      rw [pow_add]
      ring

/-! ### Soundness of the shortest-decimal search -/

theorem roundsTo_eq {a : ℕ} {t : ℤ} {m : ℕ} {e : ℤ} (h : roundsTo a t m e = true) :
    roundDec true a t = .num true m e := by
  unfold roundsTo at h
  exact of_decide_eq_true h

theorem mkShift_sound {s : ℕ} {tk : ℤ} {m : ℕ} {e : ℤ}
    (h : roundDec true s tk = .num true m e) :
    roundDec true (mkShift s tk).1 (-(((mkShift s tk).2 : ℕ) : ℤ)) = .num true m e := by
  unfold mkShift
  by_cases htk : 0 ≤ tk
  · rw [if_pos htk]
    dsimp only
    simp only [Nat.cast_zero, neg_zero]
    rw [← h]
    apply roundDec_val
    rw [show ((0:ℤ) - tk).toNat = 0 from by omega, show (tk - 0 : ℤ) = tk from by ring]
    ring
  · rw [if_neg htk]
    dsimp only
    rw [show (-(((-tk).toNat : ℕ) : ℤ)) = tk from by omega]
    exact h

theorem shortAux_sound {m : ℕ} {e : ℤ} {A E d : ℕ}
    (hexact : roundDec true A (-(E : ℤ)) = .num true m e) :
    ∀ fuel k, roundDec true (shortAux m e A E d k fuel).1
      (-(((shortAux m e A E d k fuel).2 : ℕ) : ℤ)) = .num true m e := by
  intro fuel
  induction fuel with
  | zero =>
    intro k
    exact hexact
  | succ fuel ih =>
    intro k
    rw [shortAux]
    by_cases hdk : d ≤ k
    · rw [if_pos hdk]
      exact hexact
    · rw [if_neg hdk]
      dsimp only
      split_ifs with h1 h2 h3 h4 h5 h6
      · simp only [Bool.and_eq_true] at h1
        exact mkShift_sound (roundsTo_eq h1.1)
      · simp only [Bool.and_eq_true] at h1
        exact mkShift_sound (roundsTo_eq h1.2)
      · simp only [Bool.and_eq_true] at h1
        exact mkShift_sound (roundsTo_eq h1.1)
      · simp only [Bool.and_eq_true] at h1
        exact mkShift_sound (roundsTo_eq h1.2)
      · exact mkShift_sound (roundsTo_eq h5)
      · exact mkShift_sound (roundsTo_eq h6)
      · exact ih (k + 1)

theorem shortRep_sound {m : ℕ} {e : ℤ} (hwf : WFnum m e) :
    roundDec true (shortRep m e).1 (-(((shortRep m e).2 : ℕ) : ℤ)) = .num true m e := by
  unfold shortRep
  by_cases he : 0 ≤ e
  · rw [if_pos he]
    dsimp only
    apply shortAux_sound
    simp only [Nat.cast_zero, neg_zero]
    unfold roundDec
    rw [show (0:ℤ).toNat = 0 from rfl, show (-(0:ℤ)).toNat = 0 from rfl, pow_zero, mul_one]
    apply roundPos_exact hwf true (by norm_num)
    rw [show (-e).toNat = 0 from by omega, pow_zero, mul_one, one_mul]
  · rw [if_neg he]
    dsimp only
    apply shortAux_sound
    unfold roundDec
    rw [show (-(((-e).toNat : ℕ) : ℤ)).toNat = 0 from by omega,
      show (-(-(((-e).toNat : ℕ) : ℤ))).toNat = (-e).toNat from by omega, pow_zero, mul_one]
    apply roundPos_exact hwf true (by positivity)
    rw [show e.toNat = 0 from by omega, pow_zero, mul_one,
      show (10:ℕ) = 2 * 5 from rfl, mul_pow]
    ring

theorem shortRep_pos {m : ℕ} {e : ℤ} (hwf : WFnum m e) : 0 < (shortRep m e).1 := by
  by_contra h0
  push_neg at h0
  have h := shortRep_sound hwf
  rw [show (shortRep m e).1 = 0 from by omega] at h
  unfold roundDec at h
  rw [zero_mul] at h
  unfold roundPos at h
  rw [if_pos (Or.inl rfl)] at h
  cases h

/-! ### Shape, well-formedness and sign of rounding results -/

theorem findB_char {p q : ℕ} (hp : 0 < p) (hq : 0 < q) :
    (q : ℚ) * 2 ^ findB p q ≤ p ∧ (p : ℚ) < q * 2 ^ (findB p q + 1) := by
  obtain ⟨g1, g2⟩ := findB_spec hp hq
  exact ⟨powLe_iff_q.mp g1, powLe_false_iff_q.mp g2⟩

theorem roundPos_shape (sg : Bool) (p q : ℕ) :
    roundPos sg p q = .zero sg ∨ roundPos sg p q = .inf sg ∨
    ∃ n e, roundPos sg p q = .num sg n e ∧ WFnum n e := by
  have hne : (2:ℚ) ≠ 0 := by norm_num
  unfold roundPos
  by_cases h0 : p = 0 ∨ q = 0
  · rw [if_pos h0]
    left
    rfl
  · push_neg at h0
    have hp : 0 < p := Nat.pos_of_ne_zero h0.1
    have hq : 0 < q := Nat.pos_of_ne_zero h0.2
    rw [if_neg (by push_neg; exact h0)]
    dsimp only
    obtain ⟨hc1, hc2⟩ := findB_char hp hq
    set B := findB p q with hBdef
    by_cases hB : B ≤ -1023
    · rw [if_pos hB]
      have hn52 : rnd (p * 2 ^ 1074) q ≤ 2 ^ 52 := by
        apply rnd_le_of_lt hq
        rw [← Nat.cast_lt (α := ℚ)]
        push_cast
        rw [← zpow_natCast (2:ℚ) 1074,
          show (4503599627370496 : ℚ) = 2 ^ (((52:ℕ)):ℤ) from by
            rw [zpow_natCast]
            norm_num]
        calc (p:ℚ) * 2 ^ (((1074:ℕ)):ℤ) < (q * 2 ^ (B + 1)) * 2 ^ (((1074:ℕ)):ℤ) :=
              mul_lt_mul_of_pos_right hc2 (two_zpow_pos _)
        _ = q * 2 ^ (B + 1 + (((1074:ℕ)):ℤ)) := by rw [mul_assoc, ← zpow_add₀ hne]
        _ ≤ q * 2 ^ (((52:ℕ)):ℤ) := by
            apply mul_le_mul_of_nonneg_left ?_ (by positivity)
            apply zpow_le_zpow_right₀ (by norm_num) (by push_cast; omega)
      by_cases hn0 : rnd (p * 2 ^ 1074) q = 0
      · rw [if_pos hn0]
        left
        rfl
      · rw [if_neg hn0]
        right
        right
        refine ⟨rnd (p * 2 ^ 1074) q, -1074, rfl, ?_⟩
        by_cases h52 : rnd (p * 2 ^ 1074) q < 2 ^ 52
        · exact Or.inr ⟨Nat.pos_of_ne_zero hn0, h52, rfl⟩
        · left
          have hlt : (2:ℕ) ^ 52 < 2 ^ 53 := by norm_num
          exact ⟨by omega, by omega, by norm_num, by norm_num⟩
    · rw [if_neg hB]
      have key1 : (q * 2 ^ (-(52 - B)).toNat) * 2 ^ 52 ≤ p * 2 ^ (52 - B).toNat := by
        rw [← Nat.cast_le (α := ℚ)]
        push_cast
        rw [← zpow_natCast (2:ℚ) (-(52 - B)).toNat, ← zpow_natCast (2:ℚ) (52 - B).toNat,
          show (4503599627370496 : ℚ) = 2 ^ (((52:ℕ)):ℤ) from by
            rw [zpow_natCast]
            norm_num]
        calc (q:ℚ) * 2 ^ (((((-(52 - B)).toNat : ℕ))):ℤ) * 2 ^ (((52:ℕ)):ℤ)
            = q * 2 ^ ((((((-(52 - B)).toNat : ℕ))):ℤ) + (((52:ℕ)):ℤ)) := by
              rw [mul_assoc, ← zpow_add₀ hne]
        _ = (q * 2 ^ B) * 2 ^ ((((52 - B).toNat : ℕ)):ℤ) := by
              rw [mul_assoc, ← zpow_add₀ hne,
                show ((((((-(52 - B)).toNat : ℕ))):ℤ) + (((52:ℕ)):ℤ)) =
                  B + ((((52 - B).toNat : ℕ)):ℤ) from by omega]
        _ ≤ p * 2 ^ ((((52 - B).toNat : ℕ)):ℤ) :=
              mul_le_mul_of_nonneg_right hc1 (le_of_lt (two_zpow_pos _))
      have key2 : p * 2 ^ (52 - B).toNat < (q * 2 ^ (-(52 - B)).toNat) * 2 ^ 53 := by
        rw [← Nat.cast_lt (α := ℚ)]
        push_cast
        rw [← zpow_natCast (2:ℚ) (-(52 - B)).toNat, ← zpow_natCast (2:ℚ) (52 - B).toNat,
          show (9007199254740992 : ℚ) = 2 ^ (((53:ℕ)):ℤ) from by
            rw [zpow_natCast]
            norm_num]
        calc (p:ℚ) * 2 ^ ((((52 - B).toNat : ℕ)):ℤ)
            < (q * 2 ^ (B + 1)) * 2 ^ ((((52 - B).toNat : ℕ)):ℤ) :=
              mul_lt_mul_of_pos_right hc2 (two_zpow_pos _)
        _ = q * 2 ^ ((((((-(52 - B)).toNat : ℕ))):ℤ) + (((53:ℕ)):ℤ)) := by
              rw [mul_assoc, ← zpow_add₀ hne,
                show (B + 1 + ((((52 - B).toNat : ℕ)):ℤ)) =
                  (((((-(52 - B)).toNat : ℕ))):ℤ) + (((53:ℕ)):ℤ) from by omega]
        _ = q * 2 ^ (((((-(52 - B)).toNat : ℕ))):ℤ) * 2 ^ (((53:ℕ)):ℤ) := by
              rw [mul_assoc, ← zpow_add₀ hne]
      have h52n : 2 ^ 52 ≤ rnd (p * 2 ^ (52 - B).toNat) (q * 2 ^ (-(52 - B)).toNat) :=
        rnd_ge (by positivity) key1
      have h53n : rnd (p * 2 ^ (52 - B).toNat) (q * 2 ^ (-(52 - B)).toNat) ≤ 2 ^ 53 :=
        rnd_le_of_lt (by positivity) key2
      by_cases hcar : rnd (p * 2 ^ (52 - B).toNat) (q * 2 ^ (-(52 - B)).toNat) = 2 ^ 53
      · rw [if_pos hcar]
        by_cases hov : (1023:ℤ) < B + 1
        · rw [if_pos hov]
          right
          left
          rfl
        · rw [if_neg hov]
          right
          right
          refine ⟨2 ^ 52, B - 51, rfl, Or.inl ⟨le_refl _, by norm_num, by omega, by omega⟩⟩
      · rw [if_neg hcar]
        by_cases hov : (1023:ℤ) < B
        · rw [if_pos hov]
          right
          left
          rfl
        · rw [if_neg hov]
          right
          right
          refine ⟨_, B - 52, rfl, Or.inl ⟨h52n, by omega, by omega, by omega⟩⟩

theorem roundPos_wf (sg : Bool) (p q : ℕ) : WF (roundPos sg p q) := by
  rcases roundPos_shape sg p q with h | h | ⟨n, e, h, hwf⟩ <;> rw [h]
  · trivial
  · trivial
  · exact hwf

theorem roundPos_num_elim {sg sg' : Bool} {p q n : ℕ} {e : ℤ}
    (h : roundPos sg p q = .num sg' n e) : sg' = sg ∧ WFnum n e := by
  rcases roundPos_shape sg p q with h0 | h0 | ⟨n', e', h0, hwf⟩ <;> rw [h0] at h
  · cases h
  · cases h
  · injection h with a b c
    subst a
    subst b
    subst c
    exact ⟨rfl, hwf⟩

/-- The sign tag only relabels the result of the rounding. -/
theorem roundPos_sign (sg : Bool) (p q : ℕ) :
    roundPos sg p q = (match roundPos true p q with
      | .zero _ => .zero sg
      | .inf _ => .inf sg
      | .num _ n e => .num sg n e
      | v => v) := by
  unfold roundPos
  by_cases h0 : p = 0 ∨ q = 0
  · rw [if_pos h0, if_pos h0]
  · rw [if_neg h0, if_neg h0]
    dsimp only
    split_ifs <;> rfl

theorem roundDec_num_sign {sg : Bool} {a : ℕ} {t : ℤ} {m : ℕ} {e : ℤ}
    (h : roundDec true a t = .num true m e) : roundDec sg a t = .num sg m e := by
  unfold roundDec at h ⊢
  rw [roundPos_sign sg, h]

/-! ### Digit-string machinery for the print/parse round trip -/

theorem digitVal_digitChar {n : ℕ} (h : n < 10) : digitVal (Nat.digitChar n) = n := by
  interval_cases n <;> decide

theorem digitChar_isDigit {n : ℕ} (h : n < 10) : (Nat.digitChar n).isDigit = true := by
  interval_cases n <;> decide

theorem natDigitsAux_isDigit :
    ∀ f n, n < f → ∀ c ∈ natDigitsAux f n, c.isDigit = true := by
  intro f
  induction f with
  | zero => intro n h; omega
  | succ f ih =>
    intro n h c hc
    unfold natDigitsAux at hc
    by_cases hn : n < 10
    · rw [if_pos hn] at hc
      rw [List.mem_singleton] at hc
      exact hc ▸ digitChar_isDigit hn
    · rw [if_neg hn] at hc
      rcases List.mem_append.mp hc with h1 | h1
      · have hdiv : n / 10 < f := by
          have h10 : 10 * (n / 10) + n % 10 = n := Nat.div_add_mod n 10
          have : n % 10 < 10 := Nat.mod_lt n (by omega)
          omega
        exact ih (n / 10) hdiv c h1
      · rw [List.mem_singleton] at h1
        exact h1 ▸ digitChar_isDigit (Nat.mod_lt n (by omega))

theorem natDigits_isDigit (n : ℕ) : ∀ c ∈ natDigits n, c.isDigit = true :=
  natDigitsAux_isDigit (n + 1) n (Nat.lt_succ_self n)

theorem digitsToNat_snoc (l : List Char) (c : Char) :
    digitsToNat (l ++ [c]) = digitsToNat l * 10 + digitVal c := by
  unfold digitsToNat
  rw [List.foldl_append]
  rfl

theorem natDigitsAux_toNat :
    ∀ f n, n < f → digitsToNat (natDigitsAux f n) = n := by
  intro f
  induction f with
  | zero => intro n h; omega
  | succ f ih =>
    intro n h
    unfold natDigitsAux
    by_cases hn : n < 10
    · rw [if_pos hn]
      show digitsToNat ([] ++ [Nat.digitChar n]) = n
      rw [digitsToNat_snoc]
      simp [digitsToNat, digitVal_digitChar hn]
    · rw [if_neg hn]
      rw [digitsToNat_snoc]
      have hdiv : n / 10 < f := by
        have h10 : 10 * (n / 10) + n % 10 = n := Nat.div_add_mod n 10
        have : n % 10 < 10 := Nat.mod_lt n (by omega)
        omega
      rw [ih (n / 10) hdiv, digitVal_digitChar (Nat.mod_lt n (by omega))]
      have h10 : 10 * (n / 10) + n % 10 = n := Nat.div_add_mod n 10
      omega

theorem natDigits_toNat (n : ℕ) : digitsToNat (natDigits n) = n :=
  natDigitsAux_toNat (n + 1) n (Nat.lt_succ_self n)

theorem natDigitsAux_ne_nil (f n : ℕ) : natDigitsAux (f + 1) n ≠ [] := by
  unfold natDigitsAux
  by_cases hn : n < 10
  · rw [if_pos hn]; simp
  · rw [if_neg hn]; simp

theorem natDigits_ne_nil (n : ℕ) : natDigits n ≠ [] := natDigitsAux_ne_nil n n

theorem digitsToNat_foldl_general (b : List Char) :
    ∀ init : ℕ, b.foldl (fun a c => a * 10 + digitVal c) init =
      init * 10 ^ b.length + digitsToNat b := by
  induction b with
  | nil => intro init; simp [digitsToNat]
  | cons c cs ih =>
    intro init
    rw [List.foldl_cons]
    rw [ih (init * 10 + digitVal c)]
    have h2 : digitsToNat (c :: cs) = digitVal c * 10 ^ cs.length + digitsToNat cs := by
      show List.foldl _ 0 (c :: cs) = _
      rw [List.foldl_cons, ih (0 * 10 + digitVal c)]
      simp
    rw [h2, List.length_cons]
    ring

theorem digitsToNat_append (a b : List Char) :
    digitsToNat (a ++ b) = digitsToNat a * 10 ^ b.length + digitsToNat b := by
  unfold digitsToNat
  rw [List.foldl_append]
  exact digitsToNat_foldl_general b _

theorem digitsToNat_replicate_zero (j : ℕ) :
    digitsToNat (List.replicate j '0') = 0 := by
  induction j with
  | zero => rfl
  | succ j ih =>
    rw [List.replicate_succ']
    rw [digitsToNat_snoc, ih]
    rfl

theorem replicate_zero_isDigit (j : ℕ) :
    ∀ c ∈ List.replicate j '0', c.isDigit = true := by
  intro c hc
  rw [List.eq_of_mem_replicate hc]
  decide

/-! ### stripZeros facts -/

theorem stripZerosAux_spec :
    ∀ f a, 0 < a → a ≤ f →
      a = (stripZerosAux f a).1 * 10 ^ (stripZerosAux f a).2 ∧
      0 < (stripZerosAux f a).1 ∧ (stripZerosAux f a).1 % 10 ≠ 0 := by
  intro f
  induction f with
  | zero => intro a h1 h2; omega
  | succ f ih =>
    intro a h1 h2
    unfold stripZerosAux
    by_cases hc : a % 10 = 0 ∧ a ≠ 0
    · rw [if_pos hc]
      have h10 : 10 * (a / 10) + a % 10 = a := Nat.div_add_mod a 10
      have hpos : 0 < a / 10 := by omega
      have hle : a / 10 ≤ f := by omega
      obtain ⟨he, hp, hm⟩ := ih (a / 10) hpos hle
      refine ⟨?_, hp, hm⟩
      show a = (stripZerosAux f (a / 10)).1 * 10 ^ ((stripZerosAux f (a / 10)).2 + 1)
      rw [pow_succ, ← Nat.mul_assoc, ← he]
      omega
    · rw [if_neg hc]
      exact ⟨by simp, h1, fun hm => hc ⟨hm, by omega⟩⟩

theorem stripZeros_spec (a : ℕ) (h : 0 < a) :
    a = (stripZeros a).1 * 10 ^ (stripZeros a).2 ∧
    0 < (stripZeros a).1 ∧ (stripZeros a).1 % 10 ≠ 0 :=
  stripZerosAux_spec a a h le_rfl

theorem pow_ten_unique {s1 s2 x y : ℕ}
    (h : s1 * 10 ^ x = s2 * 10 ^ y)
    (h1 : s1 % 10 ≠ 0) (h2 : s2 % 10 ≠ 0) (hp : 0 < s1) :
    s1 = s2 ∧ x = y := by
  have hp2 : 0 < s2 := by
    rcases Nat.eq_zero_or_pos s2 with h0 | h0
    · exfalso
      rw [h0, Nat.zero_mul] at h
      have h10 : 0 < 10 ^ x := Nat.pos_pow_of_pos x (by omega)
      have : 0 < s1 * 10 ^ x := Nat.mul_pos hp h10
      omega
    · exact h0
  rcases le_total x y with hxy | hxy
  · have : s1 * 10 ^ x = s2 * 10 ^ (y - x) * 10 ^ x := by
      rw [Nat.mul_assoc, ← pow_add]
      rw [show y - x + x = y from by omega]
      exact h
    have hs : s1 = s2 * 10 ^ (y - x) :=
      Nat.eq_of_mul_eq_mul_right (Nat.pos_pow_of_pos x (by omega)) this
    rcases Nat.eq_zero_or_pos (y - x) with h0 | h0
    · constructor
      · rw [hs, h0]; ring
      · omega
    · exfalso
      apply h1
      rw [hs]
      have hmod : 10 ^ (y - x) % 10 = 0 := by
        rcases Nat.exists_eq_add_of_lt h0 with ⟨j, hj⟩
        rw [show y - x = j + 1 from by omega, pow_succ]
        simp [Nat.mul_mod]
      rw [Nat.mul_mod, hmod]
      simp
  · have : s2 * 10 ^ y = s1 * 10 ^ (x - y) * 10 ^ y := by
      rw [Nat.mul_assoc, ← pow_add]
      rw [show x - y + y = x from by omega]
      exact h.symm
    have hs : s2 = s1 * 10 ^ (x - y) :=
      Nat.eq_of_mul_eq_mul_right (Nat.pos_pow_of_pos y (by omega)) this
    rcases Nat.eq_zero_or_pos (x - y) with h0 | h0
    · constructor
      · rw [hs, h0]; ring_nf
      · omega
    · exfalso
      apply h2
      rw [hs]
      have hmod : 10 ^ (x - y) % 10 = 0 := by
        rcases Nat.exists_eq_add_of_lt h0 with ⟨j, hj⟩
        rw [show x - y = j + 1 from by omega, pow_succ]
        simp [Nat.mul_mod]
      rw [Nat.mul_mod, hmod]
      simp

/-! ### Parser evaluation on structured digit strings -/

/-- Head of the remainder is not a digit (so a digit run stops there). -/
def headNotDigit : List Char → Prop
  | [] => True
  | c :: _ => c.isDigit = false

/-- Head of the remainder neither a digit nor a dot (so a mantissa
stops there). -/
def mantStop : List Char → Prop
  | [] => True
  | c :: _ => c.isDigit = false ∧ c ≠ '.'

theorem takeDigits_run (ds : List Char) :
    ∀ r, (∀ c ∈ ds, c.isDigit = true) → headNotDigit r →
      takeDigits (ds ++ r) = (ds, r) := by
  induction ds with
  | nil =>
    intro r _ hr
    cases r with
    | nil => rfl
    | cons c r' =>
      rw [List.nil_append]
      simp only [takeDigits]
      simp only [headNotDigit] at hr
      rw [if_neg (by simp [hr])]
  | cons d ds' ih =>
    intro r hds hr
    rw [List.cons_append]
    simp only [takeDigits]
    rw [if_pos (hds d (List.mem_cons_self d ds'))]
    rw [ih r (fun c hc => hds c (List.mem_cons_of_mem d hc)) hr]

theorem parseMantissa_int (ds r : List Char) (hne : ds ≠ [])
    (hds : ∀ c ∈ ds, c.isDigit = true) (hr : mantStop r) :
    parseMantissa (ds ++ r) = some (digitsToNat ds, 0, r) := by
  unfold parseMantissa
  have hhead : headNotDigit r := by
    cases r with
    | nil => trivial
    | cons c r' => exact hr.1
  rw [takeDigits_run ds r hds hhead]
  cases r with
  | nil => simp [hne]
  | cons c r' =>
    have hc : c ≠ '.' := hr.2
    simp only [if_neg hc]
    simp [hne]

theorem parseMantissa_frac (ds1 ds2 r : List Char) (hne : ds1 ≠ [])
    (h1 : ∀ c ∈ ds1, c.isDigit = true) (h2 : ∀ c ∈ ds2, c.isDigit = true)
    (hr : headNotDigit r) :
    parseMantissa (ds1 ++ '.' :: ds2 ++ r) =
      some (digitsToNat (ds1 ++ ds2), ds2.length, r) := by
  unfold parseMantissa
  have hstep : takeDigits (ds1 ++ '.' :: (ds2 ++ r)) = (ds1, '.' :: (ds2 ++ r)) :=
    takeDigits_run ds1 ('.' :: (ds2 ++ r)) h1 (by simp [headNotDigit])
  rw [show ds1 ++ '.' :: ds2 ++ r = ds1 ++ '.' :: (ds2 ++ r) from by simp]
  rw [hstep]
  simp only [if_pos rfl]
  rw [takeDigits_run ds2 r h2 hr]
  simp only [hne, false_and, if_neg]
  rw [digitsToNat_append, digitsToNat_append]
  simp

theorem parseSign_default (c : Char) (r : List Char) (h1 : c ≠ '+') (h2 : c ≠ '-') :
    parseSign (c :: r) = (1, c :: r) := by
  simp only [parseSign]
  rw [if_neg h1, if_neg h2]

theorem parseExp_pos_run (eds r : List Char) (hne : eds ≠ [])
    (hds : ∀ c ∈ eds, c.isDigit = true) (hr : headNotDigit r) :
    parseExp ('e' :: '+' :: (eds ++ r)) = (digitsToNat eds : ℤ) := by
  simp only [parseExp]
  rw [if_pos (Or.inl trivial)]
  show (if ((takeDigits (parseSign ('+' :: (eds ++ r))).2).1 = []) then (0:ℤ)
    else (parseSign ('+' :: (eds ++ r))).1 * _) = _
  rw [show parseSign ('+' :: (eds ++ r)) = (1, eds ++ r) from by simp only [parseSign]; simp]
  rw [takeDigits_run eds r hds hr]
  simp [hne]

theorem parseExp_neg_run (eds r : List Char) (hne : eds ≠ [])
    (hds : ∀ c ∈ eds, c.isDigit = true) (hr : headNotDigit r) :
    parseExp ('e' :: '-' :: (eds ++ r)) = -(digitsToNat eds : ℤ) := by
  simp only [parseExp]
  rw [if_pos (Or.inl trivial)]
  show (if ((takeDigits (parseSign ('-' :: (eds ++ r))).2).1 = []) then (0:ℤ)
    else (parseSign ('-' :: (eds ++ r))).1 * _) = _
  rw [show parseSign ('-' :: (eds ++ r)) = (-1, eds ++ r) from by simp only [parseSign]; simp]
  rw [takeDigits_run eds r hds hr]
  simp [hne]

/-- The exponent application of the decimal parse, as a pair
`(mantissa, fraction-digit count)`: the parsed value is
`mantissa / 10 ^ count`. -/
def decVal (m0 : ℤ) (e0 : ℕ) (ex : ℤ) : ℤ × ℕ :=
  if 0 ≤ ex then (m0 * 10 ^ ex.toNat, e0) else (m0, e0 + ex.natAbs)

theorem decVal_nonneg (ex : ℤ) (m0 : ℤ) (e0 : ℕ) (h : 0 ≤ ex) :
    decVal m0 e0 ex = (m0 * 10 ^ ex.toNat, e0) := if_pos h

theorem decVal_negative (ex : ℤ) (m0 : ℤ) (e0 : ℕ) (h : ¬ 0 ≤ ex) :
    decVal m0 e0 ex = (m0, e0 + ex.natAbs) := if_neg h

theorem digit_not_ws {c : Char} (h : c.isDigit = true) : isWSChar c = false := by
  cases hw : isWSChar c with
  | false => rfl
  | true =>
    exfalso
    simp only [isWSChar, Bool.or_eq_true, decide_eq_true_eq] at hw
    rcases hw with ((((rfl | rfl) | rfl) | rfl) | rfl) | rfl <;> exact absurd h (by decide)

theorem digit_ne (c x : Char) (h : c.isDigit = true) (hx : x.isDigit = false) :
    c ≠ x := by
  intro he
  rw [he, hx] at h
  cases h

theorem minus_not_ws : isWSChar '-' = false := by decide

theorem inf_not_prefix_of_digit {c : Char} (r : List Char) (h : c.isDigit = true) :
    "Infinity".data.isPrefixOf (c :: r) = false := by
  show (('I' == c) && _) = false
  have : ('I' == c) = false := by
    rw [beq_eq_false_iff_ne]
    exact (digit_ne c 'I' h (by decide)).symm
  rw [this]
  rfl

theorem parseMantissa_D (d : Char) (rest tail : List Char)
    (hdig : ∀ c ∈ d :: rest, c.isDigit = true) (ht : mantStop tail)
    (hth : headNotDigit tail) :
    parseMantissa ((d :: if rest = [] then [] else '.' :: rest) ++ tail) =
      some (digitsToNat (d :: rest), rest.length, tail) := by
  cases rest with
  | nil =>
    simp only [if_pos rfl]
    exact parseMantissa_int [d] tail (by simp)
      (fun c hc => hdig c (by simpa using hc)) ht
  | cons d2 r2 =>
    simp only [if_neg (by simp : ¬ (d2 :: r2 = []))]
    have := parseMantissa_frac [d] (d2 :: r2) tail (by simp)
      (fun c hc => hdig c (by rw [List.mem_singleton] at hc; subst hc; exact List.mem_cons_self _ _))
      (fun c hc => hdig c (List.mem_cons_of_mem d hc)) hth
    rw [show ([d] ++ '.' :: (d2 :: r2) ++ tail) = ((d :: '.' :: d2 :: r2) ++ tail) from by simp] at this
    rw [this]
    simp

theorem renderPos_parse (a e : ℕ) (ha : 0 < a) :
    (∃ d tl, renderPos a e = d :: tl ∧ d.isDigit = true) ∧
    ∃ (m' : ℤ) (e' : ℕ) (mv fe : ℕ) (r2 : List Char),
      parseMantissa (renderPos a e) = some (mv, fe, r2) ∧
      decVal (mv : ℤ) fe (parseExp r2) = (m', e') ∧
      0 < m' ∧ (m' : ℤ) * 10 ^ e = (a : ℤ) * 10 ^ e' := by
  obtain ⟨hval, hspos, hsmod⟩ := stripZeros_spec a ha
  unfold renderPos
  dsimp only
  set s := (stripZeros a).1 with hs
  set t := (stripZeros a).2 with ht
  set ds := natDigits s with hdsdef
  have hdig : ∀ c ∈ ds, c.isDigit = true := natDigits_isDigit s
  have hne : ds ≠ [] := natDigits_ne_nil s
  have hdtn : digitsToNat ds = s := natDigits_toNat s
  set k : ℤ := (ds.length : ℤ) with hk
  set n : ℤ := k + t - e with hn
  clear_value s t ds k n
  split_ifs with hA hB hC
  · -- integer form
    set z := (n - k).toNat with hz
    have hzk : (z : ℤ) = n - k := Int.toNat_of_nonneg (by omega)
    have hall : ∀ c ∈ ds ++ List.replicate z '0', c.isDigit = true := by
      intro c hc
      rcases List.mem_append.mp hc with h | h
      · exact hdig c h
      · exact replicate_zero_isDigit z c h
    have hm := parseMantissa_int (ds ++ List.replicate z '0') [] (by simp [hne]) hall trivial
    rw [List.append_nil] at hm
    have hmv : digitsToNat (ds ++ List.replicate z '0') = s * 10 ^ z := by
      rw [digitsToNat_append, digitsToNat_replicate_zero, hdtn, List.length_replicate]
      ring
    have hzt : z + e = t := by omega
    have hcast : (a : ℤ) = (s : ℤ) * 10 ^ t := by exact_mod_cast hval
    have hspos' : (0:ℤ) < (s:ℤ) := by exact_mod_cast hspos
    refine ⟨?_, _, _, _, _, _, hm,
      decVal_nonneg (parseExp []) _ _ (by norm_num [parseExp]), ?_, ?_⟩
    · obtain ⟨d, tl, hds2⟩ : ∃ d tl, ds = d :: tl := by
        cases hds3 : ds with
        | nil => exact absurd hds3 hne
        | cons d tl => exact ⟨d, tl, rfl⟩
      exact ⟨d, tl ++ List.replicate z '0', by rw [hds2]; rfl,
        hdig d (by rw [hds2]; exact List.mem_cons_self _ _)⟩
    · rw [hmv]
      rw [show parseExp [] = (0:ℤ) from rfl]
      push_cast
      positivity
    · rw [hmv]
      rw [show parseExp [] = (0:ℤ) from rfl]
      rw [show ((0:ℤ)).toNat = 0 from rfl]
      push_cast
      rw [hcast, ← hzt, pow_add]
      ring
  · -- fixed-point form
    set q := n.toNat with hq
    have hqn : (q : ℤ) = n := Int.toNat_of_nonneg (by omega)
    have hnk : n < k := by
      by_contra hnn
      push_neg at hnn
      exact hA ⟨hnn, hB.2⟩
    have hkL : k = (ds.length : ℤ) := hk
    have hnn : n = k + t - e := hn
    have hqk : q < ds.length := by omega
    have hq0 : 0 < q := by omega
    have ht1 : ds.take q ≠ [] := by
      intro hnil
      have hlen := congrArg List.length hnil
      rw [List.length_take, List.length_nil] at hlen
      rcases Nat.min_eq_zero_iff.mp hlen with h0 | h0 <;> omega
    have hm := parseMantissa_frac (ds.take q) (ds.drop q) [] ht1
      (fun c hc => hdig c (List.take_subset q ds hc))
      (fun c hc => hdig c (List.drop_subset q ds hc)) trivial
    rw [List.append_nil] at hm
    rw [List.take_append_drop q ds, hdtn, List.length_drop] at hm
    have hcast : (a : ℤ) = (s : ℤ) * 10 ^ t := by exact_mod_cast hval
    have hspos' : (0:ℤ) < (s:ℤ) := by exact_mod_cast hspos
    have hfe : e = t + (ds.length - q) := by omega
    refine ⟨?_, _, _, _, _, _, hm,
      decVal_nonneg (parseExp []) _ _ (by norm_num [parseExp]), ?_, ?_⟩
    · obtain ⟨d, tl, hds2⟩ : ∃ d tl, ds.take q = d :: tl := by
        cases hds3 : ds.take q with
        | nil => exact absurd hds3 ht1
        | cons d tl => exact ⟨d, tl, rfl⟩
      exact ⟨d, tl ++ '.' :: ds.drop q, by rw [hds2]; rfl,
        hdig d (List.take_subset q ds (by rw [hds2]; exact List.mem_cons_self _ _))⟩
    · rw [show parseExp [] = (0:ℤ) from rfl]
      push_cast
      positivity
    · rw [show parseExp [] = (0:ℤ) from rfl]
      rw [show ((0:ℤ)).toNat = 0 from rfl]
      push_cast
      rw [hcast, hfe, pow_add]
      ring
  · -- leading-zero form (marker2)
    set z := (-n).toNat with hz
    have hzn : (z : ℤ) = -n := Int.toNat_of_nonneg (by omega)
    have hm := parseMantissa_frac ['0'] (List.replicate z '0' ++ ds) [] (by simp)
      (by intro c hc; rw [List.mem_singleton] at hc; subst hc; decide)
      (by
        intro c hc
        rcases List.mem_append.mp hc with h | h
        · exact replicate_zero_isDigit z c h
        · exact hdig c h) trivial
    rw [List.append_nil] at hm
    rw [show (['0'] ++ '.' :: (List.replicate z '0' ++ ds)) =
      ('0' :: '.' :: List.replicate z '0' ++ ds) from by simp] at hm
    have hdtn2 : digitsToNat (['0'] ++ (List.replicate z '0' ++ ds)) = s := by
      rw [digitsToNat_append, digitsToNat_append, digitsToNat_replicate_zero, hdtn]
      simp [digitsToNat, digitVal]
    rw [hdtn2] at hm
    have hlen2 : (List.replicate z '0' ++ ds).length = z + ds.length := by
      simp [List.length_append, List.length_replicate]
    rw [hlen2] at hm
    have hcast : (a : ℤ) = (s : ℤ) * 10 ^ t := by exact_mod_cast hval
    have hspos' : (0:ℤ) < (s:ℤ) := by exact_mod_cast hspos
    have hfe : e = t + (z + ds.length) := by omega
    refine ⟨⟨'0', '.' :: (List.replicate z '0' ++ ds), rfl, by decide⟩, _, _, _, _, _, hm,
      decVal_nonneg (parseExp []) _ _ (by norm_num [parseExp]), ?_, ?_⟩
    · rw [show parseExp [] = (0:ℤ) from rfl]
      push_cast
      positivity
    · rw [show parseExp [] = (0:ℤ) from rfl]
      rw [show ((0:ℤ)).toNat = 0 from rfl]
      push_cast
      rw [hcast, hfe, pow_add]
      ring
  · -- exponent form, nonnegative exponent
    rename_i hD
    have hn22 : 22 ≤ n := by
      rcases le_or_lt n 21 with h21 | h21
      · exfalso
        rcases le_or_lt n 0 with h0 | h0
        · rcases le_or_lt n (-6) with h6 | h6
          · omega
          · exact hC ⟨by omega, h0⟩
        · exact hB ⟨h0, h21⟩
      · omega
    obtain ⟨d, rest, hds2⟩ : ∃ d rest, ds = d :: rest := by
      cases hds3 : ds with
      | nil => exact absurd hds3 hne
      | cons d rest => exact ⟨d, rest, rfl⟩
    subst hds2
    set eds := natDigits ((n - 1)).natAbs with heds
    have hedig := natDigits_isDigit ((n - 1)).natAbs
    have hedne : eds ≠ [] := natDigits_ne_nil _
    have hedtn : digitsToNat eds = ((n - 1)).natAbs := natDigits_toNat _
    have hm := parseMantissa_D d rest ('e' :: '+' :: eds)
      hdig (by exact ⟨by decide, by decide⟩) (by exact (by decide : ('e').isDigit = false))
    rw [hdtn] at hm
    have hexp : parseExp ('e' :: '+' :: eds) = (digitsToNat eds : ℤ) := by
      have h := parseExp_pos_run eds [] hedne (fun c hc => hedig c hc) trivial
      rw [List.append_nil] at h
      exact h
    rw [hedtn] at hexp
    have hXn : (((n - 1).natAbs : ℤ)) = n - 1 := by omega
    have hkr : k = (rest.length : ℤ) + 1 := by
      rw [hk]
      simp [List.length_cons]
    have hcast : (a : ℤ) = (s : ℤ) * 10 ^ t := by exact_mod_cast hval
    have hspos' : (0:ℤ) < (s:ℤ) := by exact_mod_cast hspos
    have hXe : (n - 1).natAbs + e = t + rest.length := by omega
    refine ⟨⟨d, (if rest = [] then [] else '.' :: rest) ++ 'e' :: '+' :: eds,
        List.cons_append _ _ _, hdig d (List.mem_cons_self _ _)⟩, _, _, _, _, _, hm,
      decVal_nonneg (parseExp ('e' :: '+' :: eds)) _ _
        (by rw [hexp]; positivity), ?_, ?_⟩
    · rw [hexp]
      rw [show ((((n - 1).natAbs : ℤ)).toNat) = (n - 1).natAbs from by omega]
      positivity
    · rw [hexp]
      rw [show ((((n - 1).natAbs : ℤ)).toNat) = (n - 1).natAbs from by omega]
      rw [hcast]
      rw [mul_assoc, ← pow_add, hXe, mul_assoc, ← pow_add]
  · -- exponent form, negative exponent
    rename_i hD
    have hn6 : n ≤ -6 := by
      rcases le_or_lt n 0 with h0 | h0
      · rcases le_or_lt n (-6) with h6 | h6
        · exact h6
        · exact absurd ⟨h6, h0⟩ hC
      · omega
    obtain ⟨d, rest, hds2⟩ : ∃ d rest, ds = d :: rest := by
      cases hds3 : ds with
      | nil => exact absurd hds3 hne
      | cons d rest => exact ⟨d, rest, rfl⟩
    subst hds2
    set eds := natDigits ((n - 1)).natAbs with heds
    have hedig := natDigits_isDigit ((n - 1)).natAbs
    have hedne : eds ≠ [] := natDigits_ne_nil _
    have hedtn : digitsToNat eds = ((n - 1)).natAbs := natDigits_toNat _
    have hm := parseMantissa_D d rest ('e' :: '-' :: eds)
      hdig (by exact ⟨by decide, by decide⟩) (by exact (by decide : ('e').isDigit = false))
    rw [hdtn] at hm
    have hexp : parseExp ('e' :: '-' :: eds) = -(digitsToNat eds : ℤ) := by
      have h := parseExp_neg_run eds [] hedne (fun c hc => hedig c hc) trivial
      rw [List.append_nil] at h
      exact h
    rw [hedtn] at hexp
    have hXn : (((n - 1).natAbs : ℤ)) = 1 - n := by omega
    have hkr : k = (rest.length : ℤ) + 1 := by
      rw [hk]
      simp [List.length_cons]
    have hcast : (a : ℤ) = (s : ℤ) * 10 ^ t := by exact_mod_cast hval
    have hspos' : (0:ℤ) < (s:ℤ) := by exact_mod_cast hspos
    have hXe : e = t + (rest.length + (n - 1).natAbs) := by omega
    refine ⟨⟨d, (if rest = [] then [] else '.' :: rest) ++ 'e' :: '-' :: eds,
        List.cons_append _ _ _, hdig d (List.mem_cons_self _ _)⟩, _, _, _, _, _, hm,
      decVal_negative (parseExp ('e' :: '-' :: eds)) _ _
        (by rw [hexp]; omega), ?_, ?_⟩
    · positivity
    · rw [hexp]
      rw [show ((-((((n - 1).natAbs : ℕ) : ℤ))).natAbs) = (n - 1).natAbs from by omega]
      rw [hcast, hXe]
      rw [mul_assoc, ← pow_add]

/-! ### Parsing a printed number recovers the double exactly -/

theorem jsParseFloat_digit_head (d : Char) (tl : List Char) (hd : d.isDigit = true) :
    jsParseFloat (d :: tl) =
      (match parseMantissa (d :: tl) with
      | none => JSVal.nan
      | some (mv, fe, r2) => roundDec true mv (parseExp r2 - fe)) := by
  unfold jsParseFloat
  dsimp only
  have hdw : (d :: tl).dropWhile isWSChar = d :: tl := by
    rw [List.dropWhile_cons, digit_not_ws hd]
    rfl
  rw [hdw]
  have hps : parseSign (d :: tl) = (1, d :: tl) :=
    parseSign_default d tl (digit_ne d '+' hd (by decide)) (digit_ne d '-' hd (by decide))
  rw [hps]
  dsimp only
  have hni : ¬ ("Infinity".data.isPrefixOf (d :: tl) = true) := by
    rw [inf_not_prefix_of_digit tl hd]
    simp
  rw [if_neg hni]
  rw [show (decide ((1:ℤ) = 1)) = true from rfl]

theorem jsParseFloat_neg_head (d : Char) (tl : List Char) (hd : d.isDigit = true) :
    jsParseFloat ('-' :: d :: tl) =
      (match parseMantissa (d :: tl) with
      | none => JSVal.nan
      | some (mv, fe, r2) => roundDec false mv (parseExp r2 - fe)) := by
  unfold jsParseFloat
  dsimp only
  have hdw : ('-' :: d :: tl).dropWhile isWSChar = '-' :: d :: tl := by
    rw [List.dropWhile_cons, minus_not_ws]
    rfl
  rw [hdw]
  have hps : parseSign ('-' :: d :: tl) = (-1, d :: tl) := by
    simp [parseSign]
  rw [hps]
  dsimp only
  have hni : ¬ ("Infinity".data.isPrefixOf (d :: tl) = true) := by
    rw [inf_not_prefix_of_digit tl hd]
    simp
  rw [if_neg hni]
  rw [show (decide ((-1:ℤ) = 1)) = false from rfl]

/-- Two positive decimals with value `a1 / 10^u1 = a2 / 10^u2` round
identically. -/
theorem roundDec_val_negExp (sg : Bool) {a1 a2 u1 u2 : ℕ}
    (h : a1 * 10 ^ u2 = a2 * 10 ^ u1) :
    roundDec sg a1 (-(u1:ℤ)) = roundDec sg a2 (-(u2:ℤ)) := by
  apply roundDec_val
  rw [show ((-(u1:ℤ)) - (-(u2:ℤ))).toNat = ((u2:ℤ) - u1).toNat from by omega,
    show ((-(u2:ℤ)) - (-(u1:ℤ))).toNat = ((u1:ℤ) - u2).toNat from by omega]
  have e1 : ((u2:ℤ) - u1).toNat + min u1 u2 = u2 := by omega
  have e2 : ((u1:ℤ) - u2).toNat + min u1 u2 = u1 := by omega
  apply Nat.eq_of_mul_eq_mul_right (show 0 < 10 ^ min u1 u2 from by positivity)
  calc a1 * 10 ^ ((u2:ℤ) - u1).toNat * 10 ^ min u1 u2
      = a1 * 10 ^ (((u2:ℤ) - u1).toNat + min u1 u2) := by
        rw [pow_add]
        ring
  _ = a1 * 10 ^ u2 := by rw [e1]
  _ = a2 * 10 ^ u1 := h
  _ = a2 * 10 ^ (((u1:ℤ) - u2).toNat + min u1 u2) := by rw [e2]
  _ = a2 * 10 ^ ((u1:ℤ) - u2).toNat * 10 ^ min u1 u2 := by
      rw [pow_add]
      ring

/-- The parsed decimal `mv · 10^(ex - fe)` equals the `decVal` pair. -/
theorem roundDec_decVal (sg : Bool) (mv fe : ℕ) (ex : ℤ) {m' : ℤ} {e' : ℕ}
    (h : decVal (mv : ℤ) fe ex = (m', e')) :
    roundDec sg mv (ex - fe) = roundDec sg m'.toNat (-(e' : ℤ)) := by
  unfold decVal at h
  by_cases hex : 0 ≤ ex
  · rw [if_pos hex] at h
    injection h with h1 h2
    subst h2
    have hmnat : ((mv * 10 ^ ex.toNat : ℕ) : ℤ) = m' := by
      push_cast
      exact h1
    have hmt : m'.toNat = mv * 10 ^ ex.toNat := by omega
    rw [hmt]
    apply roundDec_val
    rw [show ((ex - (fe:ℤ)) - (-((fe:ℕ):ℤ))).toNat = ex.toNat from by omega,
      show ((-((fe:ℕ):ℤ)) - (ex - (fe:ℤ))).toNat = 0 from by omega]
    ring
  · rw [if_neg hex] at h
    injection h with h1 h2
    subst h2
    subst h1
    rw [show (((mv:ℕ):ℤ)).toNat = mv from by omega]
    apply roundDec_val
    rw [show ((ex - (fe:ℤ)) - (-(((fe + ex.natAbs : ℕ)):ℤ))).toNat = 0 from by omega,
      show ((-(((fe + ex.natAbs : ℕ)):ℤ)) - (ex - (fe:ℤ))).toNat = 0 from by omega]

/-- `parseFloat` maps the output of `String(x)` back to `x`, up to the
canonical collapses `undefined ↦ NaN` and `-0 ↦ +0`. -/
def canonJS : JSVal → JSVal
  | .undefined => .nan
  | .zero _ => .zero true
  | v => v

theorem jsParseFloat_toS (x : JSVal) (hwf : WF x) :
    jsParseFloat (jsToString x) = canonJS x := by
  cases x with
  | undefined => decide
  | nan => decide
  | inf b => cases b <;> decide
  | zero b => cases b <;> decide
  | num sg m e =>
    have hwfn : WFnum m e := hwf
    have ha : 0 < (shortRep m e).1 := shortRep_pos hwfn
    obtain ⟨⟨d, tl, hdtl, hddig⟩, m', e', mv, fe, r2, hman, hdv, hmpos, heq⟩ :=
      renderPos_parse (shortRep m e).1 (shortRep m e).2 ha
    have hmt : ((m'.toNat : ℕ) : ℤ) = m' := Int.toNat_of_nonneg (le_of_lt hmpos)
    have hcross : m'.toNat * 10 ^ (shortRep m e).2 = (shortRep m e).1 * 10 ^ e' := by
      rw [← Nat.cast_inj (R := ℤ)]
      push_cast
      rw [hmt]
      exact_mod_cast heq
    cases sg with
    | true =>
      show jsParseFloat (renderPos (shortRep m e).1 (shortRep m e).2) = .num true m e
      rw [hdtl, jsParseFloat_digit_head d tl hddig, ← hdtl, hman]
      dsimp only
      rw [roundDec_decVal true mv fe (parseExp r2) hdv]
      rw [← shortRep_sound hwfn]
      exact roundDec_val_negExp true hcross
    | false =>
      show jsParseFloat ('-' :: renderPos (shortRep m e).1 (shortRep m e).2) = .num false m e
      rw [hdtl, jsParseFloat_neg_head d tl hddig, ← hdtl, hman]
      dsimp only
      rw [roundDec_decVal false mv fe (parseExp r2) hdv]
      rw [← roundDec_num_sign (shortRep_sound hwfn)]
      exact roundDec_val_negExp false hcross

theorem isPrefixOf_congr (pat : List Char) :
    ∀ {X Y : List Char}, X.take pat.length = Y.take pat.length →
      pat.isPrefixOf X = pat.isPrefixOf Y := by
  induction pat with
  | nil =>
    intro X Y _
    cases X <;> cases Y <;> rfl
  | cons a pat ih =>
    intro X Y h
    cases X with
    | nil =>
      cases Y with
      | nil => rfl
      | cons y ys =>
        simp only [List.length_cons, List.take_nil, List.take_succ_cons] at h
        exact absurd h (by simp)
    | cons x xs =>
      cases Y with
      | nil =>
        simp only [List.length_cons, List.take_nil, List.take_succ_cons] at h
        exact absurd h (by simp)
      | cons y ys =>
        simp only [List.length_cons, List.take_succ_cons, List.cons.injEq] at h
        obtain ⟨rfl, h2⟩ := h
        show (a == x && pat.isPrefixOf xs) = (a == x && pat.isPrefixOf ys)
        rw [ih h2]

theorem splitAtQuote_some_of_mem {l : List Char} (h : '"' ∈ l) :
    ∃ a b, splitAtQuote l = some (a, b) := by
  induction l with
  | nil => cases h
  | cons c cs ih =>
    by_cases hc : c = '"'
    · exact ⟨[], cs, by simp [splitAtQuote, hc]⟩
    · have h2 : '"' ∈ cs := by
        rcases List.mem_cons.mp h with h' | h'
        · exact absurd h'.symm hc
        · exact h'
      obtain ⟨a, b, hab⟩ := ih h2
      exact ⟨c :: a, b, by simp [splitAtQuote, hc, hab]⟩

theorem splitAtQuote_extend {l a b : List Char} (t : List Char)
    (h : splitAtQuote l = some (a, b)) :
    splitAtQuote (l ++ t) = some (a, b ++ t) := by
  obtain ⟨hl, hq⟩ := splitAtQuote_eq h
  subst hl
  rw [show (a ++ '"' :: b) ++ t = a ++ '"' :: (b ++ t) from by simp]
  exact splitAtQuote_append (b ++ t) hq

theorem tryVBHere_transfer (q t1 t2 : List Char) (hq : q ≠ [])
    (h : tryVBHere (q ++ (vbLit ++ t1)) = none) :
    tryVBHere (q ++ (vbLit ++ t2)) = none := by
  have hql : 1 ≤ q.length := by
    cases q with
    | nil => exact absurd rfl hq
    | cons _ _ => simp
  have hvbl : vbLit.length = 9 := by decide
  have h0 : 9 - (q ++ vbLit).length = 0 := by
    rw [List.length_append, hvbl]
    omega
  have htk : ∀ t : List Char, (q ++ (vbLit ++ t)).take 9 = (q ++ vbLit).take 9 := by
    intro t
    rw [← List.append_assoc, List.take_append_eq_append_take, h0]
    simp
  have hdp : ∀ t : List Char, (q ++ (vbLit ++ t)).drop 9 = (q ++ vbLit).drop 9 ++ t := by
    intro t
    rw [← List.append_assoc, List.drop_append_eq_append_drop, h0, List.drop_zero]
  have hpre : vbLit.isPrefixOf (q ++ (vbLit ++ t2)) = vbLit.isPrefixOf (q ++ (vbLit ++ t1)) := by
    apply isPrefixOf_congr
    rw [hvbl, htk t2, htk t1]
  unfold tryVBHere at h ⊢
  simp only [hpre]
  by_cases hp : vbLit.isPrefixOf (q ++ (vbLit ++ t1)) = true
  · rw [if_pos hp] at h ⊢
    have hmid : '"' ∈ (q ++ vbLit).drop 9 := by
      have hv2 : q ++ vbLit = (q ++ "viewBox=".data) ++ ['"'] := by
        rw [List.append_assoc]
        rfl
      rw [hv2, List.drop_append_eq_append_drop]
      have h1 : 9 - (q ++ "viewBox=".data).length = 0 := by
        rw [List.length_append]
        have h8 : ("viewBox=".data).length = 8 := by decide
        omega
      rw [h1, List.drop_zero]
      simp
    obtain ⟨a, b, hab⟩ := splitAtQuote_some_of_mem hmid
    rw [hdp t1, splitAtQuote_extend t1 hab] at h
    rw [hdp t2, splitAtQuote_extend t2 hab]
    dsimp only at h ⊢
    by_cases ha : a = []
    · rw [if_pos ha]
    · rw [if_neg ha] at h
      exact Option.noConfusion h
  · rw [if_neg hp] at h ⊢

theorem findVB_cons_eq (c : Char) (cs : List Char) :
    findVB (c :: cs) = (match tryVBHere (c :: cs) with
      | some (v, rest) => some ([], v, rest)
      | none => (findVB cs).map fun t => (c :: t.1, t.2.1, t.2.2)) := rfl

theorem findVB_shift (p : List Char) :
    ∀ (t1 t2 v u v2 u2 : List Char),
      findVB (p ++ (vbLit ++ t1)) = some (p, v, u) →
      tryVBHere (vbLit ++ t2) = some (v2, u2) →
      findVB (p ++ (vbLit ++ t2)) = some (p, v2, u2) := by
  induction p with
  | nil =>
    intro t1 t2 v u v2 u2 _ hsucc
    simp only [List.nil_append]
    have hv : vbLit ++ t2 = 'v' :: ("iewBox=\"".data ++ t2) := rfl
    rw [hv, findVB_cons_eq, ← hv, hsucc]
  | cons c p ih =>
    intro t1 t2 v u v2 u2 h hsucc
    rw [show (c :: p) ++ (vbLit ++ t1) = c :: (p ++ (vbLit ++ t1)) from rfl,
      findVB_cons_eq] at h
    cases htry : tryVBHere (c :: (p ++ (vbLit ++ t1))) with
    | some pr =>
      obtain ⟨v', u'⟩ := pr
      rw [htry] at h
      simp at h
    | none =>
      rw [htry] at h
      dsimp only at h
      rw [Option.map_eq_some'] at h
      obtain ⟨⟨p0, v0, u0⟩, h1, h2⟩ := h
      simp only [Prod.mk.injEq, List.cons.injEq, true_and] at h2
      obtain ⟨h2a, h2b, h2c⟩ := h2
      subst h2b; subst h2c
      rw [h2a] at h1
      have hnew := ih t1 t2 v0 u0 v2 u2 h1 hsucc
      have htry2 : tryVBHere (c :: (p ++ (vbLit ++ t2))) = none := by
        have ht := tryVBHere_transfer (c :: p) t1 t2 (by simp) (by
          rw [show (c :: p) ++ (vbLit ++ t1) = c :: (p ++ (vbLit ++ t1)) from rfl]
          exact htry)
        rw [show (c :: p) ++ (vbLit ++ t2) = c :: (p ++ (vbLit ++ t2)) from rfl] at ht
        exact ht
      rw [show (c :: p) ++ (vbLit ++ t2) = c :: (p ++ (vbLit ++ t2)) from rfl,
        findVB_cons_eq, htry2]
      dsimp only
      rw [hnew]
      rfl

theorem findVB_replace {s p v u : List Char} (v' : List Char)
    (hf : findVB s = some (p, v, u)) (h1 : v' ≠ []) (h2 : '"' ∉ v') :
    findVB (p ++ (vbLit ++ (v' ++ '"' :: u))) = some (p, v', u) := by
  obtain ⟨hs, _, _⟩ := findVB_structure hf
  have hf' : findVB (p ++ (vbLit ++ (v ++ '"' :: u))) = some (p, v, u) := by
    simp only [← List.append_assoc]
    rw [← hs]
    exact hf
  have hsucc : tryVBHere (vbLit ++ (v' ++ '"' :: u)) = some (v', u) := by
    rw [← List.append_assoc]
    exact tryVBHere_append u h2 h1
  exact findVB_shift p (v ++ '"' :: u) (v' ++ '"' :: u) v u v' u hf' hsucc

end MusicMd

namespace MusicMd
theorem splitOnChar_no_sep {sep : Char} {a : List Char} (h : sep ∉ a) :
    splitOnChar sep a = [a] := by
  induction a with
  | nil => rfl
  | cons c cs ih =>
    have hc : c ≠ sep := fun hh => h (hh ▸ List.mem_cons_self c cs)
    have hcs : sep ∉ cs := fun hh => h (List.mem_cons_of_mem c hh)
    simp only [splitOnChar, if_neg hc, ih hcs]

theorem splitOnChar_sep_append {sep : Char} {a : List Char} (b : List Char)
    (h : sep ∉ a) :
    splitOnChar sep (a ++ sep :: b) = a :: splitOnChar sep b := by
  induction a with
  | nil => simp [splitOnChar]
  | cons c cs ih =>
    have hc : c ≠ sep := fun hh => h (hh ▸ List.mem_cons_self c cs)
    have hcs : sep ∉ cs := fun hh => h (List.mem_cons_of_mem c hh)
    rw [List.cons_append]
    simp only [splitOnChar, if_neg hc, ih hcs]
theorem renderPos_chars (a e : ℕ) :
    ∀ c ∈ renderPos a e, c ≠ ' ' ∧ c ≠ '"' ∧ c ≠ '>' := by
  intro c hc
  have hdigc : ∀ {x : Char}, x.isDigit = true → x ≠ ' ' ∧ x ≠ '"' ∧ x ≠ '>' := by
    intro x hx
    exact ⟨digit_ne x ' ' hx (by decide), digit_ne x '"' hx (by decide),
      digit_ne x '>' hx (by decide)⟩
  unfold renderPos at hc
  dsimp only at hc
  have hdig : ∀ x ∈ natDigits (stripZeros a).1, x.isDigit = true :=
    natDigits_isDigit _
  split_ifs at hc with h1 h2 h3
  · rcases List.mem_append.mp hc with h | h
    · exact hdigc (hdig c h)
    · rw [List.eq_of_mem_replicate h]
      exact ⟨by decide, by decide, by decide⟩
  · rcases List.mem_append.mp hc with h | h
    · exact hdigc (hdig c (List.take_subset _ _ h))
    · rcases List.mem_cons.mp h with h' | h'
      · rw [h']
        exact ⟨by decide, by decide, by decide⟩
      · exact hdigc (hdig c (List.drop_subset _ _ h'))
  · rcases List.mem_cons.mp hc with h' | h'
    · rw [h']
      exact ⟨by decide, by decide, by decide⟩
    · rcases List.mem_cons.mp h' with h'' | h''
      · rw [h'']
        exact ⟨by decide, by decide, by decide⟩
      · rcases List.mem_append.mp h'' with h | h
        · rw [List.eq_of_mem_replicate h]
          exact ⟨by decide, by decide, by decide⟩
        · exact hdigc (hdig c h)
  · cases hds : natDigits (stripZeros a).1 with
    | nil => rw [hds] at hc; cases hc
    | cons d rest =>
      rw [hds] at hc
      dsimp only at hc
      rcases List.mem_append.mp hc with h | h
      · rcases List.mem_cons.mp h with h' | h'
        · rw [h']
          exact hdigc (hdig d (hds ▸ List.mem_cons_self _ _))
        · by_cases hr : rest = []
          · rw [if_pos hr] at h'
            cases h'
          · rw [if_neg hr] at h'
            rcases List.mem_cons.mp h' with h'' | h''
            · rw [h'']
              exact ⟨by decide, by decide, by decide⟩
            · exact hdigc (hdig c (hds ▸ List.mem_cons_of_mem d h''))
      · rcases List.mem_cons.mp h with h' | h'
        · rw [h']
          exact ⟨by decide, by decide, by decide⟩
        · rcases List.mem_cons.mp h' with h'' | h''
          · rw [h'']
            exact ⟨by decide, by decide, by decide⟩
          · exact hdigc (natDigits_isDigit _ c h'')
  · cases hds : natDigits (stripZeros a).1 with
    | nil => rw [hds] at hc; cases hc
    | cons d rest =>
      rw [hds] at hc
      dsimp only at hc
      rcases List.mem_append.mp hc with h | h
      · rcases List.mem_cons.mp h with h' | h'
        · rw [h']
          exact hdigc (hdig d (hds ▸ List.mem_cons_self _ _))
        · by_cases hr : rest = []
          · rw [if_pos hr] at h'
            cases h'
          · rw [if_neg hr] at h'
            rcases List.mem_cons.mp h' with h'' | h''
            · rw [h'']
              exact ⟨by decide, by decide, by decide⟩
            · exact hdigc (hdig c (hds ▸ List.mem_cons_of_mem d h''))
      · rcases List.mem_cons.mp h with h' | h'
        · rw [h']
          exact ⟨by decide, by decide, by decide⟩
        · rcases List.mem_cons.mp h' with h'' | h''
          · rw [h'']
            exact ⟨by decide, by decide, by decide⟩
          · exact hdigc (natDigits_isDigit _ c h'')

theorem renderPos_ne_nil (a e : ℕ) : renderPos a e ≠ [] := by
  unfold renderPos
  dsimp only
  have hne := natDigits_ne_nil (stripZeros a).1
  split_ifs
  · simp [hne]
  · simp
  · simp
  · cases hds : natDigits (stripZeros a).1 with
    | nil => exact absurd hds hne
    | cons d rest => simp
  · cases hds : natDigits (stripZeros a).1 with
    | nil => exact absurd hds hne
    | cons d rest => simp

theorem jsToString_chars (v : JSVal) :
    jsToString v ≠ [] ∧ ∀ c ∈ jsToString v, c ≠ ' ' ∧ c ≠ '"' ∧ c ≠ '>' := by
  cases v with
  | undefined => exact ⟨by decide, by decide⟩
  | nan => exact ⟨by decide, by decide⟩
  | inf b => cases b <;> exact ⟨by decide, by decide⟩
  | zero b => cases b <;> exact ⟨by decide, by decide⟩
  | num sg m e =>
    constructor
    · cases sg
      · simp only [jsToString]
        intro h
        rw [List.append_eq_nil] at h
        exact renderPos_ne_nil _ _ h.2
      · simp only [jsToString]
        intro h
        rw [List.append_eq_nil] at h
        exact renderPos_ne_nil _ _ h.2
    · intro c hc
      simp only [jsToString] at hc
      rcases List.mem_append.mp hc with h | h
      · cases sg
        · rcases List.mem_singleton.mp (by simpa using h) with h'
          rw [h']
          exact ⟨by decide, by decide, by decide⟩
        · simp at h
      · exact renderPos_chars _ _ c h

theorem roundPos_ne_undefined (sg : Bool) (p q : ℕ) : roundPos sg p q ≠ .undefined := by
  rcases roundPos_shape sg p q with h | h | ⟨n, e, h, _⟩ <;> rw [h] <;> intro hc <;>
    exact JSVal.noConfusion hc

theorem jsParseFloat_ne_undefined (l : List Char) : jsParseFloat l ≠ .undefined := by
  unfold jsParseFloat
  dsimp only
  split
  · intro h
    exact JSVal.noConfusion h
  · split
    · intro h
      exact JSVal.noConfusion h
    · exact roundPos_ne_undefined _ _ _

theorem jsParseFloat_wf (l : List Char) : WF (jsParseFloat l) := by
  unfold jsParseFloat
  dsimp only
  split
  · trivial
  · split
    · trivial
    · exact roundPos_wf _ _ _

theorem vbField_wf (v : List Char) (i : ℕ) : WF (vbField v i) := by
  unfold vbField
  by_cases hi : i < ((splitOnChar ' ' v).map jsParseFloat).length
  · rw [List.getD_eq_getElem _ _ hi, List.getElem_map]
    exact jsParseFloat_wf _
  · rw [List.getD_eq_default _ _ (by omega)]
    trivial

theorem vbField_ne_undefined {v : List Char} {i : ℕ}
    (h : i < (splitOnChar ' ' v).length) :
    vbField v i ≠ .undefined := by
  unfold vbField
  have hlen : i < ((splitOnChar ' ' v).map jsParseFloat).length := by
    rw [List.length_map]
    exact h
  rw [List.getD_eq_getElem _ _ hlen, List.getElem_map]
  exact jsParseFloat_ne_undefined _

theorem toS_canonJS {v : JSVal} (hv : v ≠ .undefined) :
    jsToString (canonJS v) = jsToString v := by
  cases v with
  | undefined => exact absurd rfl hv
  | nan => rfl
  | inf b => rfl
  | zero b => cases b <;> rfl
  | num sg m e => rfl

theorem jsToString_roundtrip (v : JSVal) (hwf : WF v) (hv : v ≠ .undefined) :
    jsToString (jsParseFloat (jsToString v)) = jsToString v := by
  rw [jsParseFloat_toS v hwf]
  exact toS_canonJS hv

theorem jsToString_mul12_roundtrip (v : JSVal) (hwf : WF v) (hv : v ≠ .undefined) :
    jsToString (jsMul12 (jsParseFloat (jsToString v))) = jsToString (jsMul12 v) := by
  rw [jsParseFloat_toS v hwf]
  cases v with
  | undefined => exact absurd rfl hv
  | nan => rfl
  | inf b => rfl
  | zero b => cases b <;> rfl
  | num sg m e => rfl

theorem fixCore_rewrite {s p v u : List Char} (hf : findVB s = some (p, v, u))
    (hgt : ¬ jsGt0 (vbField v 3) = true) :
    fixViewBoxCore s =
      p ++ (vbLit ++ ((jsToString (vbField v 0) ++ ' ' :: (jsToString (vbField v 1) ++
        ' ' :: (jsToString (vbField v 2) ++ ' ' :: jsToString (jsMul12 (vbField v 2))))) ++
        '"' :: u)) := by
  unfold fixViewBoxCore
  rw [hf]
  dsimp only
  rw [if_neg hgt]
  simp [List.append_assoc]

theorem c3_amended_core (s : List Char)
    (hfield : ∀ p v u, findVB s = some (p, v, u) → 3 ≤ (splitOnChar ' ' v).length) :
    fixViewBoxCore (fixViewBoxCore s) = fixViewBoxCore s := by
  cases hf : findVB s with
  | none =>
    have h1 : fixViewBoxCore s = s := by
      unfold fixViewBoxCore
      rw [hf]
    rw [h1, h1]
  | some t =>
    obtain ⟨p, v, u⟩ := t
    have hlen := hfield p v u hf
    by_cases hgt : jsGt0 (vbField v 3) = true
    · have h1 : fixViewBoxCore s = s := by
        unfold fixViewBoxCore
        rw [hf]
        dsimp only
        rw [if_pos hgt]
      rw [h1, h1]
    · have h1 := fixCore_rewrite hf hgt
      set X := jsToString (vbField v 0) with hX
      set Y := jsToString (vbField v 1) with hY
      set W := jsToString (vbField v 2) with hW
      set H := jsToString (jsMul12 (vbField v 2)) with hH
      have hXne : X ≠ [] := (jsToString_chars (vbField v 0)).1
      have hXch : ∀ c ∈ X, c ≠ ' ' ∧ c ≠ '"' ∧ c ≠ '>' := (jsToString_chars (vbField v 0)).2
      have hYch : ∀ c ∈ Y, c ≠ ' ' ∧ c ≠ '"' ∧ c ≠ '>' := (jsToString_chars (vbField v 1)).2
      have hWch : ∀ c ∈ W, c ≠ ' ' ∧ c ≠ '"' ∧ c ≠ '>' := (jsToString_chars (vbField v 2)).2
      have hHch : ∀ c ∈ H, c ≠ ' ' ∧ c ≠ '"' ∧ c ≠ '>' := (jsToString_chars (jsMul12 (vbField v 2))).2
      set NV := X ++ ' ' :: (Y ++ ' ' :: (W ++ ' ' :: H)) with hNV
      have hNVne : NV ≠ [] := by
        rw [hNV]
        intro hnil
        simp at hnil
      have hNVq : '"' ∉ NV := by
        rw [hNV]
        intro hmem
        rcases List.mem_append.mp hmem with h | h
        · exact (hXch _ h).2.1 rfl
        · rcases List.mem_cons.mp h with h' | h'
          · exact absurd h' (by decide)
          · rcases List.mem_append.mp h' with h | h
            · exact (hYch _ h).2.1 rfl
            · rcases List.mem_cons.mp h with h' | h'
              · exact absurd h' (by decide)
              · rcases List.mem_append.mp h' with h | h
                · exact (hWch _ h).2.1 rfl
                · rcases List.mem_cons.mp h with h' | h'
                  · exact absurd h' (by decide)
                  · exact (hHch _ h').2.1 rfl
      have hf2 : findVB (p ++ (vbLit ++ (NV ++ '"' :: u))) = some (p, NV, u) :=
        findVB_replace NV hf hNVne hNVq
      have hsplit : splitOnChar ' ' NV = [X, Y, W, H] := by
        rw [hNV]
        rw [splitOnChar_sep_append _ (fun hm => (hXch _ hm).1 rfl)]
        rw [splitOnChar_sep_append _ (fun hm => (hYch _ hm).1 rfl)]
        rw [splitOnChar_sep_append _ (fun hm => (hWch _ hm).1 rfl)]
        rw [splitOnChar_no_sep (fun hm => (hHch _ hm).1 rfl)]
      have hf0v : vbField NV 0 = jsParseFloat X := by
        unfold vbField
        rw [hsplit]
        simp
      have hf1v : vbField NV 1 = jsParseFloat Y := by
        unfold vbField
        rw [hsplit]
        simp
      have hf2v : vbField NV 2 = jsParseFloat W := by
        unfold vbField
        rw [hsplit]
        simp
      rw [h1]
      by_cases hgt2 : jsGt0 (vbField NV 3) = true
      · unfold fixViewBoxCore
        rw [hf2]
        dsimp only
        rw [if_pos hgt2]
      · have h2 := fixCore_rewrite hf2 hgt2
        rw [h2]
        have hrX : jsToString (jsParseFloat X) = X := by
          rw [hX]
          exact jsToString_roundtrip (vbField v 0) (vbField_wf v 0)
            (vbField_ne_undefined (by omega))
        have hrY : jsToString (jsParseFloat Y) = Y := by
          rw [hY]
          exact jsToString_roundtrip (vbField v 1) (vbField_wf v 1)
            (vbField_ne_undefined (by omega))
        have hrW : jsToString (jsParseFloat W) = W := by
          rw [hW]
          exact jsToString_roundtrip (vbField v 2) (vbField_wf v 2)
            (vbField_ne_undefined (by omega))
        have hrH : jsToString (jsMul12 (jsParseFloat W)) = H := by
          rw [hW, hH]
          exact jsToString_mul12_roundtrip (vbField v 2) (vbField_wf v 2)
            (vbField_ne_undefined (by omega))
        rw [hf0v, hf1v, hf2v, hrX, hrY, hrW, hrH]



/-! ### Shape preservation of the tag rewrite and batch idempotence -/

theorem bool_eq_false {x : Bool} (h : ¬ x = true) : x = false := by
  cases x
  · rfl
  · exact absurd rfl h

theorem splitAtGt_none {l : List Char} (h : splitAtGt l = none) : '>' ∉ l := by
  induction l with
  | nil => simp
  | cons c cs ih =>
    unfold splitAtGt at h
    by_cases hc : c = '>'
    · rw [if_pos hc] at h
      exact Option.noConfusion h
    · rw [if_neg hc] at h
      cases hg : splitAtGt cs with
      | some p =>
        rw [hg] at h
        exact Option.noConfusion h
      | none =>
        intro hmem
        rcases List.mem_cons.mp hmem with h' | h'
        · exact hc h'.symm
        · exact ih hg h'

theorem splitAtGt_append {a : List Char} (b : List Char) (ha : '>' ∉ a) :
    splitAtGt (a ++ '>' :: b) = some (a, b) := by
  induction a with
  | nil => simp [splitAtGt]
  | cons c cs ih =>
    have hc : c ≠ '>' := fun h => ha (h ▸ List.mem_cons_self c cs)
    have hcs : '>' ∉ cs := fun h => ha (List.mem_cons_of_mem c h)
    simp [splitAtGt, hc, ih hcs]

/-- The four-character window deciding an `<svg` match at a gap
position is unchanged when the tail beyond the gap again starts with
`<svg`. -/
theorem take4_boundary (x y z : List Char) :
    (x ++ (svgLit ++ y)).take 4 = (x ++ (svgLit ++ z)).take 4 := by
  rw [List.take_append_eq_append_take, List.take_append_eq_append_take]
  rw [List.take_append_eq_append_take, List.take_append_eq_append_take]
  rw [show 4 - x.length - svgLit.length = 0 from by
    have h4 : svgLit.length = 4 := rfl
    omega]
  simp

/-- Complete specification of the leftmost `/<svg[^>]*>/` match: the
decomposition, the shape of the matched tag, and the absence of a
match at every earlier position. -/
theorem splitFirstTag_spec {s g t r : List Char}
    (h : splitFirstTag s = some (g, t, r)) :
    s = g ++ t ++ r ∧ (∃ b, t = svgLit ++ b ++ ['>'] ∧ '>' ∉ b) ∧
    ∀ g1 c g2, g = g1 ++ c :: g2 →
      svgLit.isPrefixOf (c :: (g2 ++ (t ++ r))) = false := by
  induction s generalizing g with
  | nil => simp [splitFirstTag] at h
  | cons c0 cs ih =>
    unfold splitFirstTag at h
    by_cases hp : svgLit.isPrefixOf (c0 :: cs) = true
    · rw [if_pos hp] at h
      cases hg : splitAtGt ((c0 :: cs).drop 4) with
      | some p =>
        obtain ⟨body, rest⟩ := p
        rw [hg] at h
        simp only [Option.some_inj, Prod.mk.injEq] at h
        obtain ⟨h1, h2, h3⟩ := h
        subst h1
        subst h2
        subst h3
        obtain ⟨tail, htail⟩ := isPrefixOf_ex hp
        have hdrop : (c0 :: cs).drop 4 = tail := by
          rw [htail]
          exact List.drop_left' rfl
        rw [hdrop] at hg
        obtain ⟨hte, htg⟩ := splitAtGt_eq hg
        refine ⟨?_, ⟨body, rfl, htg⟩, ?_⟩
        · rw [htail, hte]
          simp
        · intro g1 c g2 hdec
          exact absurd hdec (by simp)
      | none =>
        rw [hg] at h
        simp only [Option.map_eq_some'] at h
        obtain ⟨⟨g', t', r'⟩, h1, h2⟩ := h
        simp only [Prod.mk.injEq] at h2
        obtain ⟨h2a, h2b, h2c⟩ := h2
        subst h2b
        subst h2c
        obtain ⟨hse, ⟨b, htb, hbg⟩, hginv⟩ := ih h1
        exfalso
        have hng := splitAtGt_none hg
        have hdrop : (c0 :: cs).drop 4 = cs.drop 3 := rfl
        rw [hdrop] at hng
        apply hng
        rw [hse, htb]
        rw [show g' ++ (svgLit ++ b ++ ['>']) ++ r' = (g' ++ (svgLit ++ b)) ++ ('>' :: r') from by
          simp]
        rw [List.drop_append_eq_append_drop]
        apply List.mem_append_right
        rw [show 3 - (g' ++ (svgLit ++ b)).length = 0 from by
          have h4 : svgLit.length = 4 := rfl
          simp only [List.length_append]
          omega]
        exact List.mem_cons_self _ _
    · rw [if_neg hp] at h
      simp only [Option.map_eq_some'] at h
      obtain ⟨⟨g', t', r'⟩, h1, h2⟩ := h
      simp only [Prod.mk.injEq] at h2
      obtain ⟨h2a, h2b, h2c⟩ := h2
      subst h2a
      subst h2b
      subst h2c
      obtain ⟨hse, hshape, hginv⟩ := ih h1
      refine ⟨by simp [hse], hshape, ?_⟩
      intro g1 c g2 hdec
      cases g1 with
      | nil =>
        simp only [List.nil_append] at hdec
        injection hdec with hc hg2
        subst hc
        rw [← hg2]
        rw [show g' ++ (t' ++ r') = cs from by rw [hse]; simp]
        exact bool_eq_false hp
      | cons a g1' =>
        injection hdec with hc hdec2
        exact hginv g1' c g2 hdec2

/-- Replaying the scan over a gap with no match, followed by a
well-formed tag, finds exactly that tag. -/
theorem splitFirstTag_replay {b X : List Char} (hb : '>' ∉ b) :
    ∀ g : List Char,
      (∀ g1 c g2, g = g1 ++ c :: g2 →
        svgLit.isPrefixOf (c :: (g2 ++ (svgLit ++ (b ++ ('>' :: X))))) = false) →
      splitFirstTag (g ++ (svgLit ++ (b ++ ('>' :: X)))) =
        some (g, svgLit ++ b ++ ['>'], X) := by
  intro g
  induction g with
  | nil =>
    intro _
    rw [List.nil_append]
    show splitFirstTag ('<' :: ('s' :: 'v' :: 'g' :: (b ++ ('>' :: X)))) = _
    unfold splitFirstTag
    have hpre : svgLit.isPrefixOf ('<' :: ('s' :: 'v' :: 'g' :: (b ++ ('>' :: X)))) = true := by
      show svgLit.isPrefixOf (svgLit ++ (b ++ ('>' :: X))) = true
      exact isPrefixOf_append _ _
    rw [if_pos hpre]
    have hdrop : ('<' :: ('s' :: 'v' :: 'g' :: (b ++ ('>' :: X)))).drop 4 = b ++ ('>' :: X) := rfl
    rw [hdrop]
    rw [splitAtGt_append X hb]
  | cons a g' ih =>
    intro hg
    rw [List.cons_append]
    unfold splitFirstTag
    have hfa := hg [] a g' rfl
    rw [if_neg (show ¬ svgLit.isPrefixOf (a :: (g' ++ (svgLit ++ (b ++ ('>' :: X))))) = true from by
      rw [hfa]
      exact Bool.false_ne_true)]
    rw [ih (fun g1 c g2 hdec => hg (a :: g1) c g2 (by rw [hdec]; rfl))]
    rfl

theorem toS_chain_no_gt (v : List Char) :
    '>' ∉ jsToString (vbField v 0) ++ ' ' :: jsToString (vbField v 1) ++
      ' ' :: jsToString (vbField v 2) ++ ' ' :: jsToString (jsMul12 (vbField v 2)) := by
  intro hm
  simp only [List.append_assoc, List.cons_append] at hm
  rcases List.mem_append.mp hm with h | h
  · exact ((jsToString_chars _).2 _ h).2.2 rfl
  · rcases List.mem_cons.mp h with h' | h'
    · exact absurd h' (by decide)
    · rcases List.mem_append.mp h' with h | h
      · exact ((jsToString_chars _).2 _ h).2.2 rfl
      · rcases List.mem_cons.mp h with h' | h'
        · exact absurd h' (by decide)
        · rcases List.mem_append.mp h' with h | h
          · exact ((jsToString_chars _).2 _ h).2.2 rfl
          · rcases List.mem_cons.mp h with h' | h'
            · exact absurd h' (by decide)
            · exact ((jsToString_chars _).2 _ h').2.2 rfl

/-- The repair callback maps a well-formed `<svg…>` opening tag to a
well-formed `<svg…>` opening tag. -/
theorem core_tag_shape {b : List Char} (hb : '>' ∉ b) :
    ∃ b', fixViewBoxCore (svgLit ++ b ++ ['>']) = svgLit ++ b' ++ ['>'] ∧ '>' ∉ b' := by
  cases hf : findVB (svgLit ++ b ++ ['>']) with
  | none =>
    refine ⟨b, ?_, hb⟩
    unfold fixViewBoxCore
    rw [hf]
  | some p =>
    obtain ⟨pre, v, u⟩ := p
    by_cases hgt : jsGt0 (vbField v 3) = true
    · refine ⟨b, ?_, hb⟩
      unfold fixViewBoxCore
      rw [hf]
      dsimp only
      rw [if_pos hgt]
    · obtain ⟨hteq, hqv, hvne⟩ := findVB_structure hf
      have hz : '>' ∉ svgLit ++ b := by
        intro hm
        rcases List.mem_append.mp hm with h | h
        · exact absurd h (by decide)
        · exact hb h
      rcases List.eq_nil_or_concat u with rfl | ⟨u', x, hux⟩
      · exfalso
        have he0 : (svgLit ++ b) ++ ['>'] = (pre ++ vbLit ++ v) ++ ['"'] := by
          simp only [List.append_assoc] at hteq ⊢
          simpa using hteq
        have hlen : (svgLit ++ b).length = (pre ++ vbLit ++ v).length := by
          have hl := congrArg List.length he0
          simp only [List.length_append, List.length_cons, List.length_nil] at hl ⊢
          omega
        obtain ⟨h1, h2⟩ := List.append_inj he0 hlen
        simp at h2
      · rw [List.concat_eq_append] at hux
        subst hux
        have he0 : (svgLit ++ b) ++ ['>'] = ((pre ++ vbLit ++ v) ++ '"' :: u') ++ [x] := by
          simp only [List.append_assoc] at hteq ⊢
          simpa using hteq
        have hlen : (svgLit ++ b).length = ((pre ++ vbLit ++ v) ++ '"' :: u').length := by
          have hl := congrArg List.length he0
          simp only [List.length_append, List.length_cons, List.length_nil] at hl ⊢
          omega
        obtain ⟨h1, h2⟩ := List.append_inj he0 hlen
        have hx : x = '>' := by
          injection h2 with hx2 _
          exact hx2.symm
        subst hx
        have hpre_gt : '>' ∉ pre := by
          intro hm
          apply hz
          rw [h1]
          simp [hm]
        have hu2_gt : '>' ∉ u' := by
          intro hm
          apply hz
          rw [h1]
          simp [hm]
        have h1x : svgLit ++ b = pre ++ (vbLit ++ (v ++ '"' :: u')) := by
          simpa [List.append_assoc] using h1
        obtain ⟨p4, hpre⟩ : ∃ p4, pre = svgLit ++ p4 := by
          cases pre with
          | nil =>
            rw [show svgLit = '<' :: 's' :: 'v' :: 'g' :: [] from rfl,
              show vbLit = 'v' :: 'i' :: 'e' :: 'w' :: 'B' :: 'o' :: 'x' :: '=' :: '"' :: []
                from rfl] at h1x
            simp at h1x
          | cons a1 p1 =>
            cases p1 with
            | nil =>
              rw [show svgLit = '<' :: 's' :: 'v' :: 'g' :: [] from rfl,
                show vbLit = 'v' :: 'i' :: 'e' :: 'w' :: 'B' :: 'o' :: 'x' :: '=' :: '"' :: []
                  from rfl] at h1x
              simp at h1x
            | cons a2 p2 =>
              cases p2 with
              | nil =>
                rw [show svgLit = '<' :: 's' :: 'v' :: 'g' :: [] from rfl,
                  show vbLit = 'v' :: 'i' :: 'e' :: 'w' :: 'B' :: 'o' :: 'x' :: '=' :: '"' :: []
                    from rfl] at h1x
                simp at h1x
              | cons a3 p3 =>
                cases p3 with
                | nil =>
                  rw [show svgLit = '<' :: 's' :: 'v' :: 'g' :: [] from rfl,
                    show vbLit = 'v' :: 'i' :: 'e' :: 'w' :: 'B' :: 'o' :: 'x' :: '=' :: '"' :: []
                      from rfl] at h1x
                  simp at h1x
                | cons a4 p4 =>
                  refine ⟨p4, ?_⟩
                  rw [show svgLit = '<' :: 's' :: 'v' :: 'g' :: [] from rfl] at h1x ⊢
                  simp only [List.cons_append, List.nil_append, List.cons.injEq] at h1x
                  obtain ⟨ha1, ha2, ha3, ha4, -⟩ := h1x
                  subst ha1
                  subst ha2
                  subst ha3
                  subst ha4
                  rfl
        have hcore := core_rewrites_degenerate (svgLit ++ b ++ ['>']) pre v (u' ++ ['>']) hf
          (bool_eq_false hgt)
        refine ⟨p4 ++ (vbLit ++ ((jsToString (vbField v 0) ++ ' ' :: jsToString (vbField v 1) ++
          ' ' :: jsToString (vbField v 2) ++ ' ' :: jsToString (jsMul12 (vbField v 2))) ++
          '"' :: u')), ?_, ?_⟩
        · rw [hcore, hpre]
          simp [List.append_assoc]
        · intro hm
          rcases List.mem_append.mp hm with h | h
          · apply hpre_gt
            rw [hpre]
            exact List.mem_append_right _ h
          · rcases List.mem_append.mp h with h | h
            · exact absurd h (by decide)
            · rcases List.mem_append.mp h with h | h
              · exact toS_chain_no_gt v h
              · rcases List.mem_cons.mp h with h' | h'
                · exact absurd h' (by decide)
                · exact hu2_gt h'

theorem fixMultiple_idem_aux :
    ∀ (n : ℕ) (s : List Char), s.length ≤ n →
      (∀ gt ∈ (scanTags s).1, ∀ p v u, findVB gt.2 = some (p, v, u) →
        3 ≤ (splitOnChar ' ' v).length) →
      fixMultipleSvgViewBoxes (fixMultipleSvgViewBoxes s) = fixMultipleSvgViewBoxes s := by
  intro n
  induction n with
  | zero =>
    intro s hlen _
    have hs : s = [] := List.eq_nil_of_length_eq_zero (by omega)
    subst hs
    rfl
  | succ n ih =>
    intro s hlen hC
    cases hsp : splitFirstTag s with
    | none => rw [fixMultiple_eq_none hsp, fixMultiple_eq_none hsp]
    | some p =>
      obtain ⟨g, t, r⟩ := p
      obtain ⟨hseq, ⟨b, htb, hbgt⟩, hg0⟩ := splitFirstTag_spec hsp
      have hscan := scanTags_eq_some hsp
      have hCt : ∀ p v u, findVB t = some (p, v, u) → 3 ≤ (splitOnChar ' ' v).length := by
        intro p v u hf
        exact hC (g, t) (by rw [hscan]; exact List.mem_cons_self _ _) p v u hf
      have hCr : ∀ gt ∈ (scanTags r).1, ∀ p v u, findVB gt.2 = some (p, v, u) →
          3 ≤ (splitOnChar ' ' v).length := by
        intro gt hm p v u hf
        exact hC gt (by rw [hscan]; exact List.mem_cons_of_mem _ hm) p v u hf
      obtain ⟨b', hshape0, hb'⟩ := core_tag_shape hbgt
      have hshape : fixViewBoxCore t = svgLit ++ b' ++ ['>'] := by
        rw [htb]
        exact hshape0
      have hlen_t : 5 ≤ t.length := (splitFirstTag_structure hsp).2
      have hlen_r : r.length ≤ n := by
        have hl := congrArg List.length hseq
        simp only [List.length_append] at hl
        omega
      have hIH := ih r hlen_r hCr
      rw [fixMultiple_eq_some hsp]
      have hg2 : ∀ g1 c g2, g = g1 ++ c :: g2 →
          svgLit.isPrefixOf (c :: (g2 ++ (svgLit ++ (b' ++ ('>' ::
            fixMultipleSvgViewBoxes r))))) = false := by
        intro g1 c g2 hdec
        have h0 := hg0 g1 c g2 hdec
        rw [← h0]
        apply isPrefixOf_congr
        rw [htb]
        show ((c :: g2) ++ (svgLit ++ (b' ++ ('>' :: fixMultipleSvgViewBoxes r)))).take 4 =
          ((c :: g2) ++ ((svgLit ++ b ++ ['>']) ++ r)).take 4
        rw [show (svgLit ++ b ++ ['>']) ++ r = svgLit ++ (b ++ ('>' :: r)) from by simp]
        exact take4_boundary (c :: g2) _ _
      have hreplay := splitFirstTag_replay hb' g hg2
      have hform : g ++ fixViewBoxCore t ++ fixMultipleSvgViewBoxes r =
          g ++ (svgLit ++ (b' ++ ('>' :: fixMultipleSvgViewBoxes r))) := by
        rw [hshape]
        simp
      rw [hform]
      rw [fixMultiple_eq_some hreplay]
      rw [hIH]
      have hcc : fixViewBoxCore (svgLit ++ b' ++ ['>']) = svgLit ++ b' ++ ['>'] := by
        rw [← hshape]
        exact c3_amended_core t hCt
      rw [hcc]
      simp

/-- Claim C3 (amended).  Both viewBox repairs are idempotent on inputs
whose viewBox values split into at least three space-separated fields:
`fixSvgViewBox` whenever the first `viewBox="…"` value of the fragment
has at least three fields, and `fixMultipleSvgViewBoxes` whenever the
viewBox value of every `<svg…>` opening tag found by its global scan
has at least three fields (in particular on every well-formed
four-component viewBox, whatever the numbers are — zero, negative or
non-numeric).  The original unconditional claim is false: when a
captured value has fewer than three fields the missing width is
`undefined`, the rewrite prints `undefined`/`NaN`, and a second pass
reparses those strings to `NaN` and prints different text (see the
counterexample, which exhibits the failure for both operations). -/
theorem c3_amended :
    (∀ s : List Char,
      (∀ p v u, findVB s = some (p, v, u) → 3 ≤ (splitOnChar ' ' v).length) →
      fixSvgViewBox (fixSvgViewBox s) = fixSvgViewBox s) ∧
    (∀ s : List Char,
      (∀ gt ∈ (scanTags s).1, ∀ p v u, findVB gt.2 = some (p, v, u) →
        3 ≤ (splitOnChar ' ' v).length) →
      fixMultipleSvgViewBoxes (fixMultipleSvgViewBoxes s) = fixMultipleSvgViewBoxes s) := by
  constructor
  · intro s hfield
    unfold fixSvgViewBox
    exact c3_amended_core s hfield
  · intro s hC
    exact fixMultiple_idem_aux s.length s le_rfl hC

/-- Counterexample to the literal claim C3: on
`<svg viewBox="0 0"></svg>` one repair pass produces
`viewBox="0 0 undefined NaN"` and a second pass turns it into
`viewBox="0 0 NaN NaN"`, for both the single-fragment repair and the
batch repair. -/
theorem c3_counterexample :
    fixSvgViewBox (fixSvgViewBox "<svg viewBox=\"0 0\"></svg>".data) ≠
      fixSvgViewBox "<svg viewBox=\"0 0\"></svg>".data ∧
    fixMultipleSvgViewBoxes
        (fixMultipleSvgViewBoxes "<svg viewBox=\"0 0\"></svg>".data) ≠
      fixMultipleSvgViewBoxes "<svg viewBox=\"0 0\"></svg>".data := by
  constructor
  · decide
  · decide

theorem c3_witness :
    fixSvgViewBox (fixSvgViewBox "<svg viewBox=\"0 0 200 0\"></svg>".data) =
      fixSvgViewBox "<svg viewBox=\"0 0 200 0\"></svg>".data ∧
    fixMultipleSvgViewBoxes
        (fixMultipleSvgViewBoxes "a<svg viewBox=\"0 0 4 0\">b".data) =
      fixMultipleSvgViewBoxes "a<svg viewBox=\"0 0 4 0\">b".data := by
  constructor
  · apply c3_amended.1
    intro p v u h
    have hc : findVB "<svg viewBox=\"0 0 200 0\"></svg>".data =
        some ("<svg ".data, "0 0 200 0".data, "></svg>".data) := by decide
    rw [hc] at h
    simp only [Option.some_inj, Prod.mk.injEq] at h
    obtain ⟨-, h2, -⟩ := h
    rw [← h2]
    decide
  · apply c3_amended.2
    intro gt hm p v u h
    rw [show (scanTags "a<svg viewBox=\"0 0 4 0\">b".data).1 =
      [("a".data, "<svg viewBox=\"0 0 4 0\">".data)] from by decide] at hm
    rw [List.mem_singleton] at hm
    subst hm
    rw [show findVB (("a".data, "<svg viewBox=\"0 0 4 0\">".data) :
        List Char × List Char).2 =
      some ("<svg ".data, "0 0 4 0".data, ">".data) from by decide] at h
    simp only [Option.some_inj, Prod.mk.injEq] at h
    obtain ⟨-, h2, -⟩ := h
    rw [← h2]
    decide

end MusicMd
